import Mathlib

/-!
# Verification of `rpn` (infix to Reverse Polish Notation converter and evaluator)

Shallow embedding of `rpn.go`.

* A Go `string` is the list of its bytes (`List Nat`, every byte below 256).
  The definitions are total on `Nat`; a value of 256 or more is treated as an
  invalid UTF-8 lead byte and never arises from a Go string.
* A `rune` is a natural number (the code point).
* The package-level variables `stack_ptr` and `stack` are passed explicitly
  (`Globals`).
* `float64` arithmetic is a parameter (`Float64`): the converter never looks at
  a number's value and the evaluator only combines values with the six
  arithmetic operations.
* A Go function either returns, or panics (index out of range).  Loops of the
  model are bounded by an iteration count; `Exec.timeout` is the outcome of a
  loop that used up its bound (shown unreachable where a claim needs it).
-/

namespace Rpn

/-! ## Outcomes -/

/-- Outcome of a run: normal return, run-time panic, or iteration bound used up. -/
inductive Exec (α : Type) where
  | done (a : α)
  | panic
  | timeout
  deriving DecidableEq

/-- Forget the final global state of a run. -/
def Exec.fst {α β : Type} : Exec (α × β) → Exec α
  | .done p => .done p.1
  | .panic => .panic
  | .timeout => .timeout

/-! ## Go library: UTF-8 decoding and encoding (`unicode/utf8`, `strings.Reader`) -/

/-- The constant `utf8.RuneError`. -/
def RuneError : Nat := 0xFFFD

/-- Table `utf8.first` together with `utf8.acceptRanges`, for a lead byte of
0x80 or more: `some (size, lo, hi)` for a valid lead byte (the encoded size and
the accepted range of the second byte), `none` for an invalid one. -/
def first (s0 : Nat) : Option (Nat × Nat × Nat) :=
  if s0 < 0xC2 then none
  else if s0 < 0xE0 then some (2, 0x80, 0xBF)
  else if s0 = 0xE0 then some (3, 0xA0, 0xBF)
  else if s0 < 0xED then some (3, 0x80, 0xBF)
  else if s0 = 0xED then some (3, 0x80, 0x9F)
  else if s0 < 0xF0 then some (3, 0x80, 0xBF)
  else if s0 = 0xF0 then some (4, 0x90, 0xBF)
  else if s0 < 0xF4 then some (4, 0x80, 0xBF)
  else if s0 = 0xF4 then some (4, 0x80, 0x8F)
  else none

/-- Go `utf8.DecodeRuneInString` on a string whose first byte is 0x80 or more:
the rune and its width in bytes. -/
def DecodeRuneInString (s : List Nat) : Nat × Nat :=
  match s with
  | [] => (RuneError, 0)
  | s0 :: t =>
    match first s0 with
    | none => (RuneError, 1)
    | some (sz, lo, hi) =>
      if s.length < sz then (RuneError, 1)
      else
        match t with
        | [] => (RuneError, 1)
        | s1 :: t1 =>
          if s1 < lo ∨ hi < s1 then (RuneError, 1)
          else if sz ≤ 2 then ((s0 % 32) * 64 + s1 % 64, 2)
          else
            match t1 with
            | [] => (RuneError, 1)
            | s2 :: t2 =>
              if s2 < 0x80 ∨ 0xBF < s2 then (RuneError, 1)
              else if sz ≤ 3 then ((s0 % 16) * 4096 + (s1 % 64) * 64 + s2 % 64, 3)
              else
                match t2 with
                | [] => (RuneError, 1)
                | s3 :: _ =>
                  if s3 < 0x80 ∨ 0xBF < s3 then (RuneError, 1)
                  else ((s0 % 8) * 262144 + (s1 % 64) * 4096 + (s2 % 64) * 64 + s3 % 64, 4)

/-- Go `(*strings.Reader).ReadRune`; the reader is the unread rest of the
string.  Result `none` is `io.EOF`, otherwise the rune, its size and the rest. -/
def ReadRune (reader : List Nat) : Option (Nat × Nat × List Nat) :=
  match reader with
  | [] => none
  | c :: rest =>
    if c < 0x80 then some (c, 1, rest)
    else
      let d := DecodeRuneInString (c :: rest)
      some (d.1, d.2, (c :: rest).drop d.2)

/-- Go conversion `string(r)` of a rune: its UTF-8 encoding. -/
def runeString (r : Nat) : List Nat :=
  if r < 0x80 then [r]
  else if r < 0x800 then [0xC0 + r / 64, 0x80 + r % 64]
  else if (0xD800 ≤ r ∧ r ≤ 0xDFFF) ∨ 0x10FFFF < r then [0xEF, 0xBF, 0xBD]
  else if r < 0x10000 then [0xE0 + r / 4096, 0x80 + (r / 64) % 64, 0x80 + r % 64]
  else [0xF0 + r / 262144, 0x80 + (r / 4096) % 64, 0x80 + (r / 64) % 64, 0x80 + r % 64]

/-- Bytes of a Go string literal. -/
def bytes (s : String) : List Nat :=
  s.toList.flatMap (fun ch => runeString ch.toNat)

/-! ## Package-level state and stack primitives -/

/-- Constant `OP_STACK_SIZE`. -/
def OP_STACK_SIZE : Int := 256

/-- Constant `NUM_STACK_SIZE`. -/
def NUM_STACK_SIZE : Int := 32

/-- The package-level variables: `stack_ptr int` and `stack [OP_STACK_SIZE]byte`
(the array as a map from index to byte; indexing checks the bounds). -/
structure Globals where
  stack_ptr : Int
  stack : Nat → Nat

/-- State of a freshly started program: `stack_ptr = -1`, zeroed array. -/
def fresh : Globals := ⟨-1, fun _ => 0⟩

/-- Go `push`: `stack_ptr++; stack[stack_ptr] = byte(op)`. -/
def push (op : Nat) (g : Globals) : Exec Globals :=
  let p := g.stack_ptr + 1
  if 0 ≤ p ∧ p < OP_STACK_SIZE then
    .done ⟨p, Function.update g.stack p.toNat (op % 256)⟩
  else .panic

/-- Go `pop`: `stack_ptr--`. -/
def pop (g : Globals) : Globals := ⟨g.stack_ptr - 1, g.stack⟩

/-- Go `head`: `rune(stack[stack_ptr])`. -/
def head (g : Globals) : Exec Nat :=
  if 0 ≤ g.stack_ptr ∧ g.stack_ptr < OP_STACK_SIZE then .done (g.stack g.stack_ptr.toNat)
  else .panic

/-- Go `stack_is_full`. -/
def stack_is_full (g : Globals) : Bool := decide (g.stack_ptr + 1 ≥ OP_STACK_SIZE)

/-- Go `stack_not_empty`. -/
def stack_not_empty (g : Globals) : Bool := decide (g.stack_ptr ≥ 0)

/-- Go `left_assoc`: one of `+ - * /`. -/
def left_assoc (op : Nat) : Bool := op == 43 || op == 45 || op == 42 || op == 47

/-- Go `right_assoc`: `%` or `^`. -/
def right_assoc (op : Nat) : Bool := op == 37 || op == 94

/-- Go `is_oper`. -/
def is_oper (op : Nat) : Bool :=
  op == 43 || op == 45 || op == 42 || op == 47 || op == 94 || op == 37

/-- Go `is_digit`. -/
def is_digit (op : Nat) : Bool := decide (48 ≤ op) && decide (op ≤ 57)

/-- Go `priority`. -/
def priority (op : Nat) : Int :=
  if op = 43 ∨ op = 45 then 1
  else if op = 42 ∨ op = 47 then 2
  else if op = 37 ∨ op = 94 then 3
  else -1

/-! ## `ToRPN` -/

/-- The errors `ToRPN` creates with `errors.New`; a constructor per message,
carrying the rune that is quoted into it. -/
inductive ParseErr where
  /-- Message "Open parenthesis can't be after " followed by the quoted rune. -/
  | openAfter (prevRune : Nat)
  /-- Message "Complex expression". -/
  | complex
  /-- Message "Close parenthesis can't be after " followed by the quoted rune. -/
  | closeAfter (prevRune : Nat)
  /-- Message "Missing open parenthesis". -/
  | missingOpen
  /-- Message "Operation can't be after " followed by the quoted rune. -/
  | operAfter (prevRune : Nat)
  /-- Message "Number can't be after )". -/
  | numberAfterClose
  /-- Message "Too much decimal points". -/
  | tooManyPoints
  /-- Message "Wrong symbol: " followed by the quoted rune. -/
  | wrongSymbol (r : Nat)
  /-- Message "Missing close parenthesis". -/
  | missingClose
  deriving DecidableEq

/-- Local variables of `ToRPN`. -/
structure Conv where
  pointCount : Int
  prevRune : Nat
  openParenthesisCount : Int
  wrongAt : Int
  rpnText : List Nat

/-- Values of the locals at the start of `ToRPN`. -/
def Conv.init : Conv := ⟨0, 0, 0, 0, []⟩

/-- What one pass through the `switch` does: an early `return "", wrongAt, err`,
or falling through to the end of the loop body. -/
inductive Step where
  | fail (wrongAt : Int) (err : ParseErr) (g : Globals)
  | next (c : Conv) (g : Globals)

/-- Loop of the case for a closing parenthesis:
`for head() != '(' { rpnText += string(head()); pop() }`. -/
def closeLoop : Nat → Globals → List Nat → Exec (Globals × List Nat)
  | 0, _, _ => .timeout
  | fuel + 1, g, rpnText =>
    match head g with
    | .done h =>
      if h ≠ 40 then closeLoop fuel (pop g) (rpnText ++ runeString h)
      else .done (g, rpnText)
    | .panic => .panic
    | .timeout => .timeout

/-- Condition of the operator loop, with Go's short-circuit evaluation:
`stack_not_empty() && ((left_assoc(r) && priority(head()) >= priority(r)) ||
(right_assoc(r) && priority(head()) > priority(r)))`. -/
def operCond (r : Nat) (g : Globals) : Exec Bool :=
  if stack_not_empty g then
    let right : Exec Bool :=
      if right_assoc r then
        match head g with
        | .done h => .done (decide (priority h > priority r))
        | .panic => .panic
        | .timeout => .timeout
      else .done false
    if left_assoc r then
      match head g with
      | .done h => if priority h ≥ priority r then .done true else right
      | .panic => .panic
      | .timeout => .timeout
    else right
  else .done false

/-- Loop of the operator case: `for cond { rpnText += string(head()); pop() }`. -/
def operLoop (r : Nat) : Nat → Globals → List Nat → Exec (Globals × List Nat)
  | 0, _, _ => .timeout
  | fuel + 1, g, rpnText =>
    match operCond r g with
    | .done true =>
      match head g with
      | .done h => operLoop r fuel (pop g) (rpnText ++ runeString h)
      | .panic => .panic
      | .timeout => .timeout
    | .done false => .done (g, rpnText)
    | .panic => .panic
    | .timeout => .timeout

/-- Iteration bound for the loops that pop the operator stack: each iteration
lowers `stack_ptr` by one and none runs with `stack_ptr < 0`. -/
def popFuel (g : Globals) : Nat := (g.stack_ptr + 1).toNat + 1

/-- Body of the `switch r` statement of `ToRPN` for the rune `r`. -/
def switchRune (r : Nat) (c : Conv) (g : Globals) : Exec Step :=
  if r = 40 then
    if c.prevRune ≠ 0 ∧ c.prevRune ≠ 40 ∧ ¬ is_oper c.prevRune then
      .done (.fail c.wrongAt (.openAfter c.prevRune) g)
    else if stack_is_full g then
      .done (.fail c.wrongAt .complex g)
    else
      match push r g with
      | .done g1 =>
        .done (.next { c with prevRune := r,
                              openParenthesisCount := c.openParenthesisCount + 1 } g1)
      | .panic => .panic
      | .timeout => .timeout
  else if r = 41 then
    if c.prevRune ≠ 41 ∧ ¬ is_digit c.prevRune then
      .done (.fail c.wrongAt (.closeAfter c.prevRune) g)
    else if c.openParenthesisCount = 0 then
      .done (.fail c.wrongAt .missingOpen g)
    else
      match closeLoop (popFuel g) g c.rpnText with
      | .done (g1, text) =>
        .done (.next { c with rpnText := text, prevRune := r,
                              openParenthesisCount := c.openParenthesisCount - 1,
                              pointCount := 0 } (pop g1))
      | .panic => .panic
      | .timeout => .timeout
  else if r = 43 ∨ r = 45 ∨ r = 42 ∨ r = 47 ∨ r = 37 ∨ r = 94 then
    if c.prevRune ≠ 41 ∧ ¬ is_digit c.prevRune then
      .done (.fail c.wrongAt (.operAfter c.prevRune) g)
    else
      match operLoop r (popFuel g) g (c.rpnText ++ [32]) with
      | .done (g1, text) =>
        if stack_is_full g1 then .done (.fail c.wrongAt .complex g1)
        else
          match push r g1 with
          | .done g2 =>
            .done (.next { c with rpnText := text, prevRune := r, pointCount := 0 } g2)
          | .panic => .panic
          | .timeout => .timeout
      | .panic => .panic
      | .timeout => .timeout
  else if r = 46 then
    if c.prevRune = 41 then .done (.fail c.wrongAt .numberAfterClose g)
    else if c.pointCount > 0 then .done (.fail c.wrongAt .tooManyPoints g)
    else
      .done (.next { c with rpnText := c.rpnText ++ runeString r, prevRune := r,
                            pointCount := c.pointCount + 1 } g)
  else if is_digit r then
    if c.prevRune = 41 then .done (.fail c.wrongAt .numberAfterClose g)
    else .done (.next { c with rpnText := c.rpnText ++ runeString r, prevRune := r } g)
  else .done (.fail c.wrongAt (.wrongSymbol r) g)

/-- The main `for` loop of `ToRPN`: read a rune, run the `switch`, add the
rune's size to `wrongAt`.  It ends with `Step.next` at `io.EOF` (the `break`)
and with `Step.fail` at an early `return`. -/
def scan : Nat → List Nat → Conv → Globals → Exec Step
  | 0, _, _, _ => .timeout
  | fuel + 1, reader, c, g =>
    match ReadRune reader with
    | none => .done (.next c g)
    | some (r, runeSize, reader1) =>
      match switchRune r c g with
      | .done (.next c1 g1) =>
        scan fuel reader1 { c1 with wrongAt := c1.wrongAt + runeSize } g1
      | .done (.fail w e g1) => .done (.fail w e g1)
      | .panic => .panic
      | .timeout => .timeout

/-- Final loop of `ToRPN`: `for stack_not_empty() { rpnText += string(head()); pop() }`. -/
def drain : Nat → Globals → List Nat → Exec (Globals × List Nat)
  | 0, _, _ => .timeout
  | fuel + 1, g, rpnText =>
    if stack_not_empty g then
      match head g with
      | .done h => drain fuel (pop g) (rpnText ++ runeString h)
      | .panic => .panic
      | .timeout => .timeout
    else .done (g, rpnText)

/-- The three results of `ToRPN`: `rpnText`, `wrongAt`, `parseErr` (`none` is `nil`). -/
abbrev Ret := List Nat × Int × Option ParseErr

/-- Go `ToRPN`, run with the package-level state `g`; returns the results and
the package-level state it leaves. -/
def ToRPN (g : Globals) (expression : List Nat) : Exec (Ret × Globals) :=
  match scan (expression.length + 1) expression Conv.init g with
  | .done (.fail w e g1) => .done (([], w, some e), g1)
  | .done (.next c g1) =>
    if c.openParenthesisCount > 0 then
      .done (([], c.wrongAt, some .missingClose), g1)
    else
      match drain (popFuel g1) g1 c.rpnText with
      | .done (g2, text) => .done ((text, -1, none), g2)
      | .panic => .panic
      | .timeout => .timeout
  | .panic => .panic
  | .timeout => .timeout

/-! ## `calculateRPN` and `Calculate` -/

/-- The `float64` type of Go as a parameter: its zero value, the four
arithmetic operators, `math.Pow`, `math.Mod`, and the value `strconv.ParseFloat(s, 64)`
returns (the error it returns with it is dropped by `get_num`). -/
structure Float64 (F : Type) where
  zero : F
  add : F → F → F
  sub : F → F → F
  mul : F → F → F
  div : F → F → F
  Pow : F → F → F
  Mod : F → F → F
  ParseFloat : List Nat → F

/-- The errors `calculateRPN` creates with `errors.New`. -/
inductive EvalErr where
  /-- Message "Can't do " followed by the quoted rune and ", few operands". -/
  | fewOperands (r : Nat)
  /-- Message "Complex expression". -/
  | complex
  /-- Message "I need more operations". -/
  | needMoreOperations
  deriving DecidableEq

/-- Loop of `get_num`: collects the digits and points in `s`; at another rune it
calls `UnreadRune`, which puts the reader back before that rune. -/
def get_num_loop : Nat → List Nat → List Nat → Exec (List Nat × List Nat)
  | 0, _, _ => .timeout
  | fuel + 1, reader, s =>
    match ReadRune reader with
    | none => .done (s, reader)
    | some (r, _, reader1) =>
      if r = 46 ∨ is_digit r then get_num_loop fuel reader1 (s ++ runeString r)
      else .done (s, reader)

/-- Go `get_num`: the parsed value and the reader it leaves. -/
def get_num {F : Type} (A : Float64 F) (reader : List Nat) : Exec (F × List Nat) :=
  match get_num_loop (reader.length + 1) reader [] with
  | .done (s, reader1) => .done (A.ParseFloat s, reader1)
  | .panic => .panic
  | .timeout => .timeout

/-- What one pass through the loop body of `calculateRPN` does: an early
`return 0, err`, or the new values of `st_cnt`, `st` and the reader. -/
inductive EvalStep (F : Type) where
  | fail (err : EvalErr)
  | next (st_cnt : Int) (st : Nat → F) (reader : List Nat)

/-- The inner `switch r` of the operator case, run after `st_cnt--` (so `n` is
the decremented `st_cnt`): `st[n-1] = st[n-1] op st[n]`, with the bounds checks
of indexing the array `st [NUM_STACK_SIZE]float64`. -/
def applyOper {F : Type} (A : Float64 F) (r : Nat) (n : Int) (st : Nat → F) :
    Exec (Nat → F) :=
  let assign (f : F → F → F) : Exec (Nat → F) :=
    if 0 ≤ n - 1 ∧ n < NUM_STACK_SIZE then
      .done (Function.update st (n - 1).toNat (f (st (n - 1).toNat) (st n.toNat)))
    else .panic
  if r = 43 then assign A.add
  else if r = 45 then assign A.sub
  else if r = 42 then assign A.mul
  else if r = 47 then assign A.div
  else if r = 94 then assign A.Pow
  else if r = 37 then assign A.Mod
  else .done st

/-- Body of the `switch` of `calculateRPN` for the rune `r`; `before` is the
reader before `r` was read and `after` the reader behind it. -/
def evalRune {F : Type} (A : Float64 F) (r : Nat) (before after : List Nat)
    (st_cnt : Int) (st : Nat → F) : Exec (EvalStep F) :=
  if is_oper r then
    if st_cnt < 2 then .done (.fail (.fewOperands r))
    else
      match applyOper A r (st_cnt - 1) st with
      | .done st1 => .done (.next (st_cnt - 1) st1 after)
      | .panic => .panic
      | .timeout => .timeout
  else if r = 46 ∨ is_digit r then
    match get_num A before with
    | .done (f, reader1) =>
      if st_cnt ≥ NUM_STACK_SIZE then .done (.fail .complex)
      else if 0 ≤ st_cnt then
        .done (.next (st_cnt + 1) (Function.update st st_cnt.toNat f) reader1)
      else .panic
    | .panic => .panic
    | .timeout => .timeout
  else .done (.next st_cnt st after)

/-- The `for` loop of `calculateRPN`. -/
def evalLoop {F : Type} (A : Float64 F) :
    Nat → List Nat → Int → (Nat → F) → Exec (EvalStep F)
  | 0, _, _, _ => .timeout
  | fuel + 1, reader, st_cnt, st =>
    match ReadRune reader with
    | none => .done (.next st_cnt st reader)
    | some (r, _, reader1) =>
      match evalRune A r reader reader1 st_cnt st with
      | .done (.next n st1 reader2) => evalLoop A fuel reader2 n st1
      | .done (.fail e) => .done (.fail e)
      | .panic => .panic
      | .timeout => .timeout

/-- Go `calculateRPN`: the results `res` and `err` (`none` is `nil`). -/
def calculateRPN {F : Type} (A : Float64 F) (rpnText : List Nat) :
    Exec (F × Option EvalErr) :=
  match evalLoop A (rpnText.length + 1) rpnText 0 (fun _ => A.zero) with
  | .done (.fail e) => .done (A.zero, some e)
  | .done (.next st_cnt st _) =>
    if st_cnt > 1 then .done (A.zero, some .needMoreOperations)
    else .done (st 0, none)
  | .panic => .panic
  | .timeout => .timeout

/-- Go `Calculate`, run with the package-level state `g`: the results `res`,
`wrongAt`, `parseErr` and the package-level state it leaves. -/
def Calculate {F : Type} (A : Float64 F) (g : Globals) (expression : List Nat) :
    Exec ((F × Int × Option ParseErr) × Globals) :=
  match ToRPN g expression with
  | .done ((s, wrongAt, parseErr), g1) =>
    match parseErr with
    | some e => .done ((A.zero, wrongAt, some e), g1)
    | none =>
      match calculateRPN A s with
      | .done (res, _) => .done ((res, wrongAt, none), g1)
      | .panic => .panic
      | .timeout => .timeout
  | .panic => .panic
  | .timeout => .timeout

/-! ## An exact interpretation of `float64` on small integers -/

/-- The integers every `float64` operation handles exactly: `some n` is the
`float64` value `n` with `|n| ≤ 2^53` (a zero of either sign for `n = 0`);
`none` is a value this interpretation does not determine. -/
def small (n : Int) : Option Int :=
  if -9007199254740992 ≤ n ∧ n ≤ 9007199254740992 then some n else none

/-- Value of a string of decimal digits, read left to right from `acc`;
`none` when a byte is not a digit. -/
def digitsValue : List Nat → Nat → Option Nat
  | [], acc => some acc
  | d :: ds, acc => if is_digit d then digitsValue ds (acc * 10 + (d - 48)) else none

/-- Exact arithmetic on small integers: each operation yields `some` result only
when its operands and its exact result are integers of absolute value at most
`2^53`, where `float64` arithmetic gives that same result. -/
def exactOps : Float64 (Option Int) where
  zero := some 0
  add a b := match a, b with
    | some x, some y => small (x + y)
    | _, _ => none
  sub a b := match a, b with
    | some x, some y => small (x - y)
    | _, _ => none
  mul a b := match a, b with
    | some x, some y => small (x * y)
    | _, _ => none
  div a b := match a, b with
    | some x, some y => if y ≠ 0 ∧ x % y = 0 then small (x / y) else none
    | _, _ => none
  Pow a b := match a, b with
    | some x, some y => if 0 ≤ y then small (x ^ y.toNat) else none
    | _, _ => none
  Mod a b := match a, b with
    | some x, some y => if y ≠ 0 then small (Int.tmod x y) else none
    | _, _ => none
  ParseFloat s := match s with
    | [] => none
    | d :: ds => match digitsValue (d :: ds) 0 with
      | some n => small n
      | none => none

/-! ## The live part of the operator stack -/

/-- Number of live entries of the operator stack. -/
def depth (g : Globals) : Nat := (g.stack_ptr + 1).toNat

/-- The live entries `stack[stack_ptr], ..., stack[0]`, top first. -/
def live (g : Globals) : List Nat := ((List.range (depth g)).map g.stack).reverse

/-- The package-level state is one the code can be in between two statements:
`-1 ≤ stack_ptr < OP_STACK_SIZE`. -/
def Globals.ok (g : Globals) : Prop := -1 ≤ g.stack_ptr ∧ g.stack_ptr < OP_STACK_SIZE

/-- The test the operator loop applies to the top entry `h` when the operator
`r` is scanned. -/
def operTest (r h : Nat) : Bool :=
  (left_assoc r && decide (priority h ≥ priority r)) ||
    (right_assoc r && decide (priority h > priority r))

/-- Invariant of the scanning loop of `ToRPN`: the stack pointer is in range
and every open parenthesis counted by `openParenthesisCount` is on the stack. -/
def Inv (c : Conv) (g : Globals) : Prop :=
  g.ok ∧ 0 ≤ c.openParenthesisCount ∧ c.openParenthesisCount ≤ ((live g).count 40 : Int)

/-! ## Error messages and the position of a rejected character -/

/-- Go `strconv.QuoteRune` on a printable ASCII rune other than the single quote
and the backslash: the rune between single quotes.  Result `none` for every
other rune (the escape sequences and the Unicode tables of `strconv` are not
modelled). -/
def QuoteRune (r : Nat) : Option String :=
  if 0x20 ≤ r ∧ r < 0x7F ∧ r ≠ 0x27 ∧ r ≠ 0x5C then
    some ("'" ++ String.singleton (Char.ofNat r) ++ "'")
  else none

/-- The message of an error of `ToRPN`, where `QuoteRune` is modelled. -/
def ParseErr.message : ParseErr → Option String
  | .openAfter p => (QuoteRune p).map (fun q => "Open parenthesis can't be after " ++ q)
  | .complex => some "Complex expression"
  | .closeAfter p => (QuoteRune p).map (fun q => "Close parenthesis can't be after " ++ q)
  | .missingOpen => some "Missing open parenthesis"
  | .operAfter p => (QuoteRune p).map (fun q => "Operation can't be after " ++ q)
  | .numberAfterClose => some "Number can't be after )"
  | .tooManyPoints => some "Too much decimal points"
  | .wrongSymbol r => (QuoteRune r).map (fun q => "Wrong symbol: " ++ q)
  | .missingClose => some "Missing close parenthesis"

/-- The scan of `expression`, started in the package-level state `g`, accepts
every character of `pre` and rejects the next one: `expression` is `pre`
followed by a text whose first rune is `r`, of `size` bytes; the loop run on
`pre` alone reaches the end of `pre`; and in the state reached there the
`switch` on `r` returns early with the position `w`, the error `err` and the
package-level state `g1`. -/
def RejectsAt (g : Globals) (expression pre : List Nat) (r size : Nat) (w : Int)
    (err : ParseErr) (g1 : Globals) : Prop :=
  ∃ tl rest c1 g0, expression = pre ++ tl ∧ ReadRune tl = some (r, size, rest) ∧
    scan (pre.length + 1) pre Conv.init g = .done (.next c1 g0) ∧
    switchRune r c1 g0 = .done (.fail w err g1)

/-- The bytes `get_num` collects: a decimal point or a digit. -/
def numByte (b : Nat) : Bool := b == 46 || is_digit b

/-! ## List view of `ToRPN`

The same computation with the live part of the operator stack held as a list
(top first) in place of `stack_ptr` and the array.  The theorems `switchRune_view`,
`scan_view` and `ToRPN_view` show that `ToRPN` computes exactly this whenever
`stack_ptr` is in range at entry. -/

/-- Apply a function to the value a run returns. -/
def Exec.map {α β : Type} (f : α → β) : Exec α → Exec β
  | .done a => .done (f a)
  | .panic => .panic
  | .timeout => .timeout

/-- List view of `Step`. -/
inductive StepL where
  | fail (wrongAt : Int) (err : ParseErr) (l : List Nat)
  | next (c : Conv) (l : List Nat)

/-- The list view of a `Step`: the package-level state replaced by its live entries. -/
def Step.view : Step → StepL
  | .fail w e g => .fail w e (live g)
  | .next c g => .next c (live g)

/-- The package-level state a `Step` carries. -/
def Step.globals : Step → Globals
  | .fail _ _ g => g
  | .next _ g => g

/-- List view of `switchRune`. -/
def switchL (r : Nat) (c : Conv) (l : List Nat) : Exec StepL :=
  if r = 40 then
    if c.prevRune ≠ 0 ∧ c.prevRune ≠ 40 ∧ ¬ is_oper c.prevRune then
      .done (.fail c.wrongAt (.openAfter c.prevRune) l)
    else if 256 ≤ l.length then .done (.fail c.wrongAt .complex l)
    else
      .done (.next { c with prevRune := r,
                            openParenthesisCount := c.openParenthesisCount + 1 } (40 :: l))
  else if r = 41 then
    if c.prevRune ≠ 41 ∧ ¬ is_digit c.prevRune then
      .done (.fail c.wrongAt (.closeAfter c.prevRune) l)
    else if c.openParenthesisCount = 0 then .done (.fail c.wrongAt .missingOpen l)
    else if 40 ∈ l then
      .done (.next ⟨0, r, c.openParenthesisCount - 1, c.wrongAt,
        c.rpnText ++ (l.takeWhile (fun h => h != 40)).flatMap runeString⟩
        (l.dropWhile (fun h => h != 40)).tail)
    else .panic
  else if r = 43 ∨ r = 45 ∨ r = 42 ∨ r = 47 ∨ r = 37 ∨ r = 94 then
    if c.prevRune ≠ 41 ∧ ¬ is_digit c.prevRune then
      .done (.fail c.wrongAt (.operAfter c.prevRune) l)
    else if 256 ≤ (l.dropWhile (operTest r)).length then
      .done (.fail c.wrongAt .complex (l.dropWhile (operTest r)))
    else
      .done (.next ⟨0, r, c.openParenthesisCount, c.wrongAt,
        c.rpnText ++ [32] ++ (l.takeWhile (operTest r)).flatMap runeString⟩
        (r :: l.dropWhile (operTest r)))
  else if r = 46 then
    if c.prevRune = 41 then .done (.fail c.wrongAt .numberAfterClose l)
    else if c.pointCount > 0 then .done (.fail c.wrongAt .tooManyPoints l)
    else
      .done (.next { c with rpnText := c.rpnText ++ runeString r, prevRune := r,
                            pointCount := c.pointCount + 1 } l)
  else if is_digit r then
    if c.prevRune = 41 then .done (.fail c.wrongAt .numberAfterClose l)
    else .done (.next { c with rpnText := c.rpnText ++ runeString r, prevRune := r } l)
  else .done (.fail c.wrongAt (.wrongSymbol r) l)

/-- List view of `scan`, by recursion on the bytes still to read. -/
def scanL : List Nat → Conv → List Nat → Exec StepL
  | [], c, l => .done (.next c l)
  | b :: bs, c, l =>
    if b < 0x80 then
      match switchL b c l with
      | .done (.next c1 l1) => scanL bs { c1 with wrongAt := c1.wrongAt + 1 } l1
      | .done (.fail w e l1) => .done (.fail w e l1)
      | .panic => .panic
      | .timeout => .timeout
    else .done (.fail c.wrongAt (.wrongSymbol (DecodeRuneInString (b :: bs)).1) l)

/-- List view of `ToRPN`: the results and the live entries left on the stack. -/
def ToRPNL (l : List Nat) (expression : List Nat) : Exec (Ret × List Nat) :=
  match scanL expression Conv.init l with
  | .done (.fail w e l1) => .done (([], w, some e), l1)
  | .done (.next c l1) =>
    if c.openParenthesisCount > 0 then .done (([], c.wrongAt, some .missingClose), l1)
    else .done ((c.rpnText ++ l1.flatMap runeString, -1, none), [])
  | .panic => .panic
  | .timeout => .timeout

/-- The operation the inner `switch` of `calculateRPN` applies for the operator
rune `r` to the left operand `x` and the right operand `y`. -/
def Float64.oper {F : Type} (A : Float64 F) (r : Nat) (x y : F) : F :=
  if r = 43 then A.add x y
  else if r = 45 then A.sub x y
  else if r = 42 then A.mul x y
  else if r = 47 then A.div x y
  else if r = 94 then A.Pow x y
  else if r = 37 then A.Mod x y
  else x

/-- A number as the claims on operator order take it: a non-empty string of
decimal digits. -/
def digitString (a : List Nat) : Bool := !a.isEmpty && a.all is_digit

/-- The loop of `calculateRPN` with as many iterations allowed as `calculateRPN`
allows for the text `reader`. -/
def evalAll {F : Type} (A : Float64 F) (reader : List Nat) (st_cnt : Int) (st : Nat → F) :
    Exec (EvalStep F) :=
  evalLoop A (reader.length + 1) reader st_cnt st

/-! ## The per-token grammar of the specification -/

/-- A byte of the accepted alphabet: a digit, `.`, `(`, `)` or an operator. -/
def inAlphabet (b : Nat) : Bool := is_digit b || b == 46 || b == 40 || b == 41 || is_oper b

/-- The rules of the specification's table for the character `b` read after the
previous character `p` (`p = 0` stands for "none", before the first character):
`(` only after none, `(` or an operator; `)` and an operator only after `)` or a
digit; a digit and `.` not after `)`. -/
def allowedAfter (p b : Nat) : Prop :=
  (b = 40 → p = 0 ∨ p = 40 ∨ is_oper p = true) ∧
  (b = 41 ∨ is_oper b = true → p = 41 ∨ is_digit p = true) ∧
  (is_digit b = true ∨ b = 46 → p ≠ 41)

/-- The per-token grammar, on the bytes of an expression: every byte is in the
alphabet; the first byte is neither `)` nor an operator; every `(` that is not
first directly follows `(` or an operator; every `)` and every operator directly
follows `)` or a digit; no digit and no `.` directly follows `)`; and between two
points there is a byte that is neither a digit nor a point, so that no maximal
run of digits and points holds more than one point. -/
def Grammar (e : List Nat) : Prop :=
  (∀ b ∈ e, inAlphabet b = true) ∧
  (∀ b, e.head? = some b → b ≠ 41 ∧ is_oper b = false) ∧
  (∀ i p, e[i]? = some p → e[i + 1]? = some 40 → p = 40 ∨ is_oper p = true) ∧
  (∀ i p b, e[i]? = some p → e[i + 1]? = some b → b = 41 ∨ is_oper b = true →
    p = 41 ∨ is_digit p = true) ∧
  (∀ i b, e[i]? = some 41 → e[i + 1]? = some b → is_digit b = false ∧ b ≠ 46) ∧
  (∀ i j, i < j → e[i]? = some 46 → e[j]? = some 46 →
    ∃ (k : Nat) (b : Nat), i < k ∧ k < j ∧ e[k]? = some b ∧ numByte b = false)

/-! ## Chains of numbers -/

/-- The expression made of the number `a` followed by the numbers of `rest`, all
joined by the operator `op`. -/
def joined (op : Nat) (a : List Nat) (rest : List (List Nat)) : List Nat :=
  a ++ rest.flatMap (fun n => op :: n)

/-- The RPN text of numbers joined by `+`: the first number alone; or the first
two numbers with a separator after each, then every further number preceded by
`+` and followed by a separator, except the last, which is followed by `+`. -/
def plusChainText (a : List Nat) (rest : List (List Nat)) : List Nat :=
  match rest with
  | [] => a
  | b :: more => a ++ [32] ++ b ++ more.flatMap (fun n => 32 :: 43 :: n) ++ [43]

/-- The sum of the numbers `a`, `rest`, added from left to right. -/
def plusChainValue {F : Type} (A : Float64 F) (a : List Nat) (rest : List (List Nat)) : F :=
  rest.foldl (fun acc n => A.add acc (A.ParseFloat n)) (A.ParseFloat a)

/-- The pop test in the words of the specification, for the scanned operator `op`
and the stack top `top`: (`top` is left-associative and
`priority(top) ≥ priority(op)`) or (`op` is right-associative and
`priority(top) > priority(op)`). -/
def specPopTest (op top : Nat) : Bool :=
  (left_assoc top && decide (priority top ≥ priority op)) ||
    (right_assoc op && decide (priority top > priority op))

/-- The message of an error of `calculateRPN`, where `QuoteRune` is modelled. -/
def EvalErr.message : EvalErr → Option String
  | .fewOperands r => (QuoteRune r).map (fun q => "Can't do " ++ q ++ ", few operands")
  | .complex => some "Complex expression"
  | .needMoreOperations => some "I need more operations"

/-! ## Shape of the RPN text -/

/-- The RPN text with the operator characters deleted. -/
def withoutOpers (t : List Nat) : List Nat := t.filter (fun b => !is_oper b)

/-- The expression with its parentheses deleted and each operator replaced by
one separator. -/
def skeleton (e : List Nat) : List Nat :=
  (e.filter (fun b => b != 40 && b != 41)).map (fun b => if is_oper b then 32 else b)

/-- Invariant of the scanning loop over the consumed prefix `p`: the stack holds
open parentheses and operators only, as many `(` as are counted open; the text
without its operators is the skeleton of `p`; every operator of `p` is in the
text or on the stack, once; and the text holds no parenthesis. -/
def TextShape (p : List Nat) (c : Conv) (l : List Nat) : Prop :=
  (∀ x ∈ l, x = 40 ∨ is_oper x = true) ∧
  ((l.count 40 : Nat) : Int) = c.openParenthesisCount ∧
  withoutOpers c.rpnText = skeleton p ∧
  (∀ o, is_oper o = true → c.rpnText.count o + l.count o = p.count o) ∧
  (∀ x ∈ c.rpnText, x ≠ 40 ∧ x ≠ 41)

/-! ## Arity of an RPN text -/

/-- Number of number runs (maximal runs of digits and points) that start in the
text; `inRun` tells whether the byte before the text belongs to a run. -/
def numRuns : Bool → List Nat → Nat
  | _, [] => 0
  | inRun, b :: t =>
    if numByte b then (if inRun then 0 else 1) + numRuns true t else numRuns false t

/-- One byte of an RPN text, on the pair "inside a number run" and "number runs
so far minus operators so far": a digit or point enters a run, counted when the
run starts; an operator needs two values and leaves one less; any other byte
ends a run. -/
def arityStep (s : Bool × Nat) (b : Nat) : Option (Bool × Nat) :=
  if numByte b then some (true, if s.1 then s.2 else s.2 + 1)
  else if is_oper b then (if 2 ≤ s.2 then some (false, s.2 - 1) else none)
  else some (false, s.2)

/-- The bytes of a text run through `arityStep`; `none` when some operator has
fewer than two values before it. -/
def arity (s : Bool × Nat) : List Nat → Option (Bool × Nat)
  | [] => some s
  | b :: t => (arityStep s b).bind (fun s1 => arity s1 t)

/-- Invariant of the scanning loop over the consumed prefix `p`, for the arity
of the text: `prevRune` is the last byte of `p`; after `(` the stack holds a
`(`; and the text has as many values as there are operators on the stack when an
operand is expected, one more after a number or a closing parenthesis. -/
def ArityInv (p : List Nat) (c : Conv) (l : List Nat) : Prop :=
  TextShape p c l ∧ c.prevRune = p.getLast?.getD 0 ∧ (c.prevRune = 40 → 40 ∈ l) ∧
  ∃ r h, arity (false, 0) c.rpnText = some (r, h) ∧
    (((p = [] ∨ c.prevRune = 40 ∨ is_oper c.prevRune = true) ∧ r = false ∧
        h = l.countP is_oper) ∨
      ((is_digit c.prevRune = true ∨ c.prevRune = 46) ∧ r = true ∧
        h = l.countP is_oper + 1) ∨
      (c.prevRune = 41 ∧ h = l.countP is_oper + 1))

/-! ## Lemmas on the stack primitives and the loops -/

theorem live_length (g : Globals) : (live g).length = depth g := by
  simp [live]

theorem live_empty (g : Globals) (h : g.stack_ptr = -1) : live g = [] := by
  simp [live, depth, h]

theorem live_cons (g : Globals) (h : 0 ≤ g.stack_ptr) :
    live g = g.stack g.stack_ptr.toNat :: live (pop g) := by
  have h1 : depth g = g.stack_ptr.toNat + 1 := by
    unfold depth; omega
  have h2 : depth (pop g) = g.stack_ptr.toNat := by
    unfold depth pop; simp
  unfold live
  rw [h1, h2, List.range_succ]
  simp [pop]

theorem head_ok (g : Globals) (h0 : 0 ≤ g.stack_ptr) (h1 : g.stack_ptr < OP_STACK_SIZE) :
    head g = .done (g.stack g.stack_ptr.toNat) := by
  simp [head, h0, h1]

theorem head_empty (g : Globals) (h : g.stack_ptr < 0) : head g = .panic := by
  have : ¬ (0 ≤ g.stack_ptr) := by omega
  simp [head, this]

theorem pop_ok (g : Globals) (h0 : 0 ≤ g.stack_ptr) (h : g.ok) : (pop g).ok := by
  unfold Globals.ok pop at *
  simp only
  omega

theorem push_ok (op : Nat) (g : Globals) (h : g.ok) (hf : stack_is_full g = false) :
    ∃ g1, push op g = .done g1 ∧ g1.ok ∧ g1.stack_ptr = g.stack_ptr + 1 ∧
      live g1 = (op % 256) :: live g := by
  unfold Globals.ok OP_STACK_SIZE at h
  have hf1 : g.stack_ptr + 1 < 256 := by
    simpa [stack_is_full, OP_STACK_SIZE] using hf
  have hp : 0 ≤ g.stack_ptr + 1 ∧ g.stack_ptr + 1 < OP_STACK_SIZE := by
    unfold OP_STACK_SIZE; omega
  refine ⟨⟨g.stack_ptr + 1, Function.update g.stack (g.stack_ptr + 1).toNat (op % 256)⟩,
    ?_, ?_, rfl, ?_⟩
  · simp [push, hp]
  · unfold Globals.ok OP_STACK_SIZE; simp only; omega
  · rw [live_cons _ (by simp only; omega)]
    simp only [Function.update_same, pop]
    congr 1
    unfold live depth
    simp only [add_sub_cancel_right]
    congr 1
    apply List.map_congr_left
    intro i hi
    rw [List.mem_range] at hi
    apply Function.update_noteq
    omega

theorem depth_pop (g : Globals) (h0 : 0 ≤ g.stack_ptr) : depth (pop g) + 1 = depth g := by
  unfold depth pop; simp only; omega

theorem depth_lt_popFuel (g : Globals) : depth g < popFuel g := by
  unfold depth popFuel; omega

/-- The loop of the closing parenthesis pops and emits the entries above the
topmost open parenthesis and stops with that parenthesis on top; it panics
when the stack holds no open parenthesis. -/
theorem closeLoop_spec (fuel : Nat) : ∀ (g : Globals) (out : List Nat), g.ok → depth g < fuel →
    (40 ∈ live g → ∃ g1, closeLoop fuel g out =
        .done (g1, out ++ ((live g).takeWhile (fun h => h != 40)).flatMap runeString) ∧
        g1.ok ∧ 0 ≤ g1.stack_ptr ∧ g1.stack = g.stack ∧
        live g1 = (live g).dropWhile (fun h => h != 40)) ∧
    (40 ∉ live g → closeLoop fuel g out = .panic) := by
  induction fuel with
  | zero => intro g out _ hf; omega
  | succ fuel ih =>
    intro g out hok hf
    by_cases h0 : 0 ≤ g.stack_ptr
    · have hh := head_ok g h0 hok.2
      have hl := live_cons g h0
      have hd := depth_pop g h0
      by_cases h40 : g.stack g.stack_ptr.toNat = 40
      · constructor
        · intro _
          refine ⟨g, ?_, hok, h0, rfl, ?_⟩
          · simp [closeLoop, hh, hl, h40]
          · simp [hl, h40]
        · intro hn
          rw [hl, h40] at hn
          simp at hn
      · obtain ⟨ih1, ih2⟩ := ih (pop g) (out ++ runeString (g.stack g.stack_ptr.toNat))
          (pop_ok g h0 hok) (by omega)
        constructor
        · intro hm
          rw [hl] at hm
          have hm1 : 40 ∈ live (pop g) := by
            rcases List.mem_cons.1 hm with h | h
            · exact absurd h.symm h40
            · exact h
          obtain ⟨g1, e1, k1, k2, k3, k4⟩ := ih1 hm1
          refine ⟨g1, ?_, k1, k2, ?_, ?_⟩
          · simp [closeLoop, hh, h40, e1, hl, List.append_assoc]
          · rw [k3]; rfl
          · rw [k4, hl]; simp [h40]
        · intro hn
          rw [hl] at hn
          have hn1 : 40 ∉ live (pop g) := fun hc => hn (List.mem_cons_of_mem _ hc)
          simp [closeLoop, hh, h40, ih2 hn1]
    · have hlt : g.stack_ptr < 0 := by omega
      have hp : g.stack_ptr = -1 := by
        have := hok.1; omega
      constructor
      · intro hm
        rw [live_empty g hp] at hm
        simp at hm
      · intro _
        simp [closeLoop, head_empty g hlt]

theorem operCond_spec (r : Nat) (g : Globals) (hok : g.ok) :
    operCond r g = .done (match live g with
      | [] => false
      | h :: _ => operTest r h) := by
  by_cases h0 : 0 ≤ g.stack_ptr
  · have hh := head_ok g h0 hok.2
    have hl := live_cons g h0
    have hne : stack_not_empty g = true := by simp [stack_not_empty, h0]
    rw [hl]
    simp only [operCond, hne, hh, operTest, if_true]
    cases left_assoc r <;> cases right_assoc r <;> simp <;> split <;> simp_all
  · have hp : g.stack_ptr = -1 := by
      have := hok.1; omega
    have hne : stack_not_empty g = false := by simp [stack_not_empty, hp]
    rw [live_empty g hp]
    simp [operCond, hne]

/-- The operator loop pops and emits the maximal run of top entries passing
`operTest`. -/
theorem operLoop_spec (r : Nat) (fuel : Nat) : ∀ (g : Globals) (out : List Nat),
    g.ok → depth g < fuel →
    ∃ g1, operLoop r fuel g out =
        .done (g1, out ++ ((live g).takeWhile (operTest r)).flatMap runeString) ∧
      g1.ok ∧ g1.stack = g.stack ∧ g1.stack_ptr ≤ g.stack_ptr ∧
      live g1 = (live g).dropWhile (operTest r) := by
  induction fuel with
  | zero => intro g out _ hf; omega
  | succ fuel ih =>
    intro g out hok hf
    have hc := operCond_spec r g hok
    by_cases h0 : 0 ≤ g.stack_ptr
    · have hh := head_ok g h0 hok.2
      have hl := live_cons g h0
      have hd := depth_pop g h0
      rw [hl] at hc
      simp only at hc
      cases ht : operTest r (g.stack g.stack_ptr.toNat) with
      | true =>
        obtain ⟨g1, e1, k1, k2, k3, k4⟩ := ih (pop g)
          (out ++ runeString (g.stack g.stack_ptr.toNat)) (pop_ok g h0 hok) (by omega)
        refine ⟨g1, ?_, k1, ?_, ?_, ?_⟩
        · simp [operLoop, hc, ht, hh, e1, hl, List.append_assoc]
        · rw [k2]; rfl
        · have : (pop g).stack_ptr = g.stack_ptr - 1 := rfl
          omega
        · rw [k4, hl]; simp [ht]
      | false =>
        refine ⟨g, ?_, hok, rfl, le_refl _, ?_⟩
        · simp [operLoop, hc, ht, hl]
        · simp [hl, ht]
    · have hp : g.stack_ptr = -1 := by
        have := hok.1; omega
      rw [live_empty g hp] at hc
      refine ⟨g, ?_, hok, rfl, le_refl _, ?_⟩
      · simp [operLoop, hc, live_empty g hp]
      · simp [live_empty g hp]

/-- The final loop pops and emits every live entry and leaves the stack empty. -/
theorem drain_spec (fuel : Nat) : ∀ (g : Globals) (out : List Nat), g.ok → depth g < fuel →
    ∃ g1, drain fuel g out = .done (g1, out ++ (live g).flatMap runeString) ∧
      g1.stack_ptr = -1 ∧ g1.stack = g.stack := by
  induction fuel with
  | zero => intro g out _ hf; omega
  | succ fuel ih =>
    intro g out hok hf
    by_cases h0 : 0 ≤ g.stack_ptr
    · have hh := head_ok g h0 hok.2
      have hl := live_cons g h0
      have hd := depth_pop g h0
      have hne : stack_not_empty g = true := by simp [stack_not_empty, h0]
      obtain ⟨g1, e1, k1, k2⟩ := ih (pop g)
        (out ++ runeString (g.stack g.stack_ptr.toNat)) (pop_ok g h0 hok) (by omega)
      refine ⟨g1, ?_, k1, ?_⟩
      · simp [drain, hne, hh, e1, hl, List.append_assoc]
      · rw [k2]; rfl
    · have hp : g.stack_ptr = -1 := by
        have := hok.1; omega
      have hne : stack_not_empty g = false := by simp [stack_not_empty, hp]
      refine ⟨g, ?_, hp, rfl⟩
      simp [drain, hne, live_empty g hp]

theorem first_spec (s0 sz lo hi : Nat) (h : first s0 = some (sz, lo, hi)) :
    hi ≤ 0xBF ∧ ((sz = 2 ∧ 0xC2 ≤ s0 ∧ s0 < 0xE0 ∧ lo = 0x80) ∨
    (sz = 3 ∧ ((s0 = 0xE0 ∧ lo = 0xA0) ∨ (0xE1 ≤ s0 ∧ s0 < 0xF0 ∧ lo = 0x80))) ∨
    (sz = 4 ∧ ((s0 = 0xF0 ∧ lo = 0x90) ∨ (0xF1 ≤ s0 ∧ s0 ≤ 0xF4 ∧ lo = 0x80)))) := by
  unfold first at h
  split_ifs at h <;> simp at h <;> omega

theorem DecodeRuneInString_wide (s0 : Nat) (t : List Nat) :
    0x80 ≤ (DecodeRuneInString (s0 :: t)).1 ∧ 1 ≤ (DecodeRuneInString (s0 :: t)).2 := by
  simp only [DecodeRuneInString]
  cases hf : first s0 with
  | none => simp [RuneError]
  | some p =>
    obtain ⟨sz, lo, hi⟩ := p
    have hs := first_spec s0 sz lo hi hf
    rcases t with _ | ⟨s1, _ | ⟨s2, _ | ⟨s3, t3⟩⟩⟩ <;> simp only [RuneError] <;>
      split_ifs <;> simp only [List.length_cons, List.length_nil] at * <;> omega

/-! ## The scanning loop -/

theorem switchRune_wide (r : Nat) (c : Conv) (g : Globals) (h : 0x80 ≤ r) :
    switchRune r c g = .done (.fail c.wrongAt (.wrongSymbol r) g) := by
  have h1 : r ≠ 40 := by omega
  have h2 : r ≠ 41 := by omega
  have h3 : ¬ (r = 43 ∨ r = 45 ∨ r = 42 ∨ r = 47 ∨ r = 37 ∨ r = 94) := by omega
  have h4 : r ≠ 46 := by omega
  have h5 : is_digit r = false := by
    simp [is_digit]; omega
  simp [switchRune, h1, h2, h3, h4, h5]

/-- One iteration of the scanning loop on a non-empty reader: an ASCII byte is
the rune itself, of size one; any other lead byte ends the scan with the error
"Wrong symbol". -/
theorem scan_cons (fuel : Nat) (b : Nat) (bs : List Nat) (c : Conv) (g : Globals) :
    scan (fuel + 1) (b :: bs) c g =
      if b < 0x80 then
        match switchRune b c g with
        | .done (.next c1 g1) => scan fuel bs { c1 with wrongAt := c1.wrongAt + 1 } g1
        | .done (.fail w e g1) => .done (.fail w e g1)
        | .panic => .panic
        | .timeout => .timeout
      else .done (.fail c.wrongAt (.wrongSymbol (DecodeRuneInString (b :: bs)).1) g) := by
  by_cases hb : b < 0x80
  · simp only [scan, ReadRune, hb, if_true]
    rfl
  · have hw := DecodeRuneInString_wide b bs
    simp only [scan, ReadRune, hb, if_false]
    rw [switchRune_wide _ c g hw.1]

theorem scan_nil (fuel : Nat) (c : Conv) (g : Globals) :
    scan (fuel + 1) [] c g = .done (.next c g) := by
  simp [scan, ReadRune]

theorem count_dropWhile (p : Nat → Bool) (a : Nat) (hp : p a = false) (l : List Nat) :
    (l.dropWhile p).count a = l.count a := by
  induction l with
  | nil => rfl
  | cons x xs ih =>
    cases hx : p x with
    | true =>
      have hne : x ≠ a := by
        intro h; rw [h, hp] at hx; exact Bool.noConfusion hx
      rw [List.dropWhile_cons_of_pos hx, ih, List.count_cons_of_ne (Ne.symm hne)]
    | false =>
      rw [List.dropWhile_cons_of_neg (by simp [hx])]

theorem dropWhile_ne_of_mem (a : Nat) (l : List Nat) (h : a ∈ l) :
    ∃ rest, l.dropWhile (fun x => x != a) = a :: rest := by
  induction l with
  | nil => simp at h
  | cons x xs ih =>
    by_cases hx : x = a
    · exact ⟨xs, by simp [hx]⟩
    · have hm : a ∈ xs := by
        rcases List.mem_cons.1 h with h1 | h1
        · exact absurd h1.symm hx
        · exact h1
      obtain ⟨rest, hr⟩ := ih hm
      exact ⟨rest, by simp [hx, hr]⟩

theorem operTest_paren (r : Nat) : operTest r 40 = false := by
  unfold operTest left_assoc right_assoc priority
  by_cases h1 : r = 43 <;> by_cases h2 : r = 45 <;> by_cases h3 : r = 42 <;>
    by_cases h4 : r = 47 <;> by_cases h5 : r = 37 <;> by_cases h6 : r = 94 <;>
    simp [h1, h2, h3, h4, h5, h6]

/-- From a state satisfying the invariant the `switch` neither panics nor
exhausts a loop bound: it returns early with the current `wrongAt`, or falls
through with the invariant kept, `wrongAt` unchanged, on an ASCII rune. -/
theorem switchRune_total (r : Nat) (c : Conv) (g : Globals) (hi : Inv c g) :
    (∃ e g1, switchRune r c g = .done (.fail c.wrongAt e g1) ∧ g1.ok) ∨
    (∃ c1 g1, switchRune r c g = .done (.next c1 g1) ∧ Inv c1 g1 ∧
      c1.wrongAt = c.wrongAt ∧ r < 0x80) := by
  obtain ⟨hok, ho0, hoc⟩ := hi
  by_cases h40 : r = 40
  · subst h40
    by_cases hp : c.prevRune ≠ 0 ∧ c.prevRune ≠ 40 ∧ ¬ is_oper c.prevRune
    · left
      refine ⟨.openAfter c.prevRune, g, ?_, hok⟩
      unfold switchRune; rw [if_pos rfl, if_pos hp]
    · cases hfull : stack_is_full g with
      | true =>
        left
        refine ⟨.complex, g, ?_, hok⟩
        unfold switchRune; rw [if_pos rfl, if_neg hp]; simp [hfull]
      | false =>
        obtain ⟨g1, e1, k1, k2, k3⟩ := push_ok 40 g hok hfull
        right
        refine ⟨{ c with prevRune := 40,
                         openParenthesisCount := c.openParenthesisCount + 1 }, g1, ?_,
          ⟨k1, ?_, ?_⟩, rfl, by omega⟩
        · unfold switchRune; rw [if_pos rfl, if_neg hp]; simp [hfull, e1]
        · show 0 ≤ c.openParenthesisCount + 1
          omega
        · show c.openParenthesisCount + 1 ≤ ((live g1).count 40 : Int)
          rw [k3]
          simp only [Nat.reduceMod, List.count_cons_self]
          push_cast
          omega
  by_cases h41 : r = 41
  · subst h41
    by_cases hp : c.prevRune ≠ 41 ∧ ¬ is_digit c.prevRune
    · left
      refine ⟨.closeAfter c.prevRune, g, ?_, hok⟩
      unfold switchRune; rw [if_neg (by decide), if_pos rfl, if_pos hp]
    · by_cases hz : c.openParenthesisCount = 0
      · left
        refine ⟨.missingOpen, g, ?_, hok⟩
        unfold switchRune; rw [if_neg (by decide), if_pos rfl, if_neg hp, if_pos hz]
      · have hpos : 0 < (live g).count 40 := by omega
        have hm : 40 ∈ live g := List.count_pos_iff.1 hpos
        obtain ⟨g1, e1, k1, k2, k3, k4⟩ :=
          (closeLoop_spec (popFuel g) g c.rpnText hok (depth_lt_popFuel g)).1 hm
        obtain ⟨rest, hr⟩ := dropWhile_ne_of_mem 40 (live g) hm
        have hc := count_dropWhile (fun x => x != 40) 40 (by simp) (live g)
        rw [← k4] at hc hr
        rw [live_cons g1 k2] at hr
        have htop : g1.stack g1.stack_ptr.toNat = 40 := (List.cons.inj hr).1
        rw [live_cons g1 k2, htop, List.count_cons_self] at hc
        right
        refine ⟨⟨0, 41, c.openParenthesisCount - 1, c.wrongAt, c.rpnText ++
            ((live g).takeWhile (fun h => h != 40)).flatMap runeString⟩, pop g1, ?_,
          ⟨pop_ok g1 k2 k1, ?_, ?_⟩, rfl, by omega⟩
        · unfold switchRune
          rw [if_neg (by decide), if_pos rfl, if_neg hp, if_neg hz]
          simp [e1]
        · show 0 ≤ c.openParenthesisCount - 1
          omega
        · show c.openParenthesisCount - 1 ≤ ((live (pop g1)).count 40 : Int)
          omega
  by_cases hop : r = 43 ∨ r = 45 ∨ r = 42 ∨ r = 47 ∨ r = 37 ∨ r = 94
  · by_cases hp : c.prevRune ≠ 41 ∧ ¬ is_digit c.prevRune
    · left
      refine ⟨.operAfter c.prevRune, g, ?_, hok⟩
      unfold switchRune; rw [if_neg h40, if_neg h41, if_pos hop, if_pos hp]
    · obtain ⟨g1, e1, k1, k2, k3, k4⟩ :=
        operLoop_spec r (popFuel g) g (c.rpnText ++ [32]) hok (depth_lt_popFuel g)
      have hc := count_dropWhile (operTest r) 40 (operTest_paren r) (live g)
      rw [← k4] at hc
      cases hfull : stack_is_full g1 with
      | true =>
        left
        refine ⟨.complex, g1, ?_, k1⟩
        unfold switchRune
        rw [if_neg h40, if_neg h41, if_pos hop, if_neg hp]
        simp [e1, hfull]
      | false =>
        obtain ⟨g2, e2, j1, j2, j3⟩ := push_ok r g1 k1 hfull
        have hr : r % 256 ≠ 40 := by omega
        right
        refine ⟨⟨0, r, c.openParenthesisCount, c.wrongAt, c.rpnText ++ [32] ++
            ((live g).takeWhile (operTest r)).flatMap runeString⟩, g2, ?_,
          ⟨j1, ho0, ?_⟩, rfl, by omega⟩
        · unfold switchRune
          rw [if_neg h40, if_neg h41, if_pos hop, if_neg hp]
          simp [e1, hfull, e2]
        · show c.openParenthesisCount ≤ ((live g2).count 40 : Int)
          rw [j3, List.count_cons_of_ne (Ne.symm hr), hc]
          exact hoc
  by_cases h46 : r = 46
  · subst h46
    by_cases hp : c.prevRune = 41
    · left
      refine ⟨.numberAfterClose, g, ?_, hok⟩
      unfold switchRune
      rw [if_neg h40, if_neg h41, if_neg hop, if_pos rfl, if_pos hp]
    · by_cases hpc : c.pointCount > 0
      · left
        refine ⟨.tooManyPoints, g, ?_, hok⟩
        unfold switchRune
        rw [if_neg h40, if_neg h41, if_neg hop, if_pos rfl, if_neg hp, if_pos hpc]
      · right
        refine ⟨{ c with rpnText := c.rpnText ++ runeString 46, prevRune := 46,
                         pointCount := c.pointCount + 1 }, g, ?_, ⟨hok, ho0, hoc⟩, rfl,
          by omega⟩
        unfold switchRune
        rw [if_neg h40, if_neg h41, if_neg hop, if_pos rfl, if_neg hp, if_neg hpc]
  cases hd : is_digit r with
  | true =>
    have hlt : r < 0x80 := by
      simp [is_digit] at hd; omega
    by_cases hp : c.prevRune = 41
    · left
      refine ⟨.numberAfterClose, g, ?_, hok⟩
      unfold switchRune
      rw [if_neg h40, if_neg h41, if_neg hop, if_neg h46]
      simp [hd, hp]
    · right
      refine ⟨{ c with rpnText := c.rpnText ++ runeString r, prevRune := r }, g, ?_,
        ⟨hok, ho0, hoc⟩, rfl, hlt⟩
      unfold switchRune
      rw [if_neg h40, if_neg h41, if_neg hop, if_neg h46]
      simp [hd, hp]
  | false =>
    left
    refine ⟨.wrongSymbol r, g, ?_, hok⟩
    unfold switchRune
    rw [if_neg h40, if_neg h41, if_neg hop, if_neg h46]
    simp [hd]

theorem Inv_init (g : Globals) (hok : g.ok) : Inv Conv.init g :=
  ⟨hok, le_refl _, by simp [Conv.init]⟩

/-- From a state satisfying the invariant the scanning loop returns: early,
with a position inside the text still to read, or at the end of the text with
the invariant kept and `wrongAt` advanced by the length read. -/
theorem scan_total (fuel : Nat) : ∀ (rd : List Nat) (c : Conv) (g : Globals),
    Inv c g → rd.length < fuel →
    (∃ w e g1, scan fuel rd c g = .done (.fail w e g1) ∧ g1.ok ∧
      c.wrongAt ≤ w ∧ w < c.wrongAt + rd.length) ∨
    (∃ c1 g1, scan fuel rd c g = .done (.next c1 g1) ∧ Inv c1 g1 ∧
      c1.wrongAt = c.wrongAt + rd.length) := by
  induction fuel with
  | zero => intro rd c g _ hf; omega
  | succ fuel ih =>
    intro rd c g hi hf
    rcases rd with _ | ⟨b, bs⟩
    · right
      exact ⟨c, g, scan_nil fuel c g, hi, by simp⟩
    · rw [scan_cons]
      have hlen : ((b :: bs).length : Int) = bs.length + 1 := by simp
      by_cases hb : b < 0x80
      · rw [if_pos hb]
        rcases switchRune_total b c g hi with ⟨e, g1, hs, hk⟩ | ⟨c1, g1, hs, hi1, hw, _⟩
        · left
          rw [hs]
          exact ⟨c.wrongAt, e, g1, rfl, hk, le_refl _, by omega⟩
        · rw [hs]
          have hi2 : Inv { c1 with wrongAt := c1.wrongAt + 1 } g1 := hi1
          have hf2 : bs.length < fuel := by
            simp only [List.length_cons] at hf; omega
          rcases ih bs _ g1 hi2 hf2 with ⟨w, e, g2, hs2, hk, h1, h2⟩ | ⟨c2, g2, hs2, hi3, hw2⟩
          · left
            refine ⟨w, e, g2, hs2, hk, ?_, ?_⟩
            · simp only at h1; omega
            · simp only at h2; omega
          · right
            refine ⟨c2, g2, hs2, hi3, ?_⟩
            simp only at hw2; omega
      · rw [if_neg hb]
        left
        exact ⟨c.wrongAt, _, g, rfl, hi.1, le_refl _, by omega⟩

/-- From a package-level state with `stack_ptr` in range, `ToRPN` returns:
either text with `-1` and no error and the stack left empty, or the empty text
with an error and a position between 0 and the length of the expression. -/
theorem ToRPN_total (g : Globals) (hok : g.ok) (expression : List Nat) :
    (∃ text g1, ToRPN g expression = .done ((text, -1, none), g1) ∧ g1.stack_ptr = -1) ∨
    (∃ pos err g1, ToRPN g expression = .done (([], pos, some err), g1) ∧ g1.ok ∧
      0 ≤ pos ∧ pos ≤ expression.length) := by
  unfold ToRPN
  rcases scan_total (expression.length + 1) expression Conv.init g (Inv_init g hok)
      (Nat.lt_succ_self _) with ⟨w, e, g1, hs, hk, h1, h2⟩ | ⟨c1, g1, hs, hi1, hw⟩
  · right
    rw [hs]
    refine ⟨w, e, g1, rfl, hk, ?_, ?_⟩
    · simpa [Conv.init] using h1
    · have : w < 0 + (expression.length : Int) := by simpa [Conv.init] using h2
      omega
  · rw [hs]
    have hw1 : c1.wrongAt = expression.length := by simpa [Conv.init] using hw
    by_cases hc : c1.openParenthesisCount > 0
    · right
      simp only [hc, if_true]
      exact ⟨c1.wrongAt, .missingClose, g1, rfl, hi1.1, by omega, by omega⟩
    · left
      simp only [hc, if_false]
      obtain ⟨g2, e2, k1, _⟩ := drain_spec (popFuel g1) g1 c1.rpnText hi1.1 (depth_lt_popFuel g1)
      rw [e2]
      exact ⟨_, g2, rfl, k1⟩

/-- What is known when the `switch` falls through: the rune is one of the
accepted characters, it was allowed after the previous one, and the counters
changed as the case of that character says. -/
theorem switchRune_next (r : Nat) (c c1 : Conv) (g g1 : Globals)
    (h : switchRune r c g = .done (.next c1 g1)) :
    c1.wrongAt = c.wrongAt ∧ c1.prevRune = r ∧
    ((r = 40 ∧ (c.prevRune = 0 ∨ c.prevRune = 40 ∨ is_oper c.prevRune = true) ∧
        c1.openParenthesisCount = c.openParenthesisCount + 1 ∧
        c1.pointCount = c.pointCount) ∨
     (r = 41 ∧ (c.prevRune = 41 ∨ is_digit c.prevRune = true) ∧
        c.openParenthesisCount ≠ 0 ∧
        c1.openParenthesisCount = c.openParenthesisCount - 1 ∧ c1.pointCount = 0) ∨
     (is_oper r = true ∧ (c.prevRune = 41 ∨ is_digit c.prevRune = true) ∧
        c1.openParenthesisCount = c.openParenthesisCount ∧ c1.pointCount = 0) ∨
     (r = 46 ∧ c.prevRune ≠ 41 ∧ c.pointCount ≤ 0 ∧
        c1.openParenthesisCount = c.openParenthesisCount ∧
        c1.pointCount = c.pointCount + 1) ∨
     (is_digit r = true ∧ c.prevRune ≠ 41 ∧
        c1.openParenthesisCount = c.openParenthesisCount ∧
        c1.pointCount = c.pointCount)) := by
  by_cases h40 : r = 40
  · subst h40
    unfold switchRune at h
    rw [if_pos rfl] at h
    by_cases hp : c.prevRune ≠ 0 ∧ c.prevRune ≠ 40 ∧ ¬ is_oper c.prevRune
    · rw [if_pos hp] at h; simp at h
    · rw [if_neg hp] at h
      cases hfull : stack_is_full g with
      | true => simp [hfull] at h
      | false =>
        cases hpush : push 40 g with
        | done g2 =>
          simp [hfull, hpush] at h
          obtain ⟨rfl, _⟩ := h
          refine ⟨rfl, rfl, Or.inl ⟨rfl, ?_, rfl, rfl⟩⟩
          by_cases a : c.prevRune = 0
          · exact Or.inl a
          · by_cases b : c.prevRune = 40
            · exact Or.inr (Or.inl b)
            · right; right
              by_contra hc
              exact hp ⟨a, b, hc⟩
        | panic => simp [hfull, hpush] at h
        | timeout => simp [hfull, hpush] at h
  by_cases h41 : r = 41
  · subst h41
    unfold switchRune at h
    rw [if_neg (by decide), if_pos rfl] at h
    by_cases hp : c.prevRune ≠ 41 ∧ ¬ is_digit c.prevRune
    · rw [if_pos hp] at h; simp at h
    · rw [if_neg hp] at h
      by_cases hz : c.openParenthesisCount = 0
      · rw [if_pos hz] at h; simp at h
      · rw [if_neg hz] at h
        cases hloop : closeLoop (popFuel g) g c.rpnText with
        | done p =>
          simp [hloop] at h
          obtain ⟨rfl, _⟩ := h
          refine ⟨rfl, rfl, Or.inr (Or.inl ⟨rfl, ?_, hz, rfl, rfl⟩)⟩
          by_cases a : c.prevRune = 41
          · exact Or.inl a
          · right
            by_contra hc
            exact hp ⟨a, hc⟩
        | panic => simp [hloop] at h
        | timeout => simp [hloop] at h
  by_cases hop : r = 43 ∨ r = 45 ∨ r = 42 ∨ r = 47 ∨ r = 37 ∨ r = 94
  · unfold switchRune at h
    rw [if_neg h40, if_neg h41, if_pos hop] at h
    by_cases hp : c.prevRune ≠ 41 ∧ ¬ is_digit c.prevRune
    · rw [if_pos hp] at h; simp at h
    · rw [if_neg hp] at h
      cases hloop : operLoop r (popFuel g) g (c.rpnText ++ [32]) with
      | done p =>
        cases hfull : stack_is_full p.1 with
        | true => simp [hloop, hfull] at h
        | false =>
          cases hpush : push r p.1 with
          | done g2 =>
            simp [hloop, hfull, hpush] at h
            obtain ⟨rfl, _⟩ := h
            refine ⟨rfl, rfl, Or.inr (Or.inr (Or.inl ⟨?_, ?_, rfl, rfl⟩))⟩
            · rcases hop with h | h | h | h | h | h <;> simp [is_oper, h]
            · by_cases a : c.prevRune = 41
              · exact Or.inl a
              · right
                by_contra hc
                exact hp ⟨a, hc⟩
          | panic => simp [hloop, hfull, hpush] at h
          | timeout => simp [hloop, hfull, hpush] at h
      | panic => simp [hloop] at h
      | timeout => simp [hloop] at h
  by_cases h46 : r = 46
  · subst h46
    unfold switchRune at h
    rw [if_neg h40, if_neg h41, if_neg hop, if_pos rfl] at h
    by_cases hp : c.prevRune = 41
    · rw [if_pos hp] at h; simp at h
    · rw [if_neg hp] at h
      by_cases hpc : c.pointCount > 0
      · rw [if_pos hpc] at h; simp at h
      · rw [if_neg hpc] at h
        simp at h
        obtain ⟨rfl, _⟩ := h
        exact ⟨rfl, rfl, Or.inr (Or.inr (Or.inr (Or.inl ⟨rfl, hp, by omega, rfl, rfl⟩)))⟩
  unfold switchRune at h
  rw [if_neg h40, if_neg h41, if_neg hop, if_neg h46] at h
  cases hd : is_digit r with
  | true =>
    by_cases hp : c.prevRune = 41
    · simp [hd, hp] at h
    · simp [hd, hp] at h
      obtain ⟨rfl, _⟩ := h
      exact ⟨rfl, rfl, Or.inr (Or.inr (Or.inr (Or.inr ⟨rfl, hp, rfl, rfl⟩)))⟩
  | false => simp [hd] at h

theorem switchRune_fail_wrongAt (r : Nat) (c : Conv) (g g1 : Globals) (w : Int)
    (e : ParseErr) (h : switchRune r c g = .done (.fail w e g1)) : w = c.wrongAt := by
  unfold switchRune at h
  split_ifs at h <;> (try split at h) <;> (try split_ifs at h) <;> (try split at h) <;>
    simp at h <;> exact h.1.symm

theorem switchRune_next_ascii (r : Nat) (c c1 : Conv) (g g1 : Globals)
    (h : switchRune r c g = .done (.next c1 g1)) : r < 0x80 := by
  by_contra hc
  rw [switchRune_wide r c g (by omega)] at h
  simp at h

theorem ReadRune_size (rd : List Nat) (r size : Nat) (rest : List Nat)
    (h : ReadRune rd = some (r, size, rest)) : 1 ≤ size := by
  rcases rd with _ | ⟨b, bs⟩
  · simp [ReadRune] at h
  · unfold ReadRune at h
    simp only at h
    split_ifs at h
    · simp at h; omega
    · have := (DecodeRuneInString_wide b bs).2
      simp at h
      omega

/-- An early return of the scanning loop splits the text read: a part on which
the loop runs to its end, and a rest whose first rune makes the `switch`
return; the position returned is the length of the first part added to the
`wrongAt` the loop started with. -/
theorem scan_fail_split (fuel : Nat) : ∀ (rd : List Nat) (c : Conv) (g : Globals)
    (w : Int) (e : ParseErr) (g1 : Globals),
    scan fuel rd c g = .done (.fail w e g1) →
    ∃ pre tl r size rest c1 g0, rd = pre ++ tl ∧ ReadRune tl = some (r, size, rest) ∧
      scan (pre.length + 1) pre c g = .done (.next c1 g0) ∧
      switchRune r c1 g0 = .done (.fail w e g1) ∧ w = c.wrongAt + pre.length := by
  induction fuel with
  | zero => intro rd c g w e g1 h; simp [scan] at h
  | succ fuel ih =>
    intro rd c g w e g1 h
    rcases rd with _ | ⟨b, bs⟩
    · rw [scan_nil] at h; simp at h
    · rw [scan_cons] at h
      by_cases hb : b < 0x80
      · rw [if_pos hb] at h
        have hrr : ReadRune (b :: bs) = some (b, 1, bs) := by simp [ReadRune, hb]
        cases hs : switchRune b c g with
        | done st =>
          cases st with
          | fail w2 e2 g2 =>
            rw [hs] at h
            simp only at h
            refine ⟨[], b :: bs, b, 1, bs, c, g, rfl, hrr, scan_nil 0 c g, ?_, ?_⟩
            · rw [hs, h]
            · have := switchRune_fail_wrongAt b c g g2 w2 e2 hs
              simp at h
              simp; omega
          | next c2 g2 =>
            rw [hs] at h
            simp only at h
            obtain ⟨pre, tl, r, size, rest, c1, g0, k1, k2, k3, k4, k5⟩ := ih bs _ g2 w e g1 h
            refine ⟨b :: pre, tl, r, size, rest, c1, g0, by simp [k1], k2, ?_, k4, ?_⟩
            · rw [List.length_cons, scan_cons, if_pos hb, hs]
              exact k3
            · have := (switchRune_next b c c2 g g2 hs).1
              simp only at k5
              simp only [List.length_cons]
              push_cast
              omega
        | panic => rw [hs] at h; simp at h
        | timeout => rw [hs] at h; simp at h
      · rw [if_neg hb] at h
        have hw := DecodeRuneInString_wide b bs
        have hrr : ReadRune (b :: bs) = some ((DecodeRuneInString (b :: bs)).1,
            (DecodeRuneInString (b :: bs)).2,
            (b :: bs).drop (DecodeRuneInString (b :: bs)).2) := by
          simp [ReadRune, hb]
        refine ⟨[], b :: bs, _, _, _, c, g, rfl, hrr, scan_nil 0 c g, ?_, ?_⟩
        · rw [switchRune_wide _ c g hw.1, ← h]
        · simp at h
          simp [h.1]

theorem ToRPN_fail_scan (g : Globals) (expression : List Nat) (text : List Nat) (pos : Int)
    (err : ParseErr) (g1 : Globals)
    (h : ToRPN g expression = .done ((text, pos, some err), g1)) :
    (scan (expression.length + 1) expression Conv.init g = .done (.fail pos err g1)) ∨
    (err = .missingClose ∧ ∃ c1, scan (expression.length + 1) expression Conv.init g =
        .done (.next c1 g1) ∧ pos = c1.wrongAt ∧ c1.openParenthesisCount > 0) := by
  unfold ToRPN at h
  cases hs : scan (expression.length + 1) expression Conv.init g with
  | done st =>
    cases st with
    | fail w2 e2 g2 =>
      rw [hs] at h
      simp at h
      left
      obtain ⟨⟨_, h2, h3⟩, h4⟩ := h
      rw [h2, h3, h4]
    | next c2 g2 =>
      rw [hs] at h
      simp only at h
      right
      by_cases hc : c2.openParenthesisCount > 0
      · rw [if_pos hc] at h
        simp at h
        obtain ⟨⟨_, h2, h3⟩, h4⟩ := h
        exact ⟨h3.symm, c2, by rw [h4], h2.symm, hc⟩
      · rw [if_neg hc] at h
        cases hd : drain (popFuel g2) g2 c2.rpnText with
        | done p => rw [hd] at h; simp at h
        | panic => rw [hd] at h; simp at h
        | timeout => rw [hd] at h; simp at h
  | panic => rw [hs] at h; simp at h
  | timeout => rw [hs] at h; simp at h

/-- A scan that reaches the end of a non-empty text read an ASCII byte, fell
through the `switch` on it, and reached the end of the rest. -/
theorem scan_next_cons (fuel : Nat) (b : Nat) (bs : List Nat) (c c2 : Conv) (g g2 : Globals)
    (h : scan (fuel + 1) (b :: bs) c g = .done (.next c2 g2)) :
    b < 0x80 ∧ ∃ c1 g1, switchRune b c g = .done (.next c1 g1) ∧
      scan fuel bs { c1 with wrongAt := c1.wrongAt + 1 } g1 = .done (.next c2 g2) := by
  rw [scan_cons] at h
  by_cases hb : b < 0x80
  · rw [if_pos hb] at h
    refine ⟨hb, ?_⟩
    cases hs : switchRune b c g with
    | done st =>
      cases st with
      | fail w2 e2 g3 => rw [hs] at h; simp at h
      | next c1 g1 =>
        rw [hs] at h
        exact ⟨c1, g1, rfl, h⟩
    | panic => rw [hs] at h; simp at h
    | timeout => rw [hs] at h; simp at h
  · rw [if_neg hb] at h
    simp at h

theorem scan_next_wrongAt (fuel : Nat) : ∀ (rd : List Nat) (c c2 : Conv) (g g2 : Globals),
    scan fuel rd c g = .done (.next c2 g2) → c2.wrongAt = c.wrongAt + rd.length := by
  induction fuel with
  | zero => intro rd c c2 g g2 h; simp [scan] at h
  | succ fuel ih =>
    intro rd c c2 g g2 h
    rcases rd with _ | ⟨b, bs⟩
    · rw [scan_nil] at h
      simp at h
      simp [h.1]
    · obtain ⟨_, c1, g1, hs, hr⟩ := scan_next_cons fuel b bs c c2 g g2 h
      have h1 := ih bs _ c2 g1 g2 hr
      have h2 := (switchRune_next b c c1 g g1 hs).1
      simp only at h1
      simp only [List.length_cons]
      push_cast
      omega

/-! ## `ToRPN` computes its list view -/

theorem stack_is_full_iff (g : Globals) (hok : g.ok) :
    stack_is_full g = decide (256 ≤ (live g).length) := by
  rw [live_length]
  unfold stack_is_full depth OP_STACK_SIZE
  have := hok.1
  congr 1
  apply propext
  constructor <;> intro h <;> omega

theorem switchRune_view (r : Nat) (c : Conv) (g : Globals) (hok : g.ok) :
    (switchRune r c g).map Step.view = switchL r c (live g) ∧
    ∀ st, switchRune r c g = .done st → st.globals.ok := by
  have hfull := stack_is_full_iff g hok
  by_cases h40 : r = 40
  · subst h40
    unfold switchRune switchL
    rw [if_pos rfl, if_pos rfl]
    by_cases hp : c.prevRune ≠ 0 ∧ c.prevRune ≠ 40 ∧ ¬ is_oper c.prevRune
    · rw [if_pos hp, if_pos hp]
      exact ⟨rfl, fun st h => by cases h; exact hok⟩
    · rw [if_neg hp, if_neg hp, hfull]
      by_cases hl : 256 ≤ (live g).length
      · simp only [hl, decide_True, if_true]
        exact ⟨rfl, fun st h => by cases h; exact hok⟩
      · have hf : stack_is_full g = false := by rw [hfull]; simp [hl]
        obtain ⟨g1, e1, k1, k2, k3⟩ := push_ok 40 g hok hf
        simp only [hl, decide_False, if_false, e1, Bool.false_eq_true]
        refine ⟨?_, fun st h => by cases h; exact k1⟩
        simp [Exec.map, Step.view, k3]
  by_cases h41 : r = 41
  · subst h41
    unfold switchRune switchL
    rw [if_neg h40, if_pos rfl, if_neg h40, if_pos rfl]
    by_cases hp : c.prevRune ≠ 41 ∧ ¬ is_digit c.prevRune
    · rw [if_pos hp, if_pos hp]
      exact ⟨rfl, fun st h => by cases h; exact hok⟩
    · rw [if_neg hp, if_neg hp]
      by_cases hz : c.openParenthesisCount = 0
      · rw [if_pos hz, if_pos hz]
        exact ⟨rfl, fun st h => by cases h; exact hok⟩
      · rw [if_neg hz, if_neg hz]
        have hcl := closeLoop_spec (popFuel g) g c.rpnText hok (depth_lt_popFuel g)
        by_cases hm : 40 ∈ live g
        · obtain ⟨g1, e1, k1, k2, k3, k4⟩ := hcl.1 hm
          rw [if_pos hm, e1]
          refine ⟨?_, fun st h => by cases h; exact pop_ok g1 k2 k1⟩
          have ht : live (pop g1) = (live g1).tail := by rw [live_cons g1 k2]; rfl
          simp [Exec.map, Step.view, ht, k4]
        · rw [if_neg hm, hcl.2 hm]
          exact ⟨rfl, fun st h => by cases h⟩
  by_cases hop : r = 43 ∨ r = 45 ∨ r = 42 ∨ r = 47 ∨ r = 37 ∨ r = 94
  · unfold switchRune switchL
    rw [if_neg h40, if_neg h41, if_pos hop, if_neg h40, if_neg h41, if_pos hop]
    by_cases hp : c.prevRune ≠ 41 ∧ ¬ is_digit c.prevRune
    · rw [if_pos hp, if_pos hp]
      exact ⟨rfl, fun st h => by cases h; exact hok⟩
    · rw [if_neg hp, if_neg hp]
      obtain ⟨g1, e1, k1, k2, k3, k4⟩ :=
        operLoop_spec r (popFuel g) g (c.rpnText ++ [32]) hok (depth_lt_popFuel g)
      have hfull1 := stack_is_full_iff g1 k1
      rw [e1]
      simp only
      rw [hfull1, k4]
      by_cases hl : 256 ≤ ((live g).dropWhile (operTest r)).length
      · simp only [hl, decide_True, if_true]
        refine ⟨?_, fun st h => by cases h; exact k1⟩
        simp [Exec.map, Step.view, k4]
      · have hf : stack_is_full g1 = false := by rw [hfull1, k4]; simp [hl]
        obtain ⟨g2, e2, j1, j2, j3⟩ := push_ok r g1 k1 hf
        have hr : r % 256 = r := by omega
        simp only [hl, decide_False, if_false, e2, Bool.false_eq_true]
        refine ⟨?_, fun st h => by cases h; exact j1⟩
        simp [Exec.map, Step.view, j3, hr, k4]
  by_cases h46 : r = 46
  · subst h46
    unfold switchRune switchL
    rw [if_neg h40, if_neg h41, if_neg hop, if_pos rfl, if_neg h40, if_neg h41, if_neg hop,
      if_pos rfl]
    by_cases hp : c.prevRune = 41
    · rw [if_pos hp, if_pos hp]
      exact ⟨rfl, fun st h => by cases h; exact hok⟩
    · rw [if_neg hp, if_neg hp]
      by_cases hpc : c.pointCount > 0
      · rw [if_pos hpc, if_pos hpc]
        exact ⟨rfl, fun st h => by cases h; exact hok⟩
      · rw [if_neg hpc, if_neg hpc]
        exact ⟨rfl, fun st h => by cases h; exact hok⟩
  unfold switchRune switchL
  rw [if_neg h40, if_neg h41, if_neg hop, if_neg h46, if_neg h40, if_neg h41, if_neg hop,
    if_neg h46]
  cases hd : is_digit r with
  | true =>
    simp only [if_true]
    by_cases hp : c.prevRune = 41
    · rw [if_pos hp, if_pos hp]
      exact ⟨rfl, fun st h => by cases h; exact hok⟩
    · rw [if_neg hp, if_neg hp]
      exact ⟨rfl, fun st h => by cases h; exact hok⟩
  | false =>
    simp only [Bool.false_eq_true, if_false]
    exact ⟨rfl, fun st h => by cases h; exact hok⟩

theorem scan_view (fuel : Nat) : ∀ (rd : List Nat) (c : Conv) (g : Globals), g.ok →
    rd.length < fuel →
    (scan fuel rd c g).map Step.view = scanL rd c (live g) ∧
    ∀ st, scan fuel rd c g = .done st → st.globals.ok := by
  induction fuel with
  | zero => intro rd c g _ hf; omega
  | succ fuel ih =>
    intro rd c g hok hf
    rcases rd with _ | ⟨b, bs⟩
    · rw [scan_nil]
      exact ⟨rfl, fun st h => by cases h; exact hok⟩
    · rw [scan_cons]
      unfold scanL
      by_cases hb : b < 0x80
      · rw [if_pos hb, if_pos hb]
        obtain ⟨hv, hk⟩ := switchRune_view b c g hok
        rw [← hv]
        cases hs : switchRune b c g with
        | done st =>
          cases st with
          | fail w2 e2 g2 =>
            have := hk _ hs
            exact ⟨rfl, fun st h => by cases h; exact this⟩
          | next c1 g1 =>
            have hok1 : g1.ok := hk _ hs
            have hf2 : bs.length < fuel := by
              simp only [List.length_cons] at hf; omega
            exact ih bs _ g1 hok1 hf2
        | panic => exact ⟨rfl, fun st h => by cases h⟩
        | timeout => exact ⟨rfl, fun st h => by cases h⟩
      · rw [if_neg hb, if_neg hb]
        exact ⟨rfl, fun st h => by cases h; exact hok⟩

/-- Whenever `stack_ptr` is in range at entry, `ToRPN` returns what its list
view returns on the live entries of the stack, and leaves as live entries what
the list view leaves. -/
theorem ToRPN_view (g : Globals) (hok : g.ok) (expression : List Nat) :
    (ToRPN g expression).map (fun p => (p.1, live p.2)) = ToRPNL (live g) expression := by
  unfold ToRPN ToRPNL
  obtain ⟨hv, hk⟩ := scan_view (expression.length + 1) expression Conv.init g hok
    (Nat.lt_succ_self _)
  rw [← hv]
  cases hs : scan (expression.length + 1) expression Conv.init g with
  | done st =>
    cases st with
    | fail w2 e2 g2 => rfl
    | next c1 g1 =>
      have hok1 : g1.ok := hk _ hs
      simp only [Exec.map, Step.view]
      by_cases hc : c1.openParenthesisCount > 0
      · rw [if_pos hc, if_pos hc]
      · rw [if_neg hc, if_neg hc]
        obtain ⟨g2, e2, k1, _⟩ :=
          drain_spec (popFuel g1) g1 c1.rpnText hok1 (depth_lt_popFuel g1)
        rw [e2]
        simp [live_empty g2 k1]
  | panic => rfl
  | timeout => rfl

theorem Exec.fst_map {α : Type} (x : Exec (α × Globals)) :
    (x.map (fun p => (p.1, live p.2))).fst = x.fst := by
  cases x <;> rfl

/-- Started with an empty stack, `ToRPN` returns the results of its list view
started with the empty list. -/
theorem ToRPN_fst_empty (stack : Nat → Nat) (expression : List Nat) :
    (ToRPN ⟨-1, stack⟩ expression).fst = (ToRPNL [] expression).fst := by
  have hok : Globals.ok ⟨-1, stack⟩ := by
    unfold Globals.ok OP_STACK_SIZE; simp
  have h := ToRPN_view ⟨-1, stack⟩ hok expression
  rw [live_empty _ rfl] at h
  rw [← h, Exec.fst_map]

/-! ## The list view, token by token -/

theorem runeString_ascii (r : Nat) (h : r < 0x80) : runeString r = [r] := by
  simp [runeString, h]

theorem is_digit_ascii (d : Nat) (h : is_digit d = true) : d < 0x80 ∧ d ≠ 40 ∧ d ≠ 41 ∧
    ¬ (d = 43 ∨ d = 45 ∨ d = 42 ∨ d = 47 ∨ d = 37 ∨ d = 94) ∧ d ≠ 46 := by
  simp [is_digit] at h
  omega

theorem is_oper_iff (r : Nat) :
    is_oper r = true ↔ (r = 43 ∨ r = 45 ∨ r = 42 ∨ r = 47 ∨ r = 37 ∨ r = 94) := by
  simp [is_oper]
  omega

theorem scanL_digit (d : Nat) (rest : List Nat) (c : Conv) (l : List Nat)
    (hd : is_digit d = true) (hp : c.prevRune ≠ 41) :
    scanL (d :: rest) c l =
      scanL rest ⟨c.pointCount, d, c.openParenthesisCount, c.wrongAt + 1, c.rpnText ++ [d]⟩ l := by
  obtain ⟨h1, h2, h3, h4, h5⟩ := is_digit_ascii d hd
  simp only [scanL, if_pos h1, switchL, if_neg h2, if_neg h3, if_neg h4, if_neg h5, hd,
    if_true, if_neg hp, runeString_ascii d h1]

theorem scanL_digits (ds : List Nat) (hd : ∀ d ∈ ds, is_digit d = true) (hne : ds ≠ []) :
    ∀ (rest : List Nat) (c : Conv) (l : List Nat), c.prevRune ≠ 41 →
    ∃ p, is_digit p = true ∧ scanL (ds ++ rest) c l =
      scanL rest ⟨c.pointCount, p, c.openParenthesisCount, c.wrongAt + ds.length,
        c.rpnText ++ ds⟩ l := by
  induction ds with
  | nil => exact absurd rfl hne
  | cons d ds ih =>
    intro rest c l hp
    have hdd : is_digit d = true := hd d (List.mem_cons_self _ _)
    have hstep := scanL_digit d (ds ++ rest) c l hdd hp
    by_cases hds : ds = []
    · subst hds
      refine ⟨d, hdd, ?_⟩
      simpa using hstep
    · have hd2 : ∀ x ∈ ds, is_digit x = true := fun x hx => hd x (List.mem_cons_of_mem _ hx)
      have hne41 : d ≠ 41 := (is_digit_ascii d hdd).2.2.1
      obtain ⟨p, hp1, hp2⟩ := ih hd2 hds rest
        ⟨c.pointCount, d, c.openParenthesisCount, c.wrongAt + 1, c.rpnText ++ [d]⟩ l hne41
      refine ⟨p, hp1, ?_⟩
      rw [List.cons_append, hstep, hp2]
      simp only [List.length_cons, List.append_assoc, List.singleton_append]
      push_cast
      rw [add_assoc, add_comm (1 : Int)]

theorem scanL_oper (r : Nat) (rest : List Nat) (c : Conv) (l : List Nat)
    (hr : is_oper r = true) (hp : c.prevRune = 41 ∨ is_digit c.prevRune = true)
    (hl : (l.dropWhile (operTest r)).length < 256) :
    scanL (r :: rest) c l =
      scanL rest ⟨0, r, c.openParenthesisCount, c.wrongAt + 1,
        c.rpnText ++ [32] ++ (l.takeWhile (operTest r)).flatMap runeString⟩
        (r :: l.dropWhile (operTest r)) := by
  have hop := (is_oper_iff r).1 hr
  have h1 : r < 0x80 := by omega
  have h2 : r ≠ 40 := by omega
  have h3 : r ≠ 41 := by omega
  have hq : ¬ (c.prevRune ≠ 41 ∧ ¬ is_digit c.prevRune = true) := by
    rintro ⟨a, b⟩
    rcases hp with h | h
    · exact a h
    · exact b h
  have hl2 : ¬ 256 ≤ (l.dropWhile (operTest r)).length := by omega
  simp only [scanL, if_pos h1, switchL, if_neg h2, if_neg h3, if_pos hop, if_neg hq,
    if_neg hl2]

theorem scanL_open (rest : List Nat) (c : Conv) (l : List Nat)
    (hp : c.prevRune = 0 ∨ c.prevRune = 40 ∨ is_oper c.prevRune = true)
    (hl : l.length < 256) :
    scanL (40 :: rest) c l =
      scanL rest ⟨c.pointCount, 40, c.openParenthesisCount + 1, c.wrongAt + 1, c.rpnText⟩
        (40 :: l) := by
  have hq : ¬ (c.prevRune ≠ 0 ∧ c.prevRune ≠ 40 ∧ ¬ is_oper c.prevRune = true) := by
    rintro ⟨a, b, d⟩
    rcases hp with h | h | h
    · exact a h
    · exact b h
    · exact d h
  have hl2 : ¬ 256 ≤ l.length := by omega
  have h1 : (40 : Nat) < 0x80 := by decide
  simp only [scanL, if_pos h1, switchL, if_pos, if_neg hq, if_neg hl2]

theorem scanL_close (rest : List Nat) (c : Conv) (l : List Nat)
    (hp : c.prevRune = 41 ∨ is_digit c.prevRune = true)
    (ho : c.openParenthesisCount ≠ 0) (hm : 40 ∈ l) :
    scanL (41 :: rest) c l =
      scanL rest ⟨0, 41, c.openParenthesisCount - 1, c.wrongAt + 1,
        c.rpnText ++ (l.takeWhile (fun h => h != 40)).flatMap runeString⟩
        (l.dropWhile (fun h => h != 40)).tail := by
  have hq : ¬ (c.prevRune ≠ 41 ∧ ¬ is_digit c.prevRune = true) := by
    rintro ⟨a, b⟩
    rcases hp with h | h
    · exact a h
    · exact b h
  have h1 : (41 : Nat) < 0x80 := by decide
  have h2 : (41 : Nat) ≠ 40 := by decide
  simp only [scanL, if_pos h1, switchL, if_neg h2, if_pos, if_neg hq, if_neg ho, if_pos hm]

theorem digitString_spec (a : List Nat) (h : digitString a = true) :
    a ≠ [] ∧ (∀ d ∈ a, is_digit d = true) ∧ (∀ d ∈ a, numByte d = true) := by
  simp only [digitString, Bool.and_eq_true, Bool.not_eq_true', List.isEmpty_eq_false,
    List.all_eq_true] at h
  refine ⟨h.1, h.2, fun d hd => ?_⟩
  simp [numByte, h.2 d hd]

/-- A number followed by an operator, in the list view. -/
theorem scanL_num_oper (a : List Nat) (ha : digitString a = true) (r : Nat) (rest : List Nat)
    (c : Conv) (l : List Nat) (hp : c.prevRune ≠ 41) (hr : is_oper r = true)
    (hl : (l.dropWhile (operTest r)).length < 256) :
    scanL (a ++ r :: rest) c l =
      scanL rest ⟨0, r, c.openParenthesisCount, c.wrongAt + a.length + 1,
        c.rpnText ++ a ++ [32] ++ (l.takeWhile (operTest r)).flatMap runeString⟩
        (r :: l.dropWhile (operTest r)) := by
  obtain ⟨hne, hd, _⟩ := digitString_spec a ha
  obtain ⟨p, hp1, e1⟩ := scanL_digits a hd hne (r :: rest) c l hp
  rw [e1, scanL_oper r rest ⟨c.pointCount, p, c.openParenthesisCount, c.wrongAt + a.length,
    c.rpnText ++ a⟩ l hr (Or.inr hp1) hl]

/-- A number followed by a closing parenthesis, in the list view. -/
theorem scanL_num_close (a : List Nat) (ha : digitString a = true) (rest : List Nat)
    (c : Conv) (l : List Nat) (hp : c.prevRune ≠ 41) (ho : c.openParenthesisCount ≠ 0)
    (hm : 40 ∈ l) :
    scanL (a ++ 41 :: rest) c l =
      scanL rest ⟨0, 41, c.openParenthesisCount - 1, c.wrongAt + a.length + 1,
        c.rpnText ++ a ++ (l.takeWhile (fun h => h != 40)).flatMap runeString⟩
        (l.dropWhile (fun h => h != 40)).tail := by
  obtain ⟨hne, hd, _⟩ := digitString_spec a ha
  obtain ⟨p, hp1, e1⟩ := scanL_digits a hd hne (41 :: rest) c l hp
  rw [e1, scanL_close rest ⟨c.pointCount, p, c.openParenthesisCount, c.wrongAt + a.length,
    c.rpnText ++ a⟩ l (Or.inr hp1) ho hm]

/-- A number at the end of the expression, in the list view. -/
theorem scanL_num_end (a : List Nat) (ha : digitString a = true) (c : Conv) (l : List Nat)
    (hp : c.prevRune ≠ 41) :
    ∃ p, scanL a c l = .done (.next ⟨c.pointCount, p, c.openParenthesisCount,
      c.wrongAt + a.length, c.rpnText ++ a⟩ l) := by
  obtain ⟨hne, hd, _⟩ := digitString_spec a ha
  obtain ⟨p, _, e1⟩ := scanL_digits a hd hne [] c l hp
  rw [List.append_nil] at e1
  exact ⟨p, by rw [e1]; rfl⟩

theorem is_oper_facts (r : Nat) (hr : is_oper r = true) :
    r < 0x80 ∧ r ≠ 41 ∧ numByte r = false ∧ runeString r = [r] := by
  have hop := (is_oper_iff r).1 hr
  have h1 : r < 0x80 := by omega
  refine ⟨h1, by omega, ?_, runeString_ascii r h1⟩
  rcases hop with h | h | h | h | h | h <;> subst h <;> decide

/-- List view of `a op1 b op2 c` where scanning `op2` pops `op1`: the text is
`a`, separator, `b`, separator, `op1`, `c`, `op2`. -/
theorem ToRPNL_pop (a b c : List Nat) (op1 op2 : Nat) (ha : digitString a = true)
    (hb : digitString b = true) (hc : digitString c = true) (h1 : is_oper op1 = true)
    (h2 : is_oper op2 = true) (ht : operTest op2 op1 = true) :
    ToRPNL [] (a ++ [op1] ++ b ++ [op2] ++ c) =
      .done ((a ++ [32] ++ b ++ [32, op1] ++ c ++ [op2], -1, none), []) := by
  obtain ⟨_, k1, _, r1⟩ := is_oper_facts op1 h1
  obtain ⟨_, k2, _, r2⟩ := is_oper_facts op2 h2
  have e : a ++ [op1] ++ b ++ [op2] ++ c = a ++ op1 :: (b ++ op2 :: c) := by simp
  unfold ToRPNL
  rw [e, scanL_num_oper a ha op1 _ Conv.init [] (by decide) h1 (by simp),
    scanL_num_oper b hb op2 _ _ _ k1 h2 (by simp [ht])]
  obtain ⟨p, hp⟩ := scanL_num_end c hc ⟨0, op2, Conv.init.openParenthesisCount,
    Conv.init.wrongAt + a.length + 1 + b.length + 1,
    Conv.init.rpnText ++ a ++ [32] ++ (([] : List Nat).takeWhile (operTest op1)).flatMap
      runeString ++ b ++ [32] ++
      (((op1 :: ([] : List Nat).dropWhile (operTest op1))).takeWhile
        (operTest op2)).flatMap runeString⟩
    (op2 :: (op1 :: ([] : List Nat).dropWhile (operTest op1)).dropWhile (operTest op2)) k2
  rw [hp]
  simp [Conv.init, ht, r1, r2]

/-- List view of `a op1 b op2 c` where scanning `op2` pops nothing: the text is
`a`, separator, `b`, separator, `c`, `op2`, `op1`. -/
theorem ToRPNL_keep (a b c : List Nat) (op1 op2 : Nat) (ha : digitString a = true)
    (hb : digitString b = true) (hc : digitString c = true) (h1 : is_oper op1 = true)
    (h2 : is_oper op2 = true) (ht : operTest op2 op1 = false) :
    ToRPNL [] (a ++ [op1] ++ b ++ [op2] ++ c) =
      .done ((a ++ [32] ++ b ++ [32] ++ c ++ [op2, op1], -1, none), []) := by
  obtain ⟨_, k1, _, r1⟩ := is_oper_facts op1 h1
  obtain ⟨_, k2, _, r2⟩ := is_oper_facts op2 h2
  have e : a ++ [op1] ++ b ++ [op2] ++ c = a ++ op1 :: (b ++ op2 :: c) := by simp
  unfold ToRPNL
  rw [e, scanL_num_oper a ha op1 _ Conv.init [] (by decide) h1 (by simp),
    scanL_num_oper b hb op2 _ _ _ k1 h2 (by simp [ht])]
  obtain ⟨p, hp⟩ := scanL_num_end c hc ⟨0, op2, Conv.init.openParenthesisCount,
    Conv.init.wrongAt + a.length + 1 + b.length + 1,
    Conv.init.rpnText ++ a ++ [32] ++ (([] : List Nat).takeWhile (operTest op1)).flatMap
      runeString ++ b ++ [32] ++
      (((op1 :: ([] : List Nat).dropWhile (operTest op1))).takeWhile
        (operTest op2)).flatMap runeString⟩
    (op2 :: (op1 :: ([] : List Nat).dropWhile (operTest op1)).dropWhile (operTest op2)) k2
  rw [hp]
  simp [Conv.init, ht, r1, r2]

/-! ## The evaluator -/

theorem numByte_ascii (b : Nat) (h : numByte b = true) : b < 0x80 := by
  simp [numByte, is_digit] at h
  omega

/-- The loop of `get_num` collects the maximal run of digits and points at the
front of the reader and leaves the reader at the first other byte. -/
theorem get_num_loop_spec (fuel : Nat) : ∀ (rd s : List Nat), rd.length < fuel →
    get_num_loop fuel rd s = .done (s ++ rd.takeWhile numByte, rd.dropWhile numByte) := by
  induction fuel with
  | zero => intro rd s hf; omega
  | succ fuel ih =>
    intro rd s hf
    rcases rd with _ | ⟨b, bs⟩
    · simp [get_num_loop, ReadRune]
    · cases hn : numByte b with
      | true =>
        have hb := numByte_ascii b hn
        have hc : b = 46 ∨ is_digit b = true := by
          simpa [numByte] using hn
        simp only [get_num_loop, ReadRune, hb, if_true, hc]
        rw [ih bs _ (by simp only [List.length_cons] at hf; omega), runeString_ascii b hb]
        simp [hn]
      | false =>
        have hc : ¬ (b = 46 ∨ is_digit b = true) := by
          simpa [numByte] using hn
        by_cases hb : b < 0x80
        · simp [get_num_loop, ReadRune, hb, hc, hn]
        · have hw := (DecodeRuneInString_wide b bs).1
          have hc2 : ¬ ((DecodeRuneInString (b :: bs)).1 = 46 ∨
              is_digit (DecodeRuneInString (b :: bs)).1 = true) := by
            simp only [is_digit, Bool.and_eq_true, decide_eq_true_eq]
            omega
          simp only [get_num_loop, ReadRune, hb, if_false, hc2]
          simp [hn]

theorem get_num_spec {F : Type} (A : Float64 F) (rd : List Nat) :
    get_num A rd = .done (A.ParseFloat (rd.takeWhile numByte), rd.dropWhile numByte) := by
  unfold get_num
  rw [get_num_loop_spec _ rd [] (Nat.lt_succ_self _)]
  simp

theorem ReadRune_cons (b : Nat) (bs : List Nat) :
    ∃ r size rest, ReadRune (b :: bs) = some (r, size, rest) ∧ rest.length ≤ bs.length ∧
      (b < 0x80 → r = b ∧ rest = bs) ∧ (¬ b < 0x80 → 0x80 ≤ r) := by
  by_cases hb : b < 0x80
  · exact ⟨b, 1, bs, by simp [ReadRune, hb], le_refl _, fun _ => ⟨rfl, rfl⟩,
      fun h => absurd hb h⟩
  · have hw := DecodeRuneInString_wide b bs
    refine ⟨(DecodeRuneInString (b :: bs)).1, (DecodeRuneInString (b :: bs)).2,
      (b :: bs).drop (DecodeRuneInString (b :: bs)).2, by simp only [ReadRune, hb, if_false],
      ?_, fun h => absurd h hb, fun _ => hw.1⟩
    simp only [List.length_drop, List.length_cons]
    omega

/-- With `0 ≤ st_cnt ≤ NUM_STACK_SIZE` one pass through the loop body of
`calculateRPN` returns (no index is out of range); when it falls through,
`st_cnt` is again in that range and the reader got shorter. -/
theorem evalRune_total {F : Type} (A : Float64 F) (b : Nat) (bs : List Nat) (r size : Nat)
    (rest : List Nat) (hr : ReadRune (b :: bs) = some (r, size, rest))
    (n : Int) (st : Nat → F) (h0 : 0 ≤ n) (h1 : n ≤ NUM_STACK_SIZE) :
    (∃ e, evalRune A r (b :: bs) rest n st = .done (.fail e)) ∨
    (∃ n1 st1 rd1, evalRune A r (b :: bs) rest n st = .done (.next n1 st1 rd1) ∧
      0 ≤ n1 ∧ n1 ≤ NUM_STACK_SIZE ∧ rd1.length ≤ bs.length) := by
  obtain ⟨r2, size2, rest2, hr2, hlen, hascii, hwide⟩ := ReadRune_cons b bs
  rw [hr] at hr2
  simp only [Option.some.injEq, Prod.mk.injEq] at hr2
  obtain ⟨rfl, rfl, rfl⟩ := hr2
  unfold NUM_STACK_SIZE at h1
  unfold evalRune
  cases hop : is_oper r with
  | true =>
    simp only [if_true]
    by_cases h2 : n < 2
    · left; exact ⟨_, by rw [if_pos h2]⟩
    · right
      rw [if_neg h2]
      have hidx : 0 ≤ n - 1 - 1 ∧ n - 1 < NUM_STACK_SIZE := by
        unfold NUM_STACK_SIZE; omega
      have hopc : r = 43 ∨ r = 45 ∨ r = 42 ∨ r = 47 ∨ r = 94 ∨ r = 37 := by
        simp [is_oper] at hop
        omega
      have : ∃ st1, applyOper A r (n - 1) st = .done st1 := by
        unfold applyOper
        simp only [hidx, and_self, if_true]
        split_ifs <;> exact ⟨_, rfl⟩
      obtain ⟨st1, hst⟩ := this
      exact ⟨n - 1, st1, rest, by rw [hst], by omega, by unfold NUM_STACK_SIZE; omega, hlen⟩
  | false =>
    simp only [Bool.false_eq_true, if_false]
    by_cases hnum : r = 46 ∨ is_digit r = true
    · rw [if_pos hnum, get_num_spec]
      simp only
      by_cases hfull : n ≥ NUM_STACK_SIZE
      · left; exact ⟨_, by rw [if_pos hfull]⟩
      · right
        rw [if_neg hfull, if_pos h0]
        have hrlt : r < 0x80 := by
          rcases hnum with h | h
          · omega
          · simp [is_digit] at h; omega
        have hb : b < 0x80 := by
          by_contra hc
          have := hwide hc
          omega
        have hrb := (hascii hb).1
        have hnb : numByte b = true := by
          rw [← hrb]
          simpa [numByte] using hnum
        refine ⟨n + 1, _, _, rfl, by omega, ?_, ?_⟩
        · unfold NUM_STACK_SIZE at hfull ⊢; omega
        · rw [List.dropWhile_cons_of_pos hnb]
          exact (List.dropWhile_sublist _).length_le
    · right
      rw [if_neg hnum]
      exact ⟨n, st, rest, rfl, h0, by unfold NUM_STACK_SIZE; omega, hlen⟩

/-- The loop of `calculateRPN` always returns, with `st_cnt` between 0 and
`NUM_STACK_SIZE` at its end. -/
theorem evalLoop_total {F : Type} (A : Float64 F) (fuel : Nat) : ∀ (rd : List Nat) (n : Int)
    (st : Nat → F), rd.length < fuel → 0 ≤ n → n ≤ NUM_STACK_SIZE →
    (∃ e, evalLoop A fuel rd n st = .done (.fail e)) ∨
    (∃ n1 st1 rd1, evalLoop A fuel rd n st = .done (.next n1 st1 rd1) ∧
      0 ≤ n1 ∧ n1 ≤ NUM_STACK_SIZE) := by
  induction fuel with
  | zero => intro rd n st hf; omega
  | succ fuel ih =>
    intro rd n st hf h0 h1
    rcases rd with _ | ⟨b, bs⟩
    · right
      exact ⟨n, st, [], by simp [evalLoop, ReadRune], h0, h1⟩
    · obtain ⟨r, size, rest, hr, _, _, _⟩ := ReadRune_cons b bs
      rcases evalRune_total A b bs r size rest hr n st h0 h1 with
        ⟨e, he⟩ | ⟨n1, st1, rd1, he, k0, k1, klen⟩
      · left
        exact ⟨e, by simp only [evalLoop, hr, he]⟩
      · have hf2 : rd1.length < fuel := by
          simp only [List.length_cons] at hf; omega
        rcases ih rd1 n1 st1 hf2 k0 k1 with ⟨e, he2⟩ | ⟨n2, st2, rd2, he2, j0, j1⟩
        · left
          exact ⟨e, by simp only [evalLoop, hr, he, he2]⟩
        · right
          exact ⟨n2, st2, rd2, by simp only [evalLoop, hr, he, he2], j0, j1⟩

/-- Function `calculateRPN` always returns, and the value it returns with an
error is zero. -/
theorem calculateRPN_total {F : Type} (A : Float64 F) (rpnText : List Nat) :
    ∃ v err, calculateRPN A rpnText = .done (v, err) ∧ (err ≠ none → v = A.zero) := by
  unfold calculateRPN
  rcases evalLoop_total A (rpnText.length + 1) rpnText 0 (fun _ => A.zero)
      (Nat.lt_succ_self _) (le_refl _) (by unfold NUM_STACK_SIZE; omega) with
    ⟨e, he⟩ | ⟨n1, st1, rd1, he, _, _⟩
  · rw [he]
    exact ⟨A.zero, some e, rfl, fun _ => rfl⟩
  · rw [he]
    by_cases hc : n1 > 1
    · simp only [hc, if_true]
      exact ⟨A.zero, some .needMoreOperations, rfl, fun _ => rfl⟩
    · simp only [hc, if_false]
      exact ⟨st1 0, none, rfl, fun h => absurd rfl h⟩

theorem Exec.fst_done {α β : Type} (x : Exec (α × β)) (a : α) (h : x.fst = .done a) :
    ∃ b, x = .done (a, b) := by
  cases x with
  | done p =>
    simp [Exec.fst] at h
    exact ⟨p.2, by rw [← h]⟩
  | panic => simp [Exec.fst] at h
  | timeout => simp [Exec.fst] at h

/-- With enough iterations allowed, the result of the loop of `calculateRPN`
does not depend on the bound. -/
theorem evalLoop_fuel {F : Type} (A : Float64 F) (fuel1 : Nat) : ∀ (fuel2 : Nat)
    (rd : List Nat) (n : Int) (st : Nat → F), rd.length < fuel1 → rd.length < fuel2 →
    0 ≤ n → n ≤ NUM_STACK_SIZE →
    evalLoop A fuel1 rd n st = evalLoop A fuel2 rd n st := by
  induction fuel1 with
  | zero => intro fuel2 rd n st hf; omega
  | succ fuel1 ih =>
    intro fuel2 rd n st hf1 hf2 h0 h1
    rcases fuel2 with _ | fuel2
    · omega
    rcases rd with _ | ⟨b, bs⟩
    · simp [evalLoop, ReadRune]
    · obtain ⟨r, size, rest, hr, _, _, _⟩ := ReadRune_cons b bs
      rcases evalRune_total A b bs r size rest hr n st h0 h1 with
        ⟨e, he⟩ | ⟨n1, st1, rd1, he, k0, k1, klen⟩
      · simp only [evalLoop, hr, he]
      · simp only [evalLoop, hr, he]
        simp only [List.length_cons] at hf1 hf2
        exact ih fuel2 rd1 n1 st1 (by omega) (by omega) k0 k1

theorem evalLoop_eof {F : Type} (A : Float64 F) (fuel : Nat) (n : Int) (st : Nat → F) :
    evalLoop A (fuel + 1) [] n st = .done (.next n st []) := by
  simp [evalLoop, ReadRune]

theorem applyOper_spec {F : Type} (A : Float64 F) (r : Nat) (n : Int) (st : Nat → F)
    (hr : is_oper r = true) (h0 : 0 ≤ n - 1) (h1 : n < NUM_STACK_SIZE) :
    applyOper A r n st =
      .done (Function.update st (n - 1).toNat (A.oper r (st (n - 1).toNat) (st n.toNat))) := by
  have hop := (is_oper_iff r).1 hr
  unfold applyOper Float64.oper
  simp only [h0, h1, and_self, if_true]
  split_ifs <;> first | rfl | omega

/-- An operator with at least two values on the operand stack: the two top
values are replaced by the result, the value pushed later being the right
operand. -/
theorem evalLoop_oper {F : Type} (A : Float64 F) (fuel : Nat) (r : Nat) (rest : List Nat)
    (n : Int) (st : Nat → F) (hf : rest.length + 1 < fuel) (hr : is_oper r = true)
    (h2 : 2 ≤ n) (h1 : n ≤ NUM_STACK_SIZE) :
    evalLoop A fuel (r :: rest) n st =
      evalLoop A (rest.length + 1) rest (n - 1)
        (Function.update st (n - 2).toNat (A.oper r (st (n - 2).toNat) (st (n - 1).toNat))) := by
  have hop := (is_oper_iff r).1 hr
  have hlt : r < 0x80 := by omega
  have hrr : ReadRune (r :: rest) = some (r, 1, rest) := by simp [ReadRune, hlt]
  unfold NUM_STACK_SIZE at h1
  have hap := applyOper_spec A r (n - 1) st hr (by omega) (by unfold NUM_STACK_SIZE; omega)
  have hn2 : n - 1 - 1 = n - 2 := by omega
  rw [hn2] at hap
  obtain ⟨k, rfl⟩ : ∃ k, fuel = k + 1 := ⟨fuel - 1, by omega⟩
  have hn : ¬ n < 2 := by omega
  have step : evalLoop A (k + 1) (r :: rest) n st = evalLoop A k rest (n - 1)
      (Function.update st (n - 2).toNat (A.oper r (st (n - 2).toNat) (st (n - 1).toNat))) := by
    simp only [evalLoop, hrr, evalRune, hr, if_true, if_neg hn, hap]
  rw [step]
  exact evalLoop_fuel A k (rest.length + 1) rest (n - 1) _ (by omega) (by omega) (by omega)
    (by unfold NUM_STACK_SIZE; omega)

/-- A byte that is neither an operator, a digit nor a point (the separator) is
skipped. -/
theorem evalLoop_skip {F : Type} (A : Float64 F) (fuel : Nat) (b : Nat) (rest : List Nat)
    (n : Int) (st : Nat → F) (hf : rest.length + 1 < fuel) (hb : b < 0x80)
    (hr : is_oper b = false) (hn : numByte b = false)
    (h0 : 0 ≤ n) (h1 : n ≤ NUM_STACK_SIZE) :
    evalLoop A fuel (b :: rest) n st = evalLoop A (rest.length + 1) rest n st := by
  have hrr : ReadRune (b :: rest) = some (b, 1, rest) := by simp [ReadRune, hb]
  obtain ⟨k, rfl⟩ : ∃ k, fuel = k + 1 := ⟨fuel - 1, by omega⟩
  have hc : ¬ (b = 46 ∨ is_digit b = true) := by
    simpa [numByte] using hn
  have step : evalLoop A (k + 1) (b :: rest) n st = evalLoop A k rest n st := by
    simp only [evalLoop, hrr, evalRune, hr, Bool.false_eq_true, if_false, if_neg hc]
  rw [step]
  exact evalLoop_fuel A k (rest.length + 1) rest n st (by omega) (by omega) h0 h1

theorem takeWhile_run (p : Nat → Bool) (ds rest : List Nat) (hd : ∀ d ∈ ds, p d = true)
    (hrest : ∀ x ∈ rest.head?, p x = false) :
    (ds ++ rest).takeWhile p = ds ∧ (ds ++ rest).dropWhile p = rest := by
  induction ds with
  | nil =>
    rcases rest with _ | ⟨x, xs⟩
    · simp
    · have hx : p x = false := hrest x (by simp)
      simp [List.takeWhile, List.dropWhile, hx]
  | cons d ds ih =>
    have hdd := hd d (List.mem_cons_self _ _)
    obtain ⟨i1, i2⟩ := ih (fun x hx => hd x (List.mem_cons_of_mem _ hx))
    constructor
    · rw [List.cons_append, List.takeWhile_cons_of_pos hdd, i1]
    · rw [List.cons_append, List.dropWhile_cons_of_pos hdd, i2]

/-- A number: the maximal run of digits and points is parsed and pushed on the
operand stack. -/
theorem evalLoop_number {F : Type} (A : Float64 F) (fuel : Nat) (ds rest : List Nat)
    (n : Int) (st : Nat → F) (hf : (ds ++ rest).length < fuel)
    (hd : ∀ d ∈ ds, numByte d = true) (hne : ds ≠ [])
    (hrest : ∀ x ∈ rest.head?, numByte x = false)
    (h0 : 0 ≤ n) (h1 : n < NUM_STACK_SIZE) :
    evalLoop A fuel (ds ++ rest) n st =
      evalLoop A (rest.length + 1) rest (n + 1)
        (Function.update st n.toNat (A.ParseFloat ds)) := by
  obtain ⟨ht, hdr⟩ := takeWhile_run numByte ds rest hd hrest
  rcases ds with _ | ⟨d, ds⟩
  · exact absurd rfl hne
  have hdn : numByte d = true := hd d (List.mem_cons_self _ _)
  have hlt := numByte_ascii d hdn
  have hrr : ReadRune (d :: (ds ++ rest)) = some (d, 1, ds ++ rest) := by simp [ReadRune, hlt]
  have hc : d = 46 ∨ is_digit d = true := by simpa [numByte] using hdn
  have hno : is_oper d = false := by
    rcases hc with h | h
    · subst h; decide
    · have := (is_digit_ascii d h).2.2.2.1
      cases ho : is_oper d with
      | true => exact absurd ((is_oper_iff d).1 ho) this
      | false => rfl
  obtain ⟨k, rfl⟩ : ∃ k, fuel = k + 1 :=
    ⟨fuel - 1, by simp only [List.length_append, List.length_cons] at hf; omega⟩
  have hfull : ¬ n ≥ NUM_STACK_SIZE := by omega
  rw [List.cons_append] at ht hdr ⊢
  have step : evalLoop A (k + 1) (d :: (ds ++ rest)) n st = evalLoop A k rest (n + 1)
      (Function.update st n.toNat (A.ParseFloat (d :: ds))) := by
    simp only [evalLoop, hrr, evalRune, hno, Bool.false_eq_true, if_false, if_pos hc,
      get_num_spec, ht, hdr, if_neg hfull, if_pos h0]
  rw [step]
  have hlen : rest.length < k := by
    simp only [List.length_append, List.length_cons] at hf; omega
  exact evalLoop_fuel A k (rest.length + 1) rest (n + 1) _ hlen (by omega) (by omega)
    (by unfold NUM_STACK_SIZE at h1 ⊢; omega)

theorem evalAll_nil {F : Type} (A : Float64 F) (n : Int) (st : Nat → F) :
    evalAll A [] n st = .done (.next n st []) :=
  evalLoop_eof A 0 n st

theorem evalAll_oper {F : Type} (A : Float64 F) (r : Nat) (rest : List Nat) (n : Int)
    (st : Nat → F) (hr : is_oper r = true) (h2 : 2 ≤ n) (h1 : n ≤ NUM_STACK_SIZE) :
    evalAll A (r :: rest) n st =
      evalAll A rest (n - 1)
        (Function.update st (n - 2).toNat (A.oper r (st (n - 2).toNat) (st (n - 1).toNat))) :=
  evalLoop_oper A _ r rest n st (by simp) hr h2 h1

theorem evalAll_skip {F : Type} (A : Float64 F) (rest : List Nat) (n : Int) (st : Nat → F)
    (h0 : 0 ≤ n) (h1 : n ≤ NUM_STACK_SIZE) :
    evalAll A (32 :: rest) n st = evalAll A rest n st :=
  evalLoop_skip A _ 32 rest n st (by simp) (by decide) (by decide) (by decide) h0 h1

theorem evalAll_number {F : Type} (A : Float64 F) (ds rest : List Nat) (n : Int)
    (st : Nat → F) (hd : digitString ds = true)
    (hrest : ∀ x ∈ rest.head?, numByte x = false) (h0 : 0 ≤ n) (h1 : n < NUM_STACK_SIZE) :
    evalAll A (ds ++ rest) n st =
      evalAll A rest (n + 1) (Function.update st n.toNat (A.ParseFloat ds)) :=
  evalLoop_number A _ ds rest n st (Nat.lt_succ_self _) (digitString_spec ds hd).2.2
    (digitString_spec ds hd).1 hrest h0 h1

/-- Evaluation of the text `a`, separator, `b`, separator, `op1`, `c`, `op2`:
the value is `(a op1 b) op2 c`. -/
theorem calculateRPN_left {F : Type} (A : Float64 F) (a b c : List Nat) (op1 op2 : Nat)
    (ha : digitString a = true) (hb : digitString b = true) (hc : digitString c = true)
    (h1 : is_oper op1 = true) (h2 : is_oper op2 = true) :
    calculateRPN A (a ++ [32] ++ b ++ [32, op1] ++ c ++ [op2]) =
      .done (A.oper op2 (A.oper op1 (A.ParseFloat a) (A.ParseFloat b)) (A.ParseFloat c),
        none) := by
  obtain ⟨_, _, n2, _⟩ := is_oper_facts op2 h2
  have e : a ++ [32] ++ b ++ [32, op1] ++ c ++ [op2] =
      a ++ 32 :: (b ++ 32 :: op1 :: (c ++ [op2])) := by simp
  unfold calculateRPN
  rw [e]
  change (match evalAll A (a ++ 32 :: (b ++ 32 :: op1 :: (c ++ [op2]))) 0
    (fun _ => A.zero) with
    | .done (.fail e) => Exec.done (A.zero, some e)
    | .done (.next st_cnt st _) =>
      if st_cnt > 1 then Exec.done (A.zero, some EvalErr.needMoreOperations)
      else Exec.done (st 0, none)
    | .panic => Exec.panic
    | .timeout => Exec.timeout) = _
  rw [evalAll_number A a _ 0 _ ha (by simp; decide) (by decide) (by decide),
    evalAll_skip A _ _ _ (by decide) (by decide),
    evalAll_number A b _ _ _ hb (by simp; decide) (by decide) (by decide),
    evalAll_skip A _ _ _ (by decide) (by decide),
    evalAll_oper A op1 _ _ _ h1 (by decide) (by decide),
    evalAll_number A c _ _ _ hc (by simp [n2]) (by decide) (by decide),
    evalAll_oper A op2 _ _ _ h2 (by decide) (by decide),
    evalAll_nil]
  simp

/-- Evaluation of the text `a`, separator, `b`, separator, `c`, `op2`, `op1`:
the value is `a op1 (b op2 c)`. -/
theorem calculateRPN_right {F : Type} (A : Float64 F) (a b c : List Nat) (op1 op2 : Nat)
    (ha : digitString a = true) (hb : digitString b = true) (hc : digitString c = true)
    (h1 : is_oper op1 = true) (h2 : is_oper op2 = true) :
    calculateRPN A (a ++ [32] ++ b ++ [32] ++ c ++ [op2, op1]) =
      .done (A.oper op1 (A.ParseFloat a) (A.oper op2 (A.ParseFloat b) (A.ParseFloat c)),
        none) := by
  obtain ⟨_, _, n2, _⟩ := is_oper_facts op2 h2
  have e : a ++ [32] ++ b ++ [32] ++ c ++ [op2, op1] =
      a ++ 32 :: (b ++ 32 :: (c ++ op2 :: [op1])) := by simp
  unfold calculateRPN
  rw [e]
  change (match evalAll A (a ++ 32 :: (b ++ 32 :: (c ++ op2 :: [op1]))) 0
    (fun _ => A.zero) with
    | .done (.fail e) => Exec.done (A.zero, some e)
    | .done (.next st_cnt st _) =>
      if st_cnt > 1 then Exec.done (A.zero, some EvalErr.needMoreOperations)
      else Exec.done (st 0, none)
    | .panic => Exec.panic
    | .timeout => Exec.timeout) = _
  rw [evalAll_number A a _ 0 _ ha (by simp; decide) (by decide) (by decide),
    evalAll_skip A _ _ _ (by decide) (by decide),
    evalAll_number A b _ _ _ hb (by simp; decide) (by decide) (by decide),
    evalAll_skip A _ _ _ (by decide) (by decide),
    evalAll_number A c _ _ _ hc (by simp [n2]) (by decide) (by decide),
    evalAll_oper A op2 _ _ _ h2 (by decide) (by decide),
    evalAll_oper A op1 _ _ _ h1 (by decide) (by decide),
    evalAll_nil]
  simp

theorem Calculate_fst_ok {F : Type} (A : Float64 F) (g : Globals) (expression s : List Nat)
    (h : (ToRPN g expression).fst = .done (s, -1, none)) :
    (Calculate A g expression).fst =
      (calculateRPN A s).map (fun p => (p.1, (-1 : Int), (none : Option ParseErr))) := by
  obtain ⟨g1, hg⟩ := Exec.fst_done _ _ h
  unfold Calculate
  rw [hg]
  simp only
  cases calculateRPN A s with
  | done p => rfl
  | panic => rfl
  | timeout => rfl

theorem ToRPN_ok_pos (g : Globals) (expression : List Nat) (s : List Nat) (pos : Int)
    (g1 : Globals) (h : ToRPN g expression = .done ((s, pos, none), g1)) : pos = -1 := by
  unfold ToRPN at h
  cases hs : scan (expression.length + 1) expression Conv.init g with
  | done st =>
    cases st with
    | fail w2 e2 g2 => rw [hs] at h; simp at h
    | next c2 g2 =>
      rw [hs] at h
      simp only at h
      by_cases hc : c2.openParenthesisCount > 0
      · rw [if_pos hc] at h; simp at h
      · rw [if_neg hc] at h
        cases hd : drain (popFuel g2) g2 c2.rpnText with
        | done p =>
          rw [hd] at h
          simp at h
          exact h.1.2.symm
        | panic => rw [hd] at h; simp at h
        | timeout => rw [hd] at h; simp at h
  | panic => rw [hs] at h; simp at h
  | timeout => rw [hs] at h; simp at h

theorem ToRPN_Calculate_of_view {F : Type} (A : Float64 F) (stack : Nat → Nat)
    (expression text : List Nat) (v : F)
    (h : ToRPNL [] expression = .done ((text, -1, none), []))
    (hv : calculateRPN A text = .done (v, none)) :
    (ToRPN ⟨-1, stack⟩ expression).fst = .done (text, -1, none) ∧
    (Calculate A ⟨-1, stack⟩ expression).fst = .done (v, -1, none) := by
  have h1 : (ToRPN ⟨-1, stack⟩ expression).fst = .done (text, -1, none) := by
    rw [ToRPN_fst_empty, h]; rfl
  refine ⟨h1, ?_⟩
  rw [Calculate_fst_ok A _ expression text h1, hv]
  rfl

/-- List view of `(a+b)*(c+d)`: each `+` is emitted at its closing parenthesis
and the `*` at the end. -/
theorem ToRPNL_paren_product (a b c d : List Nat) (ha : digitString a = true)
    (hb : digitString b = true) (hc : digitString c = true) (hd : digitString d = true) :
    ToRPNL [] ([40] ++ a ++ [43] ++ b ++ [41, 42, 40] ++ c ++ [43] ++ d ++ [41]) =
      .done ((a ++ [32] ++ b ++ [43, 32] ++ c ++ [32] ++ d ++ [43, 42], -1, none), []) := by
  have e : [40] ++ a ++ [43] ++ b ++ [41, 42, 40] ++ c ++ [43] ++ d ++ [41] =
      40 :: (a ++ 43 :: (b ++ 41 :: 42 :: 40 :: (c ++ 43 :: (d ++ 41 :: [])))) := by simp
  unfold ToRPNL
  rw [e, scanL_open _ Conv.init [] (Or.inl rfl) (by simp),
    scanL_num_oper a ha 43 _ _ _ (by simp) (by decide) (by decide),
    scanL_num_close b hb _ _ _ (by simp) (by simp [Conv.init]) (by decide),
    scanL_oper 42 _ _ _ (by decide) (Or.inl rfl) (by decide),
    scanL_open _ _ _ (Or.inr (Or.inr (by simp [is_oper]))) (by decide),
    scanL_num_oper c hc 43 _ _ _ (by simp) (by decide) (by decide),
    scanL_num_close d hd _ _ _ (by simp) (by simp [Conv.init]) (by decide)]
  simp [scanL, Conv.init, operTest, left_assoc, right_assoc, priority, runeString]

/-- Evaluation of the text `a`, separator, `b`, `+`, separator, `c`, separator,
`d`, `+`, `*`: the value is `(a+b)*(c+d)`. -/
theorem calculateRPN_paren_product {F : Type} (A : Float64 F) (a b c d : List Nat)
    (ha : digitString a = true) (hb : digitString b = true) (hc : digitString c = true)
    (hd : digitString d = true) :
    calculateRPN A (a ++ [32] ++ b ++ [43, 32] ++ c ++ [32] ++ d ++ [43, 42]) =
      .done (A.mul (A.add (A.ParseFloat a) (A.ParseFloat b))
        (A.add (A.ParseFloat c) (A.ParseFloat d)), none) := by
  have e : a ++ [32] ++ b ++ [43, 32] ++ c ++ [32] ++ d ++ [43, 42] =
      a ++ 32 :: (b ++ 43 :: 32 :: (c ++ 32 :: (d ++ 43 :: [42]))) := by simp
  unfold calculateRPN
  rw [e]
  change (match evalAll A (a ++ 32 :: (b ++ 43 :: 32 :: (c ++ 32 :: (d ++ 43 :: [42])))) 0
    (fun _ => A.zero) with
    | .done (.fail e) => Exec.done (A.zero, some e)
    | .done (.next st_cnt st _) =>
      if st_cnt > 1 then Exec.done (A.zero, some EvalErr.needMoreOperations)
      else Exec.done (st 0, none)
    | .panic => Exec.panic
    | .timeout => Exec.timeout) = _
  rw [evalAll_number A a _ 0 _ ha (by simp; decide) (by decide) (by decide),
    evalAll_skip A _ _ _ (by decide) (by decide),
    evalAll_number A b _ _ _ hb (by simp; decide) (by decide) (by decide),
    evalAll_oper A 43 _ _ _ (by decide) (by decide) (by decide),
    evalAll_skip A _ _ _ (by decide) (by decide),
    evalAll_number A c _ _ _ hc (by simp; decide) (by decide) (by decide),
    evalAll_skip A _ _ _ (by decide) (by decide),
    evalAll_number A d _ _ _ hd (by simp; decide) (by decide) (by decide),
    evalAll_oper A 43 _ _ _ (by decide) (by decide) (by decide),
    evalAll_oper A 42 _ _ _ (by decide) (by decide) (by decide),
    evalAll_nil]
  simp [Float64.oper]

theorem digitString_no_paren (a : List Nat) (ha : digitString a = true) :
    40 ∉ a ∧ 41 ∉ a := by
  obtain ⟨_, hd, _⟩ := digitString_spec a ha
  constructor
  · intro h; exact absurd (hd 40 h) (by decide)
  · intro h; exact absurd (hd 41 h) (by decide)

/-! ## Parentheses -/

theorem ToRPN_ok_scan (g : Globals) (expression text : List Nat) (pos : Int) (g1 : Globals)
    (h : ToRPN g expression = .done ((text, pos, none), g1)) :
    ∃ c1 g0, scan (expression.length + 1) expression Conv.init g = .done (.next c1 g0) ∧
      ¬ c1.openParenthesisCount > 0 := by
  unfold ToRPN at h
  cases hs : scan (expression.length + 1) expression Conv.init g with
  | done st =>
    cases st with
    | fail w2 e2 g2 => rw [hs] at h; simp at h
    | next c2 g2 =>
      rw [hs] at h
      simp only at h
      by_cases hc : c2.openParenthesisCount > 0
      · rw [if_pos hc] at h; simp at h
      · exact ⟨c2, g2, rfl, hc⟩
  | panic => rw [hs] at h; simp at h
  | timeout => rw [hs] at h; simp at h

/-- On a scan that reaches the end of the text, `openParenthesisCount` follows
the difference between the open and the closing parentheses read, and that
difference never falls below zero. -/
theorem scan_paren_balance (fuel : Nat) : ∀ (rd : List Nat) (c c1 : Conv) (g g1 : Globals),
    scan fuel rd c g = .done (.next c1 g1) → 0 ≤ c.openParenthesisCount →
    (∀ k, (0 : Int) ≤ c.openParenthesisCount + (rd.take k).count 40 - (rd.take k).count 41) ∧
    c1.openParenthesisCount = c.openParenthesisCount + rd.count 40 - rd.count 41 := by
  induction fuel with
  | zero => intro rd c c1 g g1 h; simp [scan] at h
  | succ fuel ih =>
    intro rd c c1 g g1 h h0
    rcases rd with _ | ⟨b, bs⟩
    · rw [scan_nil] at h
      simp at h
      obtain ⟨rfl, _⟩ := h
      simp [h0]
    · obtain ⟨_, c2, g2, hs, hr⟩ := scan_next_cons fuel b bs c c1 g g1 h
      obtain ⟨_, _, hcase⟩ := switchRune_next b c c2 g g2 hs
      have key : (0 ≤ c2.openParenthesisCount) ∧
          c2.openParenthesisCount = c.openParenthesisCount + ([b].count 40 : Nat) -
            ([b].count 41 : Nat) := by
        rcases hcase with ⟨rfl, _, ho, _⟩ | ⟨rfl, _, hz, ho, _⟩ | ⟨hop, _, ho, _⟩ |
          ⟨rfl, _, _, ho, _⟩ | ⟨hd, _, ho, _⟩
        · rw [ho]; simp; omega
        · rw [ho]; simp; omega
        · have := (is_oper_iff b).1 hop
          have e1 : [b].count 40 = 0 := List.count_eq_zero.2 (by simp; omega)
          have e2 : [b].count 41 = 0 := List.count_eq_zero.2 (by simp; omega)
          rw [ho, e1, e2]; simp; omega
        · rw [ho]; simp; omega
        · have := is_digit_ascii b hd
          have e1 : [b].count 40 = 0 := List.count_eq_zero.2 (by simp; omega)
          have e2 : [b].count 41 = 0 := List.count_eq_zero.2 (by simp; omega)
          rw [ho, e1, e2]; simp; omega
      obtain ⟨ih1, ih2⟩ := ih bs _ c1 g2 g1 hr key.1
      simp only at ih1 ih2
      have hc40 : ∀ l : List Nat, (b :: l).count 40 = [b].count 40 + l.count 40 := by
        intro l
        rw [← List.singleton_append, List.count_append]
      have hc41 : ∀ l : List Nat, (b :: l).count 41 = [b].count 41 + l.count 41 := by
        intro l
        rw [← List.singleton_append, List.count_append]
      constructor
      · intro k
        rcases k with _ | k
        · simp [h0]
        · have := ih1 k
          rw [List.take_succ_cons, hc40, hc41]
          push_cast
          omega
      · rw [ih2, hc40, hc41]
        push_cast
        omega

/-- A successful conversion read balanced parentheses: no prefix of the
expression holds more closing than open parentheses, and the whole expression
holds as many of each. -/
theorem ToRPN_ok_balanced (g : Globals) (expression text : List Nat) (pos : Int)
    (g1 : Globals) (h : ToRPN g expression = .done ((text, pos, none), g1)) :
    (∀ k, (expression.take k).count 41 ≤ (expression.take k).count 40) ∧
    expression.count 40 = expression.count 41 := by
  obtain ⟨c1, g0, hs, hc⟩ := ToRPN_ok_scan g expression text pos g1 h
  obtain ⟨h1, h2⟩ := scan_paren_balance _ expression Conv.init c1 g g0 hs (le_refl _)
  have h3 := h1 expression.length
  simp only [Conv.init, List.take_length] at h1 h2 h3
  constructor
  · intro k
    have := h1 k
    omega
  · omega

/-! ## The grammar -/

/-- When the `switch` falls through on `b`, `b` is in the alphabet and allowed
after the previous rune; the decimal-point counter stays non-negative, is
positive after a point, unchanged after a digit or `(`, and zero after `)` or an
operator, and a point is accepted only with the counter at zero. -/
theorem switchRune_next_grammar (b : Nat) (c c1 : Conv) (g g1 : Globals)
    (h : switchRune b c g = .done (.next c1 g1)) (hpc : 0 ≤ c.pointCount) :
    inAlphabet b = true ∧ allowedAfter c.prevRune b ∧ c1.prevRune = b ∧ 0 ≤ c1.pointCount ∧
    (b = 46 → c.pointCount = 0 ∧ 0 < c1.pointCount) ∧
    (numByte b = true → 0 < c.pointCount → 0 < c1.pointCount) ∧
    (b = 40 → 0 < c.pointCount → 0 < c1.pointCount) := by
  obtain ⟨_, hprev, hcase⟩ := switchRune_next b c c1 g g1 h
  rcases hcase with ⟨rfl, hp, _, hq⟩ | ⟨rfl, hp, _, _, hq⟩ | ⟨hop, hp, _, hq⟩ |
    ⟨rfl, hp, hz, _, hq⟩ | ⟨hd, hp, _, hq⟩
  · refine ⟨by decide, ⟨fun _ => hp, fun h => ?_, fun h => ?_⟩, hprev, by omega,
      fun h => absurd h (by decide), fun h => absurd h (by decide), fun _ h => by omega⟩
    · rcases h with h | h
      · exact absurd h (by decide)
      · exact absurd h (by decide)
    · rcases h with h | h
      · exact absurd h (by decide)
      · exact absurd h (by decide)
  · refine ⟨by decide, ⟨fun h => absurd h (by decide), fun _ => hp, fun h => ?_⟩, hprev,
      by omega, fun h => absurd h (by decide), fun h => absurd h (by decide),
      fun h => absurd h (by decide)⟩
    rcases h with h | h
    · exact absurd h (by decide)
    · exact absurd h (by decide)
  · have ho := (is_oper_iff b).1 hop
    obtain ⟨_, _, hnb, _⟩ := is_oper_facts b hop
    refine ⟨by simp [inAlphabet, hop], ⟨fun h => by omega, fun _ => hp, fun h => ?_⟩, hprev,
      by omega, fun h => by omega, fun h => ?_, fun h => by omega⟩
    · rcases h with h | h
      · have := is_digit_ascii b h
        exact absurd ho this.2.2.2.1
      · omega
    · rw [hnb] at h
      exact absurd h (by decide)
  · refine ⟨by decide, ⟨fun h => absurd h (by decide), fun h => ?_, fun _ => hp⟩, hprev,
      by omega, fun _ => ⟨by omega, by omega⟩, fun _ h => by omega,
      fun h => absurd h (by decide)⟩
    rcases h with h | h
    · exact absurd h (by decide)
    · exact absurd h (by decide)
  · have hda := is_digit_ascii b hd
    refine ⟨by simp [inAlphabet, hd], ⟨fun h => absurd h hda.2.1, fun h => ?_, fun _ => hp⟩,
      hprev, by omega, fun h => absurd h hda.2.2.2.2, fun _ h => by omega,
      fun h => absurd h hda.2.1⟩
    rcases h with h | h
    · exact absurd h hda.2.2.1
    · exact absurd ((is_oper_iff b).1 h) hda.2.2.2.1

/-- A scan that reaches the end of the text read a text that obeys the grammar,
relative to the previous rune and the decimal-point counter it started with. -/
theorem scan_grammar (fuel : Nat) : ∀ (rd : List Nat) (c c1 : Conv) (g g1 : Globals),
    scan fuel rd c g = .done (.next c1 g1) → 0 ≤ c.pointCount →
    (∀ b ∈ rd, inAlphabet b = true) ∧
    (∀ b, rd[0]? = some b → allowedAfter c.prevRune b) ∧
    (∀ i p b, rd[i]? = some p → rd[i + 1]? = some b → allowedAfter p b) ∧
    (∀ j, rd[j]? = some 46 →
      (0 < c.pointCount → ∃ (k : Nat) (b : Nat), k < j ∧ rd[k]? = some b ∧ numByte b = false) ∧
      (∀ i, i < j → rd[i]? = some 46 →
        ∃ (k : Nat) (b : Nat), i < k ∧ k < j ∧ rd[k]? = some b ∧ numByte b = false)) := by
  induction fuel with
  | zero => intro rd c c1 g g1 h; simp [scan] at h
  | succ fuel ih =>
    intro rd c c1 g g1 h hpc
    rcases rd with _ | ⟨b, bs⟩
    · simp
    · obtain ⟨_, c2, g2, hs, hr⟩ := scan_next_cons fuel b bs c c1 g g1 h
      obtain ⟨ha, haft, hprev, hpc2, hpt, hnum, hopen⟩ :=
        switchRune_next_grammar b c c2 g g2 hs hpc
      obtain ⟨i1, i2, i3, i4⟩ := ih bs { c2 with wrongAt := c2.wrongAt + 1 } c1 g2 g1 hr hpc2
      simp only at i2 i4
      rw [hprev] at i2
      refine ⟨?_, ?_, ?_, ?_⟩
      · intro x hx
        rcases List.mem_cons.1 hx with rfl | hx
        · exact ha
        · exact i1 x hx
      · intro x hx
        simp only [List.getElem?_cons_zero, Option.some.injEq] at hx
        rw [← hx]
        exact haft
      · intro i p x hp hx
        rcases i with _ | i
        · simp only [List.getElem?_cons_zero, Option.some.injEq] at hp
          simp only [zero_add, List.getElem?_cons_succ] at hx
          rw [← hp]
          exact i2 x hx
        · simp only [List.getElem?_cons_succ] at hp hx
          exact i3 i p x hp hx
      · intro j hj
        rcases j with _ | j
        · simp only [List.getElem?_cons_zero, Option.some.injEq] at hj
          have := (hpt hj).1
          exact ⟨fun h => by omega, fun i hi => by omega⟩
        · simp only [List.getElem?_cons_succ] at hj
          obtain ⟨j1, j2⟩ := i4 j hj
          constructor
          · intro hpos
            cases hnb : numByte b with
            | true =>
              obtain ⟨k, x, hk, hx, hxn⟩ := j1 (hnum hnb hpos)
              exact ⟨k + 1, x, by omega, by simpa using hx, hxn⟩
            | false =>
              exact ⟨0, b, by omega, by simp, hnb⟩
          · intro i hi hip
            rcases i with _ | i
            · simp only [List.getElem?_cons_zero, Option.some.injEq] at hip
              obtain ⟨k, x, hk, hx, hxn⟩ := j1 (hpt hip).2
              exact ⟨k + 1, x, by omega, by omega, by simpa using hx, hxn⟩
            · simp only [List.getElem?_cons_succ] at hip
              obtain ⟨k, x, hk1, hk2, hx, hxn⟩ := j2 i (by omega) hip
              exact ⟨k + 1, x, by omega, by omega, by simpa using hx, hxn⟩

/-- A successful conversion read an expression that obeys the grammar. -/
theorem ToRPN_ok_grammar (g : Globals) (expression text : List Nat) (pos : Int)
    (g1 : Globals) (h : ToRPN g expression = .done ((text, pos, none), g1)) :
    Grammar expression := by
  obtain ⟨c1, g0, hs, _⟩ := ToRPN_ok_scan g expression text pos g1 h
  obtain ⟨h1, h2, h3, h4⟩ := scan_grammar _ expression Conv.init c1 g g0 hs (le_refl _)
  have hmem : ∀ (i : Nat) (p : Nat), expression[i]? = some p → inAlphabet p = true := by
    intro i p hp
    exact h1 p (List.getElem?_mem hp)
  refine ⟨h1, ?_, ?_, ?_, ?_, ?_⟩
  · intro b hb
    rw [List.head?_eq_getElem?] at hb
    have := (h2 b hb).2.1
    simp only [Conv.init] at this
    constructor
    · intro hb41
      rcases this (Or.inl hb41) with h | h
      · exact absurd h (by decide)
      · exact absurd h (by decide)
    · cases ho : is_oper b with
      | false => rfl
      | true =>
        rcases this (Or.inr ho) with h | h
        · exact absurd h (by decide)
        · exact absurd h (by decide)
  · intro i p hp hb
    rcases (h3 i p 40 hp hb).1 rfl with h | h | h
    · have := hmem i p hp
      rw [h] at this
      exact absurd this (by decide)
    · exact Or.inl h
    · exact Or.inr h
  · intro i p b hp hb hcond
    exact (h3 i p b hp hb).2.1 hcond
  · intro i b hp hb
    have := (h3 i 41 b hp hb).2.2
    constructor
    · cases hd : is_digit b with
      | false => rfl
      | true => exact absurd rfl (this (Or.inl hd))
    · intro h46
      exact absurd rfl (this (Or.inr h46))
  · intro i j hij hi hj
    exact (h4 j hj).2 i hij hi

/-! ## Invariants of the list view -/

/-- What is known when the list view of the `switch` falls through: the case
taken, the condition on the previous rune, the new locals and the new stack. -/
theorem switchL_next (b : Nat) (c c1 : Conv) (l l1 : List Nat)
    (h : switchL b c l = .done (.next c1 l1)) :
    (b = 40 ∧ (c.prevRune = 0 ∨ c.prevRune = 40 ∨ is_oper c.prevRune = true) ∧
      l.length < 256 ∧
      c1 = ⟨c.pointCount, 40, c.openParenthesisCount + 1, c.wrongAt, c.rpnText⟩ ∧
      l1 = 40 :: l) ∨
    (b = 41 ∧ (c.prevRune = 41 ∨ is_digit c.prevRune = true) ∧
      c.openParenthesisCount ≠ 0 ∧ 40 ∈ l ∧
      c1 = ⟨0, 41, c.openParenthesisCount - 1, c.wrongAt,
        c.rpnText ++ (l.takeWhile (fun h => h != 40)).flatMap runeString⟩ ∧
      l1 = (l.dropWhile (fun h => h != 40)).tail) ∨
    (is_oper b = true ∧ (c.prevRune = 41 ∨ is_digit c.prevRune = true) ∧
      (l.dropWhile (operTest b)).length < 256 ∧
      c1 = ⟨0, b, c.openParenthesisCount, c.wrongAt,
        c.rpnText ++ [32] ++ (l.takeWhile (operTest b)).flatMap runeString⟩ ∧
      l1 = b :: l.dropWhile (operTest b)) ∨
    (b = 46 ∧ c.prevRune ≠ 41 ∧ c.pointCount ≤ 0 ∧
      c1 = ⟨c.pointCount + 1, 46, c.openParenthesisCount, c.wrongAt, c.rpnText ++ [46]⟩ ∧
      l1 = l) ∨
    (is_digit b = true ∧ c.prevRune ≠ 41 ∧
      c1 = ⟨c.pointCount, b, c.openParenthesisCount, c.wrongAt, c.rpnText ++ [b]⟩ ∧
      l1 = l) := by
  by_cases h40 : b = 40
  · subst h40
    unfold switchL at h
    rw [if_pos rfl] at h
    by_cases hp : c.prevRune ≠ 0 ∧ c.prevRune ≠ 40 ∧ ¬ is_oper c.prevRune
    · rw [if_pos hp] at h; simp at h
    · rw [if_neg hp] at h
      by_cases hl : 256 ≤ l.length
      · rw [if_pos hl] at h; simp at h
      · rw [if_neg hl] at h
        simp only [Exec.done.injEq, StepL.next.injEq] at h
        refine Or.inl ⟨rfl, ?_, by omega, h.1.symm, h.2.symm⟩
        by_cases a : c.prevRune = 0
        · exact Or.inl a
        · by_cases b : c.prevRune = 40
          · exact Or.inr (Or.inl b)
          · right; right
            by_contra hc
            exact hp ⟨a, b, hc⟩
  by_cases h41 : b = 41
  · subst h41
    unfold switchL at h
    rw [if_neg h40, if_pos rfl] at h
    by_cases hp : c.prevRune ≠ 41 ∧ ¬ is_digit c.prevRune
    · rw [if_pos hp] at h; simp at h
    · rw [if_neg hp] at h
      by_cases hz : c.openParenthesisCount = 0
      · rw [if_pos hz] at h; simp at h
      · rw [if_neg hz] at h
        by_cases hm : 40 ∈ l
        · rw [if_pos hm] at h
          simp only [Exec.done.injEq, StepL.next.injEq] at h
          refine Or.inr (Or.inl ⟨rfl, ?_, hz, hm, h.1.symm, h.2.symm⟩)
          by_cases a : c.prevRune = 41
          · exact Or.inl a
          · right
            by_contra hc
            exact hp ⟨a, hc⟩
        · rw [if_neg hm] at h; simp at h
  by_cases hop : b = 43 ∨ b = 45 ∨ b = 42 ∨ b = 47 ∨ b = 37 ∨ b = 94
  · unfold switchL at h
    rw [if_neg h40, if_neg h41, if_pos hop] at h
    by_cases hp : c.prevRune ≠ 41 ∧ ¬ is_digit c.prevRune
    · rw [if_pos hp] at h; simp at h
    · rw [if_neg hp] at h
      by_cases hl : 256 ≤ (l.dropWhile (operTest b)).length
      · rw [if_pos hl] at h; simp at h
      · rw [if_neg hl] at h
        simp only [Exec.done.injEq, StepL.next.injEq] at h
        refine Or.inr (Or.inr (Or.inl ⟨(is_oper_iff b).2 hop, ?_, by omega, h.1.symm,
          h.2.symm⟩))
        by_cases a : c.prevRune = 41
        · exact Or.inl a
        · right
          by_contra hc
          exact hp ⟨a, hc⟩
  by_cases h46 : b = 46
  · subst h46
    unfold switchL at h
    rw [if_neg h40, if_neg h41, if_neg hop, if_pos rfl] at h
    by_cases hp : c.prevRune = 41
    · rw [if_pos hp] at h; simp at h
    · rw [if_neg hp] at h
      by_cases hpc : c.pointCount > 0
      · rw [if_pos hpc] at h; simp at h
      · rw [if_neg hpc] at h
        simp only [Exec.done.injEq, StepL.next.injEq] at h
        refine Or.inr (Or.inr (Or.inr (Or.inl ⟨rfl, hp, by omega, ?_, h.2.symm⟩)))
        rw [← h.1]
        rfl
  unfold switchL at h
  rw [if_neg h40, if_neg h41, if_neg hop, if_neg h46] at h
  cases hd : is_digit b with
  | true =>
    have hlt := (is_digit_ascii b hd).1
    by_cases hp : c.prevRune = 41
    · simp [hd, hp] at h
    · simp only [hd, if_true, if_neg hp, Exec.done.injEq, StepL.next.injEq] at h
      refine Or.inr (Or.inr (Or.inr (Or.inr ⟨rfl, hp, ?_, h.2.symm⟩)))
      rw [← h.1, runeString_ascii b hlt]
  | false => simp [hd] at h

/-- A list-view scan that reaches the end of a non-empty text read an ASCII
byte, fell through the `switch` on it, and reached the end of the rest. -/
theorem scanL_next_cons (b : Nat) (bs : List Nat) (c c2 : Conv) (l l2 : List Nat)
    (h : scanL (b :: bs) c l = .done (.next c2 l2)) :
    b < 0x80 ∧ ∃ c1 l1, switchL b c l = .done (.next c1 l1) ∧
      scanL bs { c1 with wrongAt := c1.wrongAt + 1 } l1 = .done (.next c2 l2) := by
  unfold scanL at h
  by_cases hb : b < 0x80
  · rw [if_pos hb] at h
    refine ⟨hb, ?_⟩
    cases hs : switchL b c l with
    | done st =>
      cases st with
      | fail w2 e2 l3 => rw [hs] at h; simp at h
      | next c1 l1 =>
        rw [hs] at h
        exact ⟨c1, l1, rfl, h⟩
    | panic => rw [hs] at h; simp at h
    | timeout => rw [hs] at h; simp at h
  · rw [if_neg hb] at h
    simp at h

/-- Induction along a list-view scan that reaches the end of the text: a
property of the bytes read so far, the locals and the stack that every
fall-through of the `switch` keeps holds at the end. -/
theorem scanL_invariant (P : List Nat → Conv → List Nat → Prop)
    (hstep : ∀ (p : List Nat) (b : Nat) (c : Conv) (l : List Nat) (c1 : Conv) (l1 : List Nat),
      P p c l → switchL b c l = .done (.next c1 l1) →
      P (p ++ [b]) { c1 with wrongAt := c1.wrongAt + 1 } l1) :
    ∀ (rd p : List Nat) (c : Conv) (l : List Nat) (c2 : Conv) (l2 : List Nat),
      P p c l → scanL rd c l = .done (.next c2 l2) → P (p ++ rd) c2 l2 := by
  intro rd
  induction rd with
  | nil =>
    intro p c l c2 l2 hP h
    simp only [scanL, Exec.done.injEq, StepL.next.injEq] at h
    rw [List.append_nil, ← h.1, ← h.2]
    exact hP
  | cons b bs ih =>
    intro p c l c2 l2 hP h
    obtain ⟨_, c1, l1, hs, hr⟩ := scanL_next_cons b bs c c2 l l2 h
    have := ih (p ++ [b]) _ l1 c2 l2 (hstep p b c l c1 l1 hP hs) hr
    simpa using this

/-- A successful `ToRPN`, in the list view: the scan reached the end of the
expression with no parenthesis left open, and the text returned is the text
scanned followed by the entries left on the stack. -/
theorem ToRPN_ok_scanL (g : Globals) (hok : g.ok) (expression text : List Nat) (pos : Int)
    (g1 : Globals) (h : ToRPN g expression = .done ((text, pos, none), g1)) :
    ∃ c l, scanL expression Conv.init (live g) = .done (.next c l) ∧
      ¬ c.openParenthesisCount > 0 ∧ text = c.rpnText ++ l.flatMap runeString := by
  have hv := ToRPN_view g hok expression
  rw [h] at hv
  simp only [Exec.map] at hv
  unfold ToRPNL at hv
  cases hs : scanL expression Conv.init (live g) with
  | done st =>
    cases st with
    | fail w2 e2 l3 => rw [hs] at hv; simp at hv
    | next c1 l1 =>
      rw [hs] at hv
      simp only at hv
      by_cases hc : c1.openParenthesisCount > 0
      · rw [if_pos hc] at hv; simp at hv
      · rw [if_neg hc] at hv
        simp only [Exec.done.injEq, Prod.mk.injEq] at hv
        exact ⟨c1, l1, rfl, hc, hv.1.1⟩
  | panic => rw [hs] at hv; simp at hv
  | timeout => rw [hs] at hv; simp at hv

/-- Along a scan in the list view, once a byte has been read either the text is
non-empty or the last byte read is an open parenthesis that is still open. -/
theorem scanL_text_nonempty (rd : List Nat) (l : List Nat) (c2 : Conv) (l2 : List Nat)
    (h : scanL rd Conv.init l = .done (.next c2 l2)) (hne : rd ≠ []) :
    c2.rpnText ≠ [] ∨ (c2.prevRune = 40 ∧ c2.openParenthesisCount > 0) := by
  have key := scanL_invariant
    (fun p c _ => (p = [] ∧ c.openParenthesisCount = 0) ∨ c.rpnText ≠ [] ∨
      (c.prevRune = 40 ∧ c.openParenthesisCount > 0))
    (by
      intro p b c l c1 l1 hP hs
      right
      rcases switchL_next b c c1 l l1 hs with ⟨_, _, _, rfl, _⟩ | ⟨_, hp, hz, _, rfl, _⟩ |
        ⟨_, _, _, rfl, _⟩ | ⟨_, _, _, rfl, _⟩ | ⟨_, _, rfl, _⟩
      · rcases hP with ⟨_, h0⟩ | h1 | ⟨_, h2⟩
        · right; exact ⟨rfl, by simp only; omega⟩
        · left; exact h1
        · right; exact ⟨rfl, by simp only; omega⟩
      · rcases hP with ⟨_, h0⟩ | h1 | ⟨h2, _⟩
        · exact absurd h0 hz
        · left; simp [h1]
        · rw [h2] at hp
          rcases hp with hp | hp
          · exact absurd hp (by decide)
          · exact absurd hp (by decide)
      · left; simp
      · left; simp
      · left; simp)
    rd [] Conv.init l c2 l2 (Or.inl ⟨rfl, rfl⟩) h
  simp only [List.nil_append] at key
  rcases key with ⟨h0, _⟩ | h1 | h2
  · exact absurd h0 hne
  · exact Or.inl h1
  · exact Or.inr h2

/-! ## Chains of numbers joined by `+` -/

/-- With one `+` on the stack, scanning a number and further numbers each
preceded by `+` emits every `+` when the next one is scanned and leaves one `+`
on the stack. -/
theorem scanL_plus_chain (more : List (List Nat)) (hm : ∀ n ∈ more, digitString n = true) :
    ∀ (b : List Nat) (c : Conv), digitString b = true → c.prevRune ≠ 41 →
    ∃ c1, scanL (b ++ more.flatMap (fun n => 43 :: n)) c [43] = .done (.next c1 [43]) ∧
      c1.rpnText = c.rpnText ++ b ++ more.flatMap (fun n => 32 :: 43 :: n) ∧
      c1.openParenthesisCount = c.openParenthesisCount := by
  induction more with
  | nil =>
    intro b c hb hp
    obtain ⟨p, e⟩ := scanL_num_end b hb c [43] hp
    exact ⟨⟨c.pointCount, p, c.openParenthesisCount, c.wrongAt + b.length, c.rpnText ++ b⟩,
      by simpa using e, by simp, rfl⟩
  | cons n more ih =>
    intro b c hb hp
    have e1 : List.dropWhile (operTest 43) [43] = [] := by decide
    have e2 : (List.takeWhile (operTest 43) [43]).flatMap runeString = [43] := by decide
    have hn : digitString n = true := hm n (List.mem_cons_self _ _)
    obtain ⟨c1, k1, k2, k3⟩ := ih (fun x hx => hm x (List.mem_cons_of_mem _ hx)) n
      ⟨0, 43, c.openParenthesisCount, c.wrongAt + b.length + 1, c.rpnText ++ b ++ [32] ++ [43]⟩
      hn (by simp)
    refine ⟨c1, ?_, ?_, k3⟩
    · rw [List.flatMap_cons, List.cons_append,
        scanL_num_oper b hb 43 _ c [43] hp (by decide) (by decide), e1, e2]
      exact k1
    · rw [k2]
      simp

/-- List view of numbers joined by `+`. -/
theorem ToRPNL_plus_chain (a : List Nat) (rest : List (List Nat)) (ha : digitString a = true)
    (hr : ∀ n ∈ rest, digitString n = true) :
    ToRPNL [] (joined 43 a rest) = .done ((plusChainText a rest, -1, none), []) := by
  unfold ToRPNL joined plusChainText
  rcases rest with _ | ⟨b, more⟩
  · obtain ⟨p, e⟩ := scanL_num_end a ha Conv.init [] (by decide)
    simp only [List.flatMap_nil, List.append_nil]
    rw [e]
    simp [Conv.init]
  · have hb : digitString b = true := hr b (List.mem_cons_self _ _)
    obtain ⟨c1, k1, k2, k3⟩ := scanL_plus_chain more
      (fun x hx => hr x (List.mem_cons_of_mem _ hx)) b
      ⟨0, 43, Conv.init.openParenthesisCount, Conv.init.wrongAt + a.length + 1,
        Conv.init.rpnText ++ a ++ [32] ++
          (([] : List Nat).takeWhile (operTest 43)).flatMap runeString⟩ hb (by simp)
    rw [List.flatMap_cons, List.cons_append,
      scanL_num_oper a ha 43 _ Conv.init [] (by decide) (by decide) (by decide)]
    simp only [List.dropWhile_nil]
    rw [k1]
    have ho : ¬ c1.openParenthesisCount > 0 := by
      rw [k3]; simp [Conv.init]
    simp only [ho, if_false, k2]
    simp [Conv.init, runeString]

/-- With two values on the operand stack, the text of further numbers, each
preceded by a separator and `+`, and a final `+`, adds everything up from
left to right and leaves one value. -/
theorem evalAll_plus_chain {F : Type} (A : Float64 F) (more : List (List Nat))
    (hm : ∀ n ∈ more, digitString n = true) :
    ∀ (st : Nat → F), ∃ st1, evalAll A (more.flatMap (fun n => 32 :: 43 :: n) ++ [43]) 2 st =
        .done (.next 1 st1 []) ∧
      st1 0 = more.foldl (fun acc n => A.add acc (A.ParseFloat n)) (A.add (st 0) (st 1)) := by
  induction more with
  | nil =>
    intro st
    refine ⟨Function.update st ((2 : Int) - 2).toNat
      (A.oper 43 (st ((2 : Int) - 2).toNat) (st ((2 : Int) - 1).toNat)), ?_, ?_⟩
    · simp only [List.flatMap_nil, List.nil_append]
      rw [evalAll_oper A 43 [] 2 st (by decide) (by decide) (by decide), evalAll_nil]
      rfl
    · simp [Float64.oper]
  | cons n more ih =>
    intro st
    have hn : digitString n = true := hm n (List.mem_cons_self _ _)
    have hrest : ∀ x ∈ (more.flatMap (fun n => 32 :: 43 :: n) ++ [43]).head?,
        numByte x = false := by
      intro x hx
      rcases more with _ | ⟨m, ms⟩
      · simp at hx; subst hx; decide
      · simp at hx; subst hx; decide
    obtain ⟨st1, k1, k2⟩ := ih (fun x hx => hm x (List.mem_cons_of_mem _ hx))
      (Function.update (Function.update st 0 (A.oper 43 (st 0) (st 1))) 1 (A.ParseFloat n))
    refine ⟨st1, ?_, ?_⟩
    · have e : (n :: more).flatMap (fun n => 32 :: 43 :: n) ++ [43] =
          32 :: 43 :: (n ++ (more.flatMap (fun n => 32 :: 43 :: n) ++ [43])) := by simp
      rw [e, evalAll_skip A _ 2 st (by decide) (by decide),
        evalAll_oper A 43 _ 2 st (by decide) (by decide) (by decide),
        evalAll_number A n _ _ _ hn hrest (by decide) (by decide)]
      exact k1
    · rw [k2]
      simp [Float64.oper]

/-- Evaluation of the RPN text of numbers joined by `+`: their sum, added from
left to right, with no error. -/
theorem calculateRPN_plus_chain {F : Type} (A : Float64 F) (a : List Nat)
    (rest : List (List Nat)) (ha : digitString a = true)
    (hr : ∀ n ∈ rest, digitString n = true) :
    calculateRPN A (plusChainText a rest) = .done (plusChainValue A a rest, none) := by
  rcases rest with _ | ⟨b, more⟩ <;> unfold calculateRPN plusChainText plusChainValue <;>
    simp only
  · change (match evalAll A a 0 (fun _ => A.zero) with
      | .done (.fail e) => Exec.done (A.zero, some e)
      | .done (.next st_cnt st _) =>
        if st_cnt > 1 then Exec.done (A.zero, some EvalErr.needMoreOperations)
        else Exec.done (st 0, none)
      | .panic => Exec.panic
      | .timeout => Exec.timeout) = _
    have e := evalAll_number A a [] 0 (fun _ => A.zero) ha (by simp) (by decide) (by decide)
    rw [List.append_nil] at e
    rw [e, evalAll_nil]
    simp
  · have hb : digitString b = true := hr b (List.mem_cons_self _ _)
    obtain ⟨st1, k1, k2⟩ := evalAll_plus_chain A more
      (fun x hx => hr x (List.mem_cons_of_mem _ hx))
      (Function.update (Function.update (fun _ => A.zero) 0 (A.ParseFloat a)) 1
        (A.ParseFloat b))
    have hrest : ∀ x ∈ (more.flatMap (fun n => 32 :: 43 :: n) ++ [43]).head?,
        numByte x = false := by
      intro x hx
      rcases more with _ | ⟨m, ms⟩
      · simp at hx; subst hx; decide
      · simp at hx; subst hx; decide
    have e : a ++ [32] ++ b ++ more.flatMap (fun n => 32 :: 43 :: n) ++ [43] =
        a ++ 32 :: (b ++ (more.flatMap (fun n => 32 :: 43 :: n) ++ [43])) := by simp
    rw [e]
    change (match evalAll A (a ++ 32 :: (b ++ (more.flatMap (fun n => 32 :: 43 :: n) ++ [43])))
      0 (fun _ => A.zero) with
      | .done (.fail e) => Exec.done (A.zero, some e)
      | .done (.next st_cnt st _) =>
        if st_cnt > 1 then Exec.done (A.zero, some EvalErr.needMoreOperations)
        else Exec.done (st 0, none)
      | .panic => Exec.panic
      | .timeout => Exec.timeout) = _
    rw [evalAll_number A a _ 0 _ ha (by simp; decide) (by decide) (by decide),
      evalAll_skip A _ _ _ (by decide) (by decide),
      evalAll_number A b _ _ _ hb hrest (by decide) (by decide)]
    have k1' : evalAll A (more.flatMap (fun n => 32 :: 43 :: n) ++ [43]) (0 + 1 + 1)
        (Function.update (Function.update (fun _ => A.zero) (0 : Int).toNat (A.ParseFloat a))
          ((0 : Int) + 1).toNat (A.ParseFloat b)) = .done (.next 1 st1 []) := k1
    rw [k1']
    simp only [gt_iff_lt, lt_self_iff_false, if_false, k2]
    simp

/-- Overflow policy of the operand stack: a digit or a point read while
`NUM_STACK_SIZE` values are on the stack ends `calculateRPN` with the error
"Complex expression". -/
theorem evalRune_overflow {F : Type} (A : Float64 F) (r : Nat) (before after : List Nat)
    (n : Int) (st : Nat → F) (hr : r = 46 ∨ is_digit r = true) (hn : n ≥ NUM_STACK_SIZE) :
    evalRune A r before after n st = .done (.fail .complex) := by
  have hno : is_oper r = false := by
    rcases hr with h | h
    · subst h; decide
    · have := (is_digit_ascii r h).2.2.2.1
      cases ho : is_oper r with
      | true => exact absurd ((is_oper_iff r).1 ho) this
      | false => rfl
  simp only [evalRune, hno, Bool.false_eq_true, if_false, if_pos hr, get_num_spec, if_pos hn]

/-! ## The package-level stack across calls -/

/-- The results of `Calculate` are determined by the results of `ToRPN`. -/
theorem Calculate_fst_congr {F : Type} (A : Float64 F) (g g2 : Globals) (expression : List Nat)
    (h : (ToRPN g expression).fst = (ToRPN g2 expression).fst) :
    (Calculate A g expression).fst = (Calculate A g2 expression).fst := by
  unfold Calculate
  cases h1 : ToRPN g expression with
  | done p =>
    obtain ⟨⟨s, w, e⟩, g3⟩ := p
    rw [h1] at h
    obtain ⟨g4, h2⟩ := Exec.fst_done _ _ h.symm
    rw [h2]
    cases e with
    | some err => rfl
    | none =>
      simp only
      cases calculateRPN A s <;> rfl
  | panic =>
    rw [h1] at h
    cases h2 : ToRPN g2 expression with
    | done p => rw [h2] at h; simp [Exec.fst] at h
    | panic => rfl
    | timeout => rw [h2] at h; simp [Exec.fst] at h
  | timeout =>
    rw [h1] at h
    cases h2 : ToRPN g2 expression with
    | done p => rw [h2] at h; simp [Exec.fst] at h
    | panic => rw [h2] at h; simp [Exec.fst] at h
    | timeout => rfl

/-- A successful `ToRPN` leaves the operator stack empty. -/
theorem ToRPN_ok_empties (g : Globals) (hok : g.ok) (expression text : List Nat) (pos : Int)
    (g1 : Globals) (h : ToRPN g expression = .done ((text, pos, none), g1)) :
    g1.stack_ptr = -1 := by
  rcases ToRPN_total g hok expression with ⟨t, g2, hs, hp⟩ | ⟨p, err, g2, hs, _⟩
  · rw [hs] at h
    simp only [Exec.done.injEq, Prod.mk.injEq] at h
    rw [← h.2]
    exact hp
  · rw [hs] at h
    simp at h

/-- With an empty stack the results of `ToRPN` do not depend on the content of
the array. -/
theorem ToRPN_fst_of_empty (g : Globals) (hg : g.stack_ptr = -1) (expression : List Nat) :
    (ToRPN g expression).fst = (ToRPN fresh expression).fst := by
  obtain ⟨p, s⟩ := g
  simp only at hg
  subst hg
  rw [ToRPN_fst_empty s expression]
  exact (ToRPN_fst_empty (fun _ => 0) expression).symm

theorem push_full (op : Nat) (g : Globals) (hf : stack_is_full g = true) :
    push op g = .panic := by
  have h : ¬ (0 ≤ g.stack_ptr + 1 ∧ g.stack_ptr + 1 < OP_STACK_SIZE) := by
    simp only [stack_is_full, decide_eq_true_eq] at hf
    omega
  simp only [push, h, if_false]

/-- From a state satisfying the invariant with an open parenthesis counted, the
loop of the closing parenthesis returns with `(` on top of a non-empty stack. -/
theorem closeLoop_finds_paren (c : Conv) (g : Globals) (out : List Nat) (hi : Inv c g)
    (ho : c.openParenthesisCount ≠ 0) :
    ∃ g1 text, closeLoop (popFuel g) g out = .done (g1, text) ∧ head g1 = .done 40 ∧
      0 ≤ g1.stack_ptr ∧ g1.stack_ptr ≤ g.stack_ptr ∧ (pop g1).ok := by
  obtain ⟨hok, ho0, hoc⟩ := hi
  have hpos : 0 < (live g).count 40 := by omega
  have hm : 40 ∈ live g := List.count_pos_iff.1 hpos
  obtain ⟨g1, e1, k1, k2, k3, k4⟩ :=
    (closeLoop_spec (popFuel g) g out hok (depth_lt_popFuel g)).1 hm
  obtain ⟨rest, hr⟩ := dropWhile_ne_of_mem 40 (live g) hm
  rw [← k4, live_cons g1 k2] at hr
  have htop : g1.stack g1.stack_ptr.toNat = 40 := (List.cons.inj hr).1
  refine ⟨g1, _, e1, ?_, k2, ?_, pop_ok g1 k2 k1⟩
  · rw [head_ok g1 k2 k1.2, htop]
  · have h1 : (live g1).length ≤ (live g).length := by
      rw [k4]
      exact (List.dropWhile_sublist _).length_le
    rw [live_length, live_length] at h1
    unfold depth at h1
    have := hok.1
    omega

/-- From a state satisfying the invariant, the scan of any text reaches a state
satisfying it whenever it reaches the end of the text. -/
theorem scan_next_inv (rd : List Nat) (c c1 : Conv) (g g1 : Globals) (hi : Inv c g)
    (h : scan (rd.length + 1) rd c g = .done (.next c1 g1)) : Inv c1 g1 := by
  rcases scan_total (rd.length + 1) rd c g hi (Nat.lt_succ_self _) with
    ⟨w, e, g2, hs, _⟩ | ⟨c2, g2, hs, hi2, _⟩
  · rw [hs] at h; simp at h
  · rw [hs] at h
    simp only [Exec.done.injEq, Step.next.injEq] at h
    rw [← h.1, ← h.2]
    exact hi2

/-! ## The operand stack -/

/-- What is known when the loop body of `calculateRPN` falls through, with
`st_cnt` in range: an operator found two values and replaced them by one, a
number was pushed on a stack that was not full, or the rune was skipped. -/
theorem evalRune_next {F : Type} (A : Float64 F) (r : Nat) (before after : List Nat)
    (n n1 : Int) (st st1 : Nat → F) (rd1 : List Nat) (h0 : 0 ≤ n) (h1 : n ≤ NUM_STACK_SIZE)
    (h : evalRune A r before after n st = .done (.next n1 st1 rd1)) :
    (is_oper r = true ∧ 2 ≤ n ∧ n1 = n - 1 ∧
      st1 = Function.update st (n - 2).toNat
        (A.oper r (st (n - 2).toNat) (st (n - 1).toNat))) ∨
    ((r = 46 ∨ is_digit r = true) ∧ n < NUM_STACK_SIZE ∧ n1 = n + 1 ∧
      ∃ f, st1 = Function.update st n.toNat f) ∨
    (is_oper r = false ∧ ¬ (r = 46 ∨ is_digit r = true) ∧ n1 = n ∧ st1 = st) := by
  unfold NUM_STACK_SIZE at h1
  unfold evalRune at h
  cases hop : is_oper r with
  | true =>
    rw [hop] at h
    simp only [if_true] at h
    by_cases h2 : n < 2
    · rw [if_pos h2] at h; simp at h
    · rw [if_neg h2] at h
      have hap := applyOper_spec A r (n - 1) st hop (by omega)
        (by unfold NUM_STACK_SIZE; omega)
      have hn2 : n - 1 - 1 = n - 2 := by omega
      rw [hn2] at hap
      rw [hap] at h
      simp only [Exec.done.injEq, EvalStep.next.injEq] at h
      exact Or.inl ⟨rfl, by omega, h.1.symm, h.2.1.symm⟩
  | false =>
    rw [hop] at h
    simp only [Bool.false_eq_true, if_false] at h
    by_cases hnum : r = 46 ∨ is_digit r = true
    · rw [if_pos hnum, get_num_spec] at h
      simp only at h
      by_cases hfull : n ≥ NUM_STACK_SIZE
      · rw [if_pos hfull] at h; simp at h
      · rw [if_neg hfull, if_pos h0] at h
        simp only [Exec.done.injEq, EvalStep.next.injEq] at h
        exact Or.inr (Or.inl ⟨hnum, by omega, h.1.symm, _, h.2.1.symm⟩)
    · rw [if_neg hnum] at h
      simp only [Exec.done.injEq, EvalStep.next.injEq] at h
      exact Or.inr (Or.inr ⟨rfl, hnum, h.1.symm, h.2.1.symm⟩)

/-- Invariant of the loop of `calculateRPN`: `st_cnt` stays between 0 and
`NUM_STACK_SIZE`, and while it is 0 the slot `st[0]` still holds its zero value. -/
theorem evalLoop_inv {F : Type} (A : Float64 F) (fuel : Nat) : ∀ (rd : List Nat) (n : Int)
    (st : Nat → F) (n1 : Int) (st1 : Nat → F) (rd1 : List Nat),
    0 ≤ n → n ≤ NUM_STACK_SIZE → (n = 0 → st 0 = A.zero) →
    evalLoop A fuel rd n st = .done (.next n1 st1 rd1) →
    0 ≤ n1 ∧ n1 ≤ NUM_STACK_SIZE ∧ (n1 = 0 → st1 0 = A.zero) := by
  induction fuel with
  | zero => intro rd n st n1 st1 rd1 _ _ _ h; simp [evalLoop] at h
  | succ fuel ih =>
    intro rd n st n1 st1 rd1 h0 h1 hz h
    rcases rd with _ | ⟨b, bs⟩
    · simp only [evalLoop, ReadRune, Exec.done.injEq, EvalStep.next.injEq] at h
      rw [← h.1, ← h.2.1]
      exact ⟨h0, h1, hz⟩
    · obtain ⟨r, size, rest, hr, _, _, _⟩ := ReadRune_cons b bs
      simp only [evalLoop, hr] at h
      cases he : evalRune A r (b :: bs) rest n st with
      | done s =>
        cases s with
        | fail e => rw [he] at h; simp at h
        | next n2 st2 rd2 =>
          rw [he] at h
          simp only at h
          have hN : NUM_STACK_SIZE = 32 := rfl
          have key : 0 ≤ n2 ∧ n2 ≤ NUM_STACK_SIZE ∧ (n2 = 0 → st2 0 = A.zero) := by
            rcases evalRune_next A r (b :: bs) rest n n2 st st2 rd2 h0 h1 he with
              ⟨_, k2, k3, _⟩ | ⟨_, k2, k3, _⟩ | ⟨_, _, k3, k4⟩
            · exact ⟨by omega, by omega, fun hc => by omega⟩
            · exact ⟨by omega, by omega, fun hc => by omega⟩
            · rw [k3, k4]
              exact ⟨h0, h1, hz⟩
          exact ih rd2 n2 st2 n1 st1 rd1 key.1 key.2.1 key.2.2 h
      | panic => rw [he] at h; simp at h
      | timeout => rw [he] at h; simp at h

theorem evalRune_fail {F : Type} (A : Float64 F) (r : Nat) (before after : List Nat)
    (n : Int) (st : Nat → F) (e : EvalErr)
    (h : evalRune A r before after n st = .done (.fail e)) :
    (e = .fewOperands r ∧ is_oper r = true ∧ n < 2) ∨
    (e = .complex ∧ (r = 46 ∨ is_digit r = true) ∧ n ≥ NUM_STACK_SIZE) := by
  unfold evalRune at h
  cases hop : is_oper r with
  | true =>
    rw [hop] at h
    simp only [if_true] at h
    by_cases h2 : n < 2
    · rw [if_pos h2] at h
      simp only [Exec.done.injEq, EvalStep.fail.injEq] at h
      exact Or.inl ⟨h.symm, rfl, h2⟩
    · rw [if_neg h2] at h
      cases ha : applyOper A r (n - 1) st <;> rw [ha] at h <;> simp at h
  | false =>
    rw [hop] at h
    simp only [Bool.false_eq_true, if_false] at h
    by_cases hnum : r = 46 ∨ is_digit r = true
    · rw [if_pos hnum, get_num_spec] at h
      simp only at h
      by_cases hfull : n ≥ NUM_STACK_SIZE
      · rw [if_pos hfull] at h
        simp only [Exec.done.injEq, EvalStep.fail.injEq] at h
        exact Or.inr ⟨h.symm, hnum, hfull⟩
      · rw [if_neg hfull] at h
        by_cases h0 : 0 ≤ n
        · rw [if_pos h0] at h; simp at h
        · rw [if_neg h0] at h; simp at h
    · rw [if_neg hnum] at h
      simp at h

/-- The loop of `calculateRPN` ends early only with the error "few operands" or
"Complex expression". -/
theorem evalLoop_fail {F : Type} (A : Float64 F) (fuel : Nat) : ∀ (rd : List Nat) (n : Int)
    (st : Nat → F) (e : EvalErr), evalLoop A fuel rd n st = .done (.fail e) →
    (∃ r, e = .fewOperands r) ∨ e = .complex := by
  induction fuel with
  | zero => intro rd n st e h; simp [evalLoop] at h
  | succ fuel ih =>
    intro rd n st e h
    rcases rd with _ | ⟨b, bs⟩
    · simp [evalLoop, ReadRune] at h
    · obtain ⟨r, size, rest, hr, _, _, _⟩ := ReadRune_cons b bs
      simp only [evalLoop, hr] at h
      cases he : evalRune A r (b :: bs) rest n st with
      | done s =>
        cases s with
        | fail e2 =>
          rw [he] at h
          simp only [Exec.done.injEq, EvalStep.fail.injEq] at h
          subst h
          rcases evalRune_fail A r (b :: bs) rest n st e2 he with ⟨k, _⟩ | ⟨k, _⟩
          · exact Or.inl ⟨r, k⟩
          · exact Or.inr k
        | next n2 st2 rd2 =>
          rw [he] at h
          exact ih rd2 n2 st2 e h
      | panic => rw [he] at h; simp at h
      | timeout => rw [he] at h; simp at h

/-! ## Content of the operator stack and shape of the text -/

theorem priority_oper (h : Nat) :
    (1 ≤ priority h ↔ is_oper h = true) ∧ (priority h = -1 ∨ 1 ≤ priority h) := by
  unfold priority
  rw [is_oper_iff]
  split_ifs <;> constructor <;> omega

theorem operTest_oper (r h : Nat) (ht : operTest r h = true) : is_oper h = true := by
  have h1 := priority_oper h
  have h2 := priority_oper r
  simp only [operTest, Bool.or_eq_true, Bool.and_eq_true, decide_eq_true_eq] at ht
  rcases ht with ⟨hl, hp⟩ | ⟨_, hp⟩
  · have hr : is_oper r = true := by
      rw [is_oper_iff]
      simp [left_assoc] at hl
      omega
    have := h2.1.2 hr
    exact h1.1.1 (by omega)
  · exact h1.1.1 (by omega)

theorem flatMap_runeString_opers (xs : List Nat) (h : ∀ x ∈ xs, is_oper x = true) :
    xs.flatMap runeString = xs := by
  induction xs with
  | nil => rfl
  | cons x xs ih =>
    rw [List.flatMap_cons, (is_oper_facts x (h x (List.mem_cons_self _ _))).2.2.2,
      ih (fun y hy => h y (List.mem_cons_of_mem _ hy))]
    rfl

theorem withoutOpers_opers (xs : List Nat) (h : ∀ x ∈ xs, is_oper x = true) :
    withoutOpers xs = [] := by
  unfold withoutOpers
  rw [List.filter_eq_nil_iff]
  intro x hx
  simp [h x hx]

/-- The stack holds only open parentheses and operators, as many open
parentheses as `openParenthesisCount` counts. -/
theorem switchL_stack_inv (b : Nat) (c c1 : Conv) (l l1 : List Nat)
    (h : switchL b c l = .done (.next c1 l1))
    (hl : ∀ x ∈ l, x = 40 ∨ is_oper x = true)
    (hc : ((l.count 40 : Nat) : Int) = c.openParenthesisCount) :
    (∀ x ∈ l1, x = 40 ∨ is_oper x = true) ∧
    ((l1.count 40 : Nat) : Int) = c1.openParenthesisCount := by
  rcases switchL_next b c c1 l l1 h with ⟨_, _, _, rfl, rfl⟩ | ⟨_, _, _, hm, rfl, rfl⟩ |
    ⟨hop, _, _, rfl, rfl⟩ | ⟨_, _, _, rfl, rfl⟩ | ⟨_, _, rfl, rfl⟩
  · constructor
    · intro x hx
      rcases List.mem_cons.1 hx with rfl | hx
      · exact Or.inl rfl
      · exact hl x hx
    · simp only [List.count_cons_self]
      push_cast
      omega
  · obtain ⟨rest, hr⟩ := dropWhile_ne_of_mem 40 l hm
    have hcnt := count_dropWhile (fun x => x != 40) 40 (by simp) l
    rw [hr] at hcnt ⊢
    simp only [List.count_cons_self] at hcnt
    constructor
    · intro x hx
      have : x ∈ l := by
        have h1 : x ∈ l.dropWhile (fun x => x != 40) := by
          rw [hr]; exact List.mem_cons_of_mem _ hx
        exact (List.dropWhile_sublist _).subset h1
      exact hl x this
    · simp only [List.tail_cons]
      omega
  · have hb := (is_oper_iff b).1 hop
    constructor
    · intro x hx
      rcases List.mem_cons.1 hx with rfl | hx
      · exact Or.inr hop
      · exact hl x ((List.dropWhile_sublist _).subset hx)
    · rw [List.count_cons_of_ne (by omega), count_dropWhile (operTest b) 40 (operTest_paren b)]
      exact hc
  · exact ⟨hl, hc⟩
  · exact ⟨hl, hc⟩

/-- The entries the loop of the closing parenthesis pops are operators. -/
theorem takeWhile_ne_paren_opers (l : List Nat) (hl : ∀ x ∈ l, x = 40 ∨ is_oper x = true) :
    ∀ x ∈ l.takeWhile (fun h => h != 40), is_oper x = true := by
  intro x hx
  have h1 := List.mem_takeWhile_imp hx
  rcases hl x ((List.takeWhile_sublist _).subset hx) with h | h
  · simp [h] at h1
  · exact h

theorem takeWhile_operTest_opers (b : Nat) (l : List Nat) :
    ∀ x ∈ l.takeWhile (operTest b), is_oper x = true :=
  fun _ hx => operTest_oper b _ (List.mem_takeWhile_imp hx)

theorem withoutOpers_append (a b : List Nat) :
    withoutOpers (a ++ b) = withoutOpers a ++ withoutOpers b := by
  simp [withoutOpers]

theorem skeleton_append (a b : List Nat) : skeleton (a ++ b) = skeleton a ++ skeleton b := by
  simp [skeleton]

theorem count_snoc (o b : Nat) (p : List Nat) :
    (p ++ [b]).count o = p.count o + if b = o then 1 else 0 := by
  simp [List.count_append, List.count_cons]

theorem count_cons_if (o b : Nat) (p : List Nat) :
    (b :: p).count o = p.count o + if b = o then 1 else 0 := by
  simp [List.count_cons]

theorem opers_no_paren (xs : List Nat) (h : ∀ x ∈ xs, is_oper x = true) :
    ∀ x ∈ xs, x ≠ 40 ∧ x ≠ 41 := by
  intro x hx
  have := (is_oper_iff x).1 (h x hx)
  omega

theorem TextShape_step (p : List Nat) (b : Nat) (c : Conv) (l : List Nat) (c1 : Conv)
    (l1 : List Nat) (hP : TextShape p c l) (h : switchL b c l = .done (.next c1 l1)) :
    TextShape (p ++ [b]) { c1 with wrongAt := c1.wrongAt + 1 } l1 := by
  obtain ⟨hl, hc, hw, hcnt, hpar⟩ := hP
  obtain ⟨hl1, hc1⟩ := switchL_stack_inv b c c1 l l1 h hl hc
  refine ⟨hl1, hc1, ?_⟩
  rcases switchL_next b c c1 l l1 h with ⟨rfl, _, _, rfl, rfl⟩ | ⟨rfl, _, _, hm, rfl, rfl⟩ |
    ⟨hop, _, _, rfl, rfl⟩ | ⟨rfl, _, _, rfl, rfl⟩ | ⟨hd, _, rfl, rfl⟩
  · refine ⟨?_, ?_, hpar⟩
    · show withoutOpers c.rpnText = skeleton (p ++ [40])
      rw [skeleton_append, hw]
      simp [skeleton]
    · intro o ho
      have ho1 := (is_oper_iff o).1 ho
      have := hcnt o ho
      show c.rpnText.count o + (40 :: l).count o = (p ++ [40]).count o
      rw [count_snoc, count_cons_if, if_neg (by omega)]
      omega
  · have hpop := takeWhile_ne_paren_opers l hl
    obtain ⟨rest, hr⟩ := dropWhile_ne_of_mem 40 l hm
    simp only [flatMap_runeString_opers _ hpop, hr, List.tail_cons]
    refine ⟨?_, ?_, ?_⟩
    · rw [withoutOpers_append, withoutOpers_opers _ hpop, skeleton_append, hw]
      simp [skeleton]
    · intro o ho
      have ho1 := (is_oper_iff o).1 ho
      have h1 := hcnt o ho
      have h2 : l.count o = (l.takeWhile (fun h => h != 40)).count o + rest.count o := by
        conv_lhs => rw [← List.takeWhile_append_dropWhile (fun h => h != 40) l, hr]
        rw [List.count_append, count_cons_if, if_neg (by omega)]
        omega
      rw [List.count_append, count_snoc, if_neg (by omega)]
      omega
    · intro x hx
      rcases List.mem_append.1 hx with hx | hx
      · exact hpar x hx
      · exact opers_no_paren _ hpop x hx
  · have hpop := takeWhile_operTest_opers b l
    have hb := (is_oper_iff b).1 hop
    simp only [flatMap_runeString_opers _ hpop]
    refine ⟨?_, ?_, ?_⟩
    · have hs : skeleton [b] = [32] := by
        rcases hb with h | h | h | h | h | h <;> subst h <;> rfl
      have h32 : withoutOpers [32] = [32] := rfl
      rw [withoutOpers_append, withoutOpers_append, withoutOpers_opers _ hpop, skeleton_append,
        hw, hs, h32, List.append_nil]
    · intro o ho
      have ho1 := (is_oper_iff o).1 ho
      have h1 := hcnt o ho
      have h2 : l.count o = (l.takeWhile (operTest b)).count o +
          (l.dropWhile (operTest b)).count o := by
        conv_lhs => rw [← List.takeWhile_append_dropWhile (operTest b) l]
        rw [List.count_append]
      rw [List.count_append, count_snoc, count_snoc, count_cons_if, if_neg (by omega)]
      omega
    · intro x hx
      rcases List.mem_append.1 hx with hx | hx
      · rcases List.mem_append.1 hx with hx | hx
        · exact hpar x hx
        · simp only [List.mem_singleton] at hx
          omega
      · exact opers_no_paren _ hpop x hx
  · refine ⟨?_, ?_, ?_⟩
    · show withoutOpers (c.rpnText ++ [46]) = skeleton (p ++ [46])
      rw [withoutOpers_append, skeleton_append, hw]
      simp [skeleton, withoutOpers, is_oper]
    · intro o ho
      have ho1 := (is_oper_iff o).1 ho
      have h1 := hcnt o ho
      show (c.rpnText ++ [46]).count o + l1.count o = (p ++ [46]).count o
      rw [count_snoc, count_snoc, if_neg (by omega)]
      omega
    · intro x hx
      rcases List.mem_append.1 hx with hx | hx
      · exact hpar x hx
      · simp only [List.mem_singleton] at hx
        omega
  · have hd1 : 48 ≤ b ∧ b ≤ 57 := by simpa [is_digit] using hd
    have hno : is_oper b = false := by
      cases hb : is_oper b
      · rfl
      · have := (is_oper_iff b).1 hb
        omega
    refine ⟨?_, ?_, ?_⟩
    · show withoutOpers (c.rpnText ++ [b]) = skeleton (p ++ [b])
      rw [withoutOpers_append, skeleton_append, hw]
      have h40 : b ≠ 40 := by omega
      have h41 : b ≠ 41 := by omega
      simp [skeleton, withoutOpers, hno, h40, h41]
    · intro o ho
      have ho1 := (is_oper_iff o).1 ho
      have h1 := hcnt o ho
      show (c.rpnText ++ [b]).count o + l1.count o = (p ++ [b]).count o
      rw [count_snoc, count_snoc, if_neg (by omega)]
      omega
    · intro x hx
      rcases List.mem_append.1 hx with hx | hx
      · exact hpar x hx
      · simp only [List.mem_singleton] at hx
        omega

theorem TextShape_init : TextShape [] Conv.init [] := by
  refine ⟨by simp, by simp [Conv.init], rfl, ?_, by simp [Conv.init]⟩
  intro o _
  simp [Conv.init]

/-- After a successful conversion from an empty stack: the scan kept the shape
invariant, the entries left for the closing loop are operators, and the text is
the scanned text followed by them. -/
theorem ToRPN_ok_shape (stack : Nat → Nat) (expression text : List Nat) (pos : Int)
    (g1 : Globals) (h : ToRPN ⟨-1, stack⟩ expression = .done ((text, pos, none), g1)) :
    ∃ c l, scanL expression Conv.init [] = .done (.next c l) ∧ TextShape expression c l ∧
      (∀ x ∈ l, is_oper x = true) ∧ text = c.rpnText ++ l := by
  obtain ⟨c, l, hs, hopen, ht⟩ :=
    ToRPN_ok_scanL ⟨-1, stack⟩ (by constructor <;> simp [OP_STACK_SIZE]) expression text pos g1 h
  rw [live_empty _ rfl] at hs
  have hT := scanL_invariant TextShape TextShape_step expression [] Conv.init [] c l
    TextShape_init hs
  rw [List.nil_append] at hT
  have hops : ∀ x ∈ l, is_oper x = true := by
    intro x hx
    rcases hT.1 x hx with h40 | ho
    · subst h40
      have := hT.2.1
      have hpos : 0 < l.count 40 := List.count_pos_iff.2 hx
      omega
    · exact ho
  refine ⟨c, l, hs, hT, hops, ?_⟩
  rw [ht, flatMap_runeString_opers l hops]

theorem skeleton_filter_num (e : List Nat) : (skeleton e).filter numByte = e.filter numByte := by
  induction e with
  | nil => rfl
  | cons b e ih =>
    have h1 : skeleton (b :: e) = skeleton [b] ++ skeleton e := skeleton_append [b] e
    have h2 : (b :: e).filter numByte = [b].filter numByte ++ e.filter numByte :=
      List.filter_append [b] e
    have h3 : (skeleton [b]).filter numByte = [b].filter numByte := by
      by_cases h40 : b = 40
      · subst h40; rfl
      by_cases h41 : b = 41
      · subst h41; rfl
      cases ho : is_oper b
      · simp [skeleton, h40, h41, ho]
      · have hb := (is_oper_iff b).1 ho
        rcases hb with h | h | h | h | h | h <;> subst h <;> rfl
    rw [h1, h2, List.filter_append, ih, h3]

theorem skeleton_count_sep (e : List Nat) (ha : ∀ b ∈ e, inAlphabet b = true) :
    (skeleton e).count 32 = e.countP is_oper := by
  induction e with
  | nil => rfl
  | cons b e ih =>
    have h1 : skeleton (b :: e) = skeleton [b] ++ skeleton e := skeleton_append [b] e
    have h2 : (b :: e).countP is_oper = [b].countP is_oper + e.countP is_oper :=
      List.countP_append is_oper [b] e
    have h3 : (skeleton [b]).count 32 = [b].countP is_oper := by
      by_cases h40 : b = 40
      · subst h40; rfl
      by_cases h41 : b = 41
      · subst h41; rfl
      cases ho : is_oper b
      · have hb := ha b (List.mem_cons_self _ _)
        have h32 : b ≠ 32 := by
          intro h
          subst h
          simp [inAlphabet, is_digit, is_oper] at hb
        simp [skeleton, h40, h41, ho]
        rw [count_cons_if, if_neg h32]
        rfl
      · have hb := (is_oper_iff b).1 ho
        rcases hb with h | h | h | h | h | h <;> subst h <;> rfl
    rw [h1, h2, List.count_append, ih (fun x hx => ha x (List.mem_cons_of_mem _ hx)), h3]

theorem withoutOpers_filter_num (t : List Nat) :
    (withoutOpers t).filter numByte = t.filter numByte := by
  unfold withoutOpers
  rw [List.filter_filter]
  apply List.filter_congr
  intro x _
  cases ho : is_oper x
  · simp
  · simp [(is_oper_facts x ho).2.2.1]

theorem withoutOpers_count_sep (t : List Nat) : (withoutOpers t).count 32 = t.count 32 := by
  unfold withoutOpers
  rw [List.count_filter]
  rfl

/-! ## Arity of the text `ToRPN` returns -/

theorem arity_append (p q : List Nat) : ∀ (s : Bool × Nat),
    arity s (p ++ q) = (arity s p).bind (fun s1 => arity s1 q) := by
  induction p with
  | nil => intro s; rfl
  | cons b p ih =>
    intro s
    simp only [List.cons_append, arity]
    cases hs : arityStep s b with
    | none => rfl
    | some s1 => simp only [Option.bind_some, Option.some_bind]; exact ih s1

theorem arity_opers : ∀ (l : List Nat), (∀ x ∈ l, is_oper x = true) → ∀ (r : Bool) (h : Nat),
    l.length + 1 ≤ h →
    ∃ r1, arity (r, h) l = some (r1, h - l.length) ∧ (r = false → r1 = false) := by
  intro l
  induction l with
  | nil => intro _ r h _; exact ⟨r, rfl, id⟩
  | cons x xs ih =>
    intro hops r h hh
    have hx := hops x (List.mem_cons_self _ _)
    have hn := (is_oper_facts x hx).2.2.1
    simp only [List.length_cons] at hh
    obtain ⟨r1, h1, _⟩ := ih (fun y hy => hops y (List.mem_cons_of_mem _ hy)) false (h - 1)
      (by omega)
    refine ⟨r1, ?_, fun _ => by simp_all⟩
    have hstep : arityStep (r, h) x = some (false, h - 1) := by
      simp only [arityStep, hn, hx, Bool.false_eq_true, if_false, if_true]
      rw [if_pos (by omega)]
    simp only [arity, hstep, Option.some_bind, h1, List.length_cons]
    congr 2
    omega

theorem arity_num (b : Nat) (hb : numByte b = true) (r : Bool) (h : Nat) :
    arity (r, h) [b] = some (true, if r then h else h + 1) := by
  simp [arity, arityStep, hb]

theorem arity_sep (r : Bool) (h : Nat) : arity (r, h) [32] = some (false, h) := rfl

/-- The number of values the arity leaves, with the operators of the text, is
the number of values at the start with the number runs of the text. -/
theorem arity_count : ∀ (t : List Nat) (r : Bool) (h : Nat) (r1 : Bool) (h1 : Nat),
    arity (r, h) t = some (r1, h1) → h1 + t.countP is_oper = h + numRuns r t := by
  intro t
  induction t with
  | nil =>
    intro r h r1 h1 ha
    simp only [arity, Option.some.injEq, Prod.mk.injEq] at ha
    simp [numRuns, ha.2]
  | cons b t ih =>
    intro r h r1 h1 ha
    simp only [arity] at ha
    by_cases hn : numByte b = true
    · have hno : is_oper b = false := by
        cases ho : is_oper b
        · rfl
        · have := (is_oper_facts b ho).2.2.1
          simp [hn] at this
      simp only [arityStep, hn, if_true, Option.some_bind] at ha
      have := ih _ _ _ _ ha
      simp only [numRuns, hn, if_true, List.countP_cons, hno, Bool.false_eq_true, if_false]
      cases r <;> simp at this ⊢ <;> omega
    · have hn1 : numByte b = false := by simpa using hn
      by_cases ho : is_oper b = true
      · by_cases h2 : 2 ≤ h
        · simp only [arityStep, hn1, ho, Bool.false_eq_true, if_false, if_true, if_pos h2,
            Option.some_bind] at ha
          have := ih _ _ _ _ ha
          simp only [numRuns, hn1, Bool.false_eq_true, if_false, List.countP_cons, ho, if_true]
          omega
        · simp [arityStep, hn1, ho, h2] at ha
      · have ho1 : is_oper b = false := by simpa using ho
        simp only [arityStep, hn1, ho1, Bool.false_eq_true, if_false, Option.some_bind] at ha
        have := ih _ _ _ _ ha
        simp only [numRuns, hn1, Bool.false_eq_true, if_false, List.countP_cons, ho1]
        omega

/-- Every operator of a text with an arity has, before it, at least two more
number runs than operators. -/
theorem arity_operator (p s : List Nat) (o : Nat) (ho : is_oper o = true) (r1 : Bool)
    (h1 : Nat) (ha : arity (false, 0) (p ++ o :: s) = some (r1, h1)) :
    p.countP is_oper + 2 ≤ numRuns false p := by
  rw [arity_append] at ha
  cases hp : arity (false, 0) p with
  | none => rw [hp] at ha; simp at ha
  | some s1 =>
    obtain ⟨r2, h2⟩ := s1
    rw [hp] at ha
    simp only [Option.some_bind, arity] at ha
    have hn := (is_oper_facts o ho).2.2.1
    have hc := arity_count p false 0 r2 h2 hp
    by_cases h22 : 2 ≤ h2
    · omega
    · simp [arityStep, hn, ho, h22] at ha

theorem is_digit_iff (x : Nat) : is_digit x = true ↔ 48 ≤ x ∧ x ≤ 57 := by
  simp [is_digit]

theorem countP_opers (l : List Nat) (h : ∀ x ∈ l, is_oper x = true) :
    l.countP is_oper = l.length :=
  List.countP_eq_length.2 h

theorem ArityInv_init : ArityInv [] Conv.init [] := by
  refine ⟨TextShape_init, rfl, by simp [Conv.init], false, 0, rfl, Or.inl ⟨Or.inl rfl, rfl, rfl⟩⟩

theorem ArityInv_step (p : List Nat) (b : Nat) (c : Conv) (l : List Nat) (c1 : Conv)
    (l1 : List Nat) (hP : ArityInv p c l) (h : switchL b c l = .done (.next c1 l1)) :
    ArityInv (p ++ [b]) { c1 with wrongAt := c1.wrongAt + 1 } l1 := by
  obtain ⟨hT, hprev, h40, r, hh, ha, hst⟩ := hP
  have hT1 := TextShape_step p b c l c1 l1 hT h
  refine ⟨hT1, ?_⟩
  have hl := hT.1
  have hp0 : p = [] → c.prevRune = 0 := by
    intro hp
    rw [hprev, hp]
    rfl
  rcases switchL_next b c c1 l l1 h with ⟨rfl, hc, _, rfl, rfl⟩ | ⟨rfl, hc, _, hm, rfl, rfl⟩ |
    ⟨hop, hc, _, rfl, rfl⟩ | ⟨rfl, hc, _, rfl, rfl⟩ | ⟨hd, hc, rfl, rfl⟩
  · have hold : r = false ∧ hh = l.countP is_oper := by
      rcases hst with ⟨_, hr, hk⟩ | ⟨hd2, _, _⟩ | ⟨h41, _⟩
      · exact ⟨hr, hk⟩
      · exfalso
        simp only [is_oper_iff, is_digit_iff] at hc hd2
        omega
      · exfalso
        simp only [is_oper_iff] at hc
        omega
    refine ⟨by simp, fun _ => List.mem_cons_self _ _, r, hh, ha,
      Or.inl ⟨Or.inr (Or.inl rfl), hold.1, ?_⟩⟩
    rw [hold.2]
    simp [List.countP_cons, is_oper]
  · have hpop := takeWhile_ne_paren_opers l hl
    obtain ⟨rest, hr⟩ := dropWhile_ne_of_mem 40 l hm
    have hk : l.countP is_oper =
        (l.takeWhile (fun h => h != 40)).length + rest.countP is_oper := by
      conv_lhs => rw [← List.takeWhile_append_dropWhile (fun h => h != 40) l, hr]
      rw [List.countP_append, countP_opers _ hpop, List.countP_cons]
      simp [is_oper]
    have hold : hh = l.countP is_oper + 1 := by
      rcases hst with ⟨h1, _, _⟩ | ⟨_, _, hk1⟩ | ⟨_, hk1⟩
      · exfalso
        rcases h1 with h1 | h1
        · have := hp0 h1
          simp only [is_digit_iff] at hc
          omega
        · simp only [is_oper_iff, is_digit_iff] at hc h1
          omega
      · exact hk1
      · exact hk1
    obtain ⟨r1, ha1, _⟩ := arity_opers _ hpop r hh (by omega)
    rw [flatMap_runeString_opers _ hpop, hr, List.tail_cons]
    refine ⟨by simp, by simp, r1, hh - (l.takeWhile (fun h => h != 40)).length, ?_,
      Or.inr (Or.inr ⟨rfl, by omega⟩)⟩
    show arity (false, 0) (c.rpnText ++ l.takeWhile (fun h => h != 40)) = _
    rw [arity_append, ha]
    exact ha1
  · have hpop := takeWhile_operTest_opers b l
    have hb := (is_oper_iff b).1 hop
    have hk : l.countP is_oper =
        (l.takeWhile (operTest b)).length + (l.dropWhile (operTest b)).countP is_oper := by
      conv_lhs => rw [← List.takeWhile_append_dropWhile (operTest b) l]
      rw [List.countP_append, countP_opers _ hpop]
    have hold : hh = l.countP is_oper + 1 := by
      rcases hst with ⟨h1, _, _⟩ | ⟨_, _, hk1⟩ | ⟨_, hk1⟩
      · exfalso
        rcases h1 with h1 | h1
        · have := hp0 h1
          simp only [is_digit_iff] at hc
          omega
        · simp only [is_oper_iff, is_digit_iff] at hc h1
          omega
      · exact hk1
      · exact hk1
    obtain ⟨r1, ha1, hr1⟩ := arity_opers _ hpop false hh (by omega)
    rw [flatMap_runeString_opers _ hpop]
    refine ⟨by simp, ?_, r1, hh - (l.takeWhile (operTest b)).length, ?_,
      Or.inl ⟨Or.inr (Or.inr hop), hr1 rfl, ?_⟩⟩
    · intro h40b
      have h40c : b = 40 := h40b
      omega
    · show arity (false, 0) (c.rpnText ++ [32] ++ l.takeWhile (operTest b)) = _
      rw [arity_append, arity_append, ha]
      simp only [Option.some_bind, arity_sep]
      exact ha1
    · rw [List.countP_cons, if_pos hop]
      omega
  · have hold : (if r then hh else hh + 1) = l1.countP is_oper + 1 := by
      rcases hst with ⟨_, hr, hk⟩ | ⟨_, hr, hk⟩ | ⟨h41, _⟩
      · rw [hr, hk]; rfl
      · rw [hr, hk]; rfl
      · exact absurd h41 hc
    refine ⟨by simp, by simp, true, if r then hh else hh + 1, ?_,
      Or.inr (Or.inl ⟨Or.inr rfl, rfl, hold⟩)⟩
    show arity (false, 0) (c.rpnText ++ [46]) = _
    rw [arity_append, ha]
    exact arity_num 46 rfl r hh
  · have hold : (if r then hh else hh + 1) = l1.countP is_oper + 1 := by
      rcases hst with ⟨_, hr, hk⟩ | ⟨_, hr, hk⟩ | ⟨h41, _⟩
      · rw [hr, hk]; rfl
      · rw [hr, hk]; rfl
      · exact absurd h41 hc
    have hb := (is_digit_iff b).1 hd
    refine ⟨by simp, ?_, true, if r then hh else hh + 1, ?_,
      Or.inr (Or.inl ⟨Or.inl hd, rfl, hold⟩)⟩
    · intro h40b
      have h40c : b = 40 := h40b
      omega
    · show arity (false, 0) (c.rpnText ++ [b]) = _
      rw [arity_append, ha]
      exact arity_num b (by simp [numByte, hd]) r hh

/-- After a successful conversion from an empty stack of an expression whose
last byte is not an operator, the text has arity one. -/
theorem ToRPN_ok_arity (stack : Nat → Nat) (expression text : List Nat) (pos : Int)
    (g1 : Globals) (h : ToRPN ⟨-1, stack⟩ expression = .done ((text, pos, none), g1))
    (b : Nat) (hlast : expression.getLast? = some b) (hb : is_oper b = false) :
    ∃ r, arity (false, 0) text = some (r, 1) := by
  obtain ⟨c, l, hs, _, hops, ht⟩ := ToRPN_ok_shape stack expression text pos g1 h
  have hA := scanL_invariant ArityInv ArityInv_step expression [] Conv.init [] c l
    ArityInv_init hs
  rw [List.nil_append] at hA
  obtain ⟨_, hprev, h40, r, hh, ha, hst⟩ := hA
  rw [hlast] at hprev
  simp only [Option.getD_some] at hprev
  have hk := countP_opers l hops
  have hold : hh = l.length + 1 := by
    rcases hst with ⟨h1, _, _⟩ | ⟨_, _, hk1⟩ | ⟨_, hk1⟩
    · exfalso
      rcases h1 with h1 | h1 | h1
      · rw [h1] at hlast
        simp at hlast
      · have := hops 40 (h40 h1)
        simp [is_oper] at this
      · rw [hprev, hb] at h1
        simp at h1
    · omega
    · omega
  obtain ⟨r1, ha1, _⟩ := arity_opers l hops r hh (by omega)
  refine ⟨r1, ?_⟩
  rw [ht, arity_append, ha, Option.some_bind, ha1]
  congr 2
  omega

theorem arity_run : ∀ (ds : List Nat), (∀ d ∈ ds, numByte d = true) → ds ≠ [] →
    ∀ (r : Bool) (h : Nat), arity (r, h) ds = some (true, if r then h else h + 1) := by
  intro ds
  induction ds with
  | nil => intro _ hne; exact absurd rfl hne
  | cons d ds ih =>
    intro hd _ r h
    have hdn := hd d (List.mem_cons_self _ _)
    simp only [arity, arityStep, hdn, if_true, Option.some_bind]
    by_cases hds : ds = []
    · subst hds
      rfl
    · rw [ih (fun x hx => hd x (List.mem_cons_of_mem _ hx)) hds]
      rfl

theorem dropWhile_head (p : Nat → Bool) : ∀ (l : List Nat),
    ∀ x ∈ (l.dropWhile p).head?, p x = false := by
  intro l
  induction l with
  | nil => simp
  | cons a l ih =>
    intro x hx
    by_cases hp : p a = true
    · rw [List.dropWhile_cons_of_pos hp] at hx
      exact ih x hx
    · rw [List.dropWhile_cons_of_neg hp] at hx
      simp only [List.head?_cons, Option.mem_def, Option.some.injEq] at hx
      subst hx
      simpa using hp

theorem evalAll_overflow {F : Type} (A : Float64 F) (d : Nat) (rest : List Nat) (n : Int)
    (st : Nat → F) (hd : numByte d = true) (hn : n ≥ NUM_STACK_SIZE) :
    evalAll A (d :: rest) n st = .done (.fail .complex) := by
  have hlt := numByte_ascii d hd
  have hrr : ReadRune (d :: rest) = some (d, 1, rest) := by simp [ReadRune, hlt]
  have hc : d = 46 ∨ is_digit d = true := by simpa [numByte] using hd
  unfold evalAll
  simp only [List.length_cons, evalLoop, hrr, evalRune_overflow A d _ _ n st hc hn]

theorem inAlphabet_ascii (b : Nat) (h : inAlphabet b = true) : b < 0x80 := by
  simp only [inAlphabet, Bool.or_eq_true, is_digit_iff, beq_iff_eq, is_oper_iff] at h
  omega

theorem text_ascii (e text : List Nat) (hsk : withoutOpers text = skeleton e)
    (ha : ∀ b ∈ e, inAlphabet b = true) : ∀ x ∈ text, x < 0x80 := by
  intro x hx
  cases ho : is_oper x
  · have hm : x ∈ withoutOpers text := by simp [withoutOpers, hx, ho]
    rw [hsk] at hm
    simp only [skeleton, List.mem_map, List.mem_filter] at hm
    obtain ⟨b, ⟨hb, _⟩, rfl⟩ := hm
    split
    · decide
    · exact inAlphabet_ascii b (ha b hb)
  · exact (is_oper_facts x ho).1

/-- The evaluator on a text with an arity: the loop ends with as many values as
the arity says, or stops at a number with the operand stack full. -/
theorem evalAll_arity {F : Type} (A : Float64 F) : ∀ (k : Nat) (t : List Nat), t.length ≤ k →
    (∀ x ∈ t, x < 0x80) → ∀ (r : Bool) (n : Nat) (st : Nat → F) (r1 : Bool) (m : Nat),
    (r = true → ∀ x ∈ t.head?, numByte x = false) → arity (r, n) t = some (r1, m) →
    (n : Int) ≤ NUM_STACK_SIZE →
    (∃ st1, evalAll A t (n : Int) st = .done (.next (m : Int) st1 []) ∧
      (m : Int) ≤ NUM_STACK_SIZE) ∨
    evalAll A t (n : Int) st = .done (.fail .complex) := by
  intro k
  induction k with
  | zero =>
    intro t hlen _ r n st r1 m _ ha hn
    have ht : t = [] := List.length_eq_zero.1 (by omega)
    subst ht
    simp only [arity, Option.some.injEq, Prod.mk.injEq] at ha
    left
    exact ⟨st, by rw [evalAll_nil, ha.2], by rw [← ha.2]; exact hn⟩
  | succ k ih =>
    intro t hlen hasc r n st r1 m hr ha hn
    rcases t with _ | ⟨b, t⟩
    · simp only [arity, Option.some.injEq, Prod.mk.injEq] at ha
      left
      exact ⟨st, by rw [evalAll_nil, ha.2], by rw [← ha.2]; exact hn⟩
    simp only [List.length_cons] at hlen
    have hasc1 : ∀ x ∈ t, x < 0x80 := fun x hx => hasc x (List.mem_cons_of_mem _ hx)
    by_cases hnb : numByte b = true
    · have hrf : r = false := by
        cases r
        · rfl
        · have := hr rfl b (by simp)
          rw [hnb] at this
          simp at this
      subst hrf
      have hsplit := List.takeWhile_append_dropWhile numByte (b :: t)
      have hds : ∀ d ∈ (b :: t).takeWhile numByte, numByte d = true :=
        fun d hd => List.mem_takeWhile_imp hd
      have hne : (b :: t).takeWhile numByte ≠ [] := by
        rw [List.takeWhile_cons_of_pos hnb]
        simp
      have hrest := dropWhile_head numByte (b :: t)
      have hlen2 : ((b :: t).dropWhile numByte).length ≤ k := by
        have h1 := congrArg List.length hsplit
        rw [List.length_append, List.length_cons] at h1
        have h2 : 0 < ((b :: t).takeWhile numByte).length := List.length_pos.2 hne
        omega
      have hasc2 : ∀ x ∈ (b :: t).dropWhile numByte, x < 0x80 :=
        fun x hx => hasc x ((List.dropWhile_sublist _).subset hx)
      have ha2 : arity (true, n + 1) ((b :: t).dropWhile numByte) = some (r1, m) := by
        rw [← hsplit, arity_append, arity_run _ hds hne] at ha
        exact ha
      by_cases hfull : (n : Int) < NUM_STACK_SIZE
      · have hstep : evalAll A (b :: t) (n : Int) st =
            evalAll A ((b :: t).dropWhile numByte) ((n + 1 : Nat) : Int)
              (Function.update st (n : Int).toNat
                (A.ParseFloat ((b :: t).takeWhile numByte))) := by
          conv_lhs => rw [← hsplit]
          exact evalLoop_number A _ _ _ (n : Int) st (Nat.lt_succ_self _) hds hne hrest
            (by omega) hfull
        rw [hstep]
        refine ih _ hlen2 hasc2 true (n + 1) _ r1 m (fun _ => hrest) ha2 ?_
        simp only [NUM_STACK_SIZE] at hfull ⊢
        omega
      · right
        exact evalAll_overflow A b t n st hnb (by omega)
    · have hnb1 : numByte b = false := by simpa using hnb
      by_cases ho : is_oper b = true
      · by_cases h2 : 2 ≤ n
        · simp only [arity, arityStep, hnb1, ho, Bool.false_eq_true, if_false, if_true,
            if_pos h2, Option.some_bind] at ha
          have hcast : ((n - 1 : Nat) : Int) = (n : Int) - 1 := by omega
          rw [evalAll_oper A b t n st ho (by omega) hn, ← hcast]
          refine ih t (by omega) hasc1 false (n - 1) _ r1 m (fun hf => by simp at hf) ha ?_
          omega
        · simp [arity, arityStep, hnb1, ho, h2] at ha
      · have ho1 : is_oper b = false := by simpa using ho
        simp only [arity, arityStep, hnb1, ho1, Bool.false_eq_true, if_false,
          Option.some_bind] at ha
        have hstep : evalAll A (b :: t) (n : Int) st = evalAll A t (n : Int) st :=
          evalLoop_skip A _ b t n st (by simp) (hasc b (List.mem_cons_self _ _)) ho1 hnb1
            (by omega) hn
        rw [hstep]
        exact ih t (by omega) hasc1 false n st r1 m (fun hf => by simp at hf) ha hn

/-- On a text of ASCII bytes with arity one, `calculateRPN` returns a nil error
or the operand-stack overflow, and no other error. -/
theorem calculateRPN_arity {F : Type} (A : Float64 F) (text : List Nat) (r : Bool)
    (hasc : ∀ x ∈ text, x < 0x80) (ha : arity (false, 0) text = some (r, 1)) :
    (∃ v, calculateRPN A text = .done (v, none)) ∨
    calculateRPN A text = .done (A.zero, some .complex) := by
  have key := evalAll_arity A text.length text (le_refl _) hasc false 0 (fun _ => A.zero) r 1
    (fun hf => by simp at hf) ha (by simp [NUM_STACK_SIZE])
  unfold evalAll at key
  unfold calculateRPN
  rcases key with ⟨st1, h1, _⟩ | h1
  · left
    simp only [Nat.cast_zero, Nat.cast_one] at h1
    rw [h1]
    exact ⟨st1 0, by simp⟩
  · right
    simp only [Nat.cast_zero] at h1
    rw [h1]

/-! ## The capacity check before each push -/

/-- The scan of `pre` followed by a rune on which the `switch` fails returns
that failure. -/
theorem scan_append_fail : ∀ (pre : List Nat) (fuel : Nat) (r : Nat) (rest : List Nat)
    (c : Conv) (g : Globals) (c1 : Conv) (g1 : Globals) (w : Int) (e : ParseErr)
    (g2 : Globals), scan (pre.length + 1) pre c g = .done (.next c1 g1) → r < 0x80 →
    switchRune r c1 g1 = .done (.fail w e g2) → pre.length + rest.length + 1 < fuel →
    scan fuel (pre ++ r :: rest) c g = .done (.fail w e g2) := by
  intro pre
  induction pre with
  | nil =>
    intro fuel r rest c g c1 g1 w e g2 hs hr hsw hf
    rw [List.length_nil, scan_nil] at hs
    simp only [Exec.done.injEq, Step.next.injEq] at hs
    obtain ⟨k, rfl⟩ : ∃ k, fuel = k + 1 := ⟨fuel - 1, by omega⟩
    rw [List.nil_append, scan_cons, if_pos hr, hs.1, hs.2, hsw]
  | cons b pre ih =>
    intro fuel r rest c g c1 g1 w e g2 hs hr hsw hf
    simp only [List.length_cons] at hs hf
    obtain ⟨hb, c0, g0, h0, h1⟩ := scan_next_cons _ b pre c c1 g g1 hs
    obtain ⟨k, rfl⟩ : ∃ k, fuel = k + 1 := ⟨fuel - 1, by omega⟩
    rw [List.cons_append, scan_cons, if_pos hb, h0]
    exact ih k r rest _ g0 c1 g1 w e g2 h1 hr hsw (by omega)

/-- The case `(` of the `switch` when the previous rune allows it: a full stack
gives "Complex expression", a stack that is not full is pushed on. -/
theorem switchRune_open_capacity (c : Conv) (g : Globals)
    (hp : c.prevRune = 0 ∨ c.prevRune = 40 ∨ is_oper c.prevRune = true) :
    (stack_is_full g = true → switchRune 40 c g = .done (.fail c.wrongAt .complex g)) ∧
    (g.ok → stack_is_full g = false → ∃ g1, push 40 g = .done g1 ∧
      switchRune 40 c g = .done (.next
        ⟨c.pointCount, 40, c.openParenthesisCount + 1, c.wrongAt, c.rpnText⟩ g1)) := by
  have hq : ¬ (c.prevRune ≠ 0 ∧ c.prevRune ≠ 40 ∧ ¬ is_oper c.prevRune = true) := by
    rintro ⟨a, b, d⟩
    rcases hp with h | h | h
    · exact a h
    · exact b h
    · exact d h
  constructor
  · intro hf
    unfold switchRune
    rw [if_pos rfl, if_neg hq, if_pos hf]
  · intro hok hf
    obtain ⟨g1, h1, _⟩ := push_ok 40 g hok hf
    refine ⟨g1, h1, ?_⟩
    unfold switchRune
    rw [if_pos rfl, if_neg hq, if_neg (by simp [hf]), h1]

/-- The operator case of the `switch` when the previous rune allows it: after
the operator loop a full stack gives "Complex expression", a stack that is not
full is pushed on. -/
theorem switchRune_oper_capacity (r : Nat) (c : Conv) (g : Globals) (hok : g.ok)
    (hr : is_oper r = true) (hp : c.prevRune = 41 ∨ is_digit c.prevRune = true) :
    ∃ g1 text, operLoop r (popFuel g) g (c.rpnText ++ [32]) = .done (g1, text) ∧ g1.ok ∧
      (stack_is_full g1 = true → switchRune r c g = .done (.fail c.wrongAt .complex g1)) ∧
      (stack_is_full g1 = false → ∃ g2, push r g1 = .done g2 ∧
        switchRune r c g = .done (.next ⟨0, r, c.openParenthesisCount, c.wrongAt, text⟩ g2)) := by
  obtain ⟨g1, e1, k1, _⟩ := operLoop_spec r (popFuel g) g (c.rpnText ++ [32]) hok
    (depth_lt_popFuel g)
  have hop := (is_oper_iff r).1 hr
  have hq : ¬ (c.prevRune ≠ 41 ∧ ¬ is_digit c.prevRune = true) := by
    rintro ⟨a, b⟩
    rcases hp with h | h
    · exact a h
    · exact b h
  refine ⟨g1, _, e1, k1, ?_, ?_⟩
  · intro hf
    unfold switchRune
    rw [if_neg (by omega), if_neg (by omega), if_pos hop, if_neg hq, e1]
    simp only [hf, if_true]
  · intro hf
    obtain ⟨g2, h2, _⟩ := push_ok r g1 k1 hf
    refine ⟨g2, h2, ?_⟩
    unfold switchRune
    rw [if_neg (by omega), if_neg (by omega), if_pos hop, if_neg hq, e1]
    simp only [hf, Bool.false_eq_true, if_false, h2]

/-! ## Claims -/

/-- C1: started with an empty operator stack, `ToRPN` returns, for every
expression, either a nil error together with `failPos = -1`, or a non-nil error
together with the empty RPN text and a position `0 ≤ failPos ≤ len(expression)`
(length in bytes); it returns nothing else and does not panic. -/
theorem C1_ToRPN_result_shape (stack : Nat → Nat) (expression : List Nat) :
    (∃ text g1, ToRPN ⟨-1, stack⟩ expression = .done ((text, -1, none), g1)) ∨
    (∃ pos err g1, ToRPN ⟨-1, stack⟩ expression = .done (([], pos, some err), g1) ∧
      0 ≤ pos ∧ pos ≤ expression.length) := by
  have hok : Globals.ok ⟨-1, stack⟩ := by
    unfold Globals.ok OP_STACK_SIZE; simp
  rcases ToRPN_total ⟨-1, stack⟩ hok expression with ⟨text, g1, h, _⟩ | ⟨pos, err, g1, h, _, h0, h1⟩
  · exact Or.inl ⟨text, g1, h⟩
  · exact Or.inr ⟨pos, err, g1, h, h0, h1⟩

/-- C2: when `ToRPN` rejects an expression because of a character (any error but
"Missing close parenthesis"), `failPos` is the number of input bytes before that
character and every character before it was accepted.  In particular
`ToRPN("3++4")` and `Calculate("3++4")` fail with "Operation can't be after '+'"
at `failPos = 2`, the offset of the second `+`. -/
theorem C2_failPos_is_offset (g : Globals) (expression : List Nat) (text : List Nat)
    (pos : Int) (err : ParseErr) (g1 : Globals)
    (h : ToRPN g expression = .done ((text, pos, some err), g1))
    (hne : err ≠ .missingClose) :
    (∃ pre r size, RejectsAt g expression pre r size pos err g1 ∧ pos = pre.length) ∧
    (ToRPN fresh (bytes "3++4")).fst = .done ([], 2, some (.operAfter 43)) ∧
    (∀ (F : Type) (A : Float64 F),
      (Calculate A fresh (bytes "3++4")).fst = .done (A.zero, 2, some (.operAfter 43))) ∧
    (ParseErr.operAfter 43).message = some "Operation can't be after '+'" ∧
    RejectsAt fresh (bytes "3++4") (bytes "3+") 43 1 2 (.operAfter 43)
      ⟨0, Function.update (fun _ => 0) 0 43⟩ := by
  refine ⟨?_, by decide, fun F A => rfl, by decide, ?_⟩
  · rcases ToRPN_fail_scan g expression text pos err g1 h with hs | ⟨hm, _⟩
    · obtain ⟨pre, tl, r, size, rest, c1, g0, k1, k2, k3, k4, k5⟩ :=
        scan_fail_split _ expression Conv.init g pos err g1 hs
      refine ⟨pre, r, size, ⟨tl, rest, c1, g0, k1, k2, k3, k4⟩, ?_⟩
      simpa [Conv.init] using k5
    · exact absurd hm hne
  · exact ⟨bytes "+4", bytes "4", ⟨0, 43, 0, 2, bytes "3 "⟩,
      ⟨0, Function.update (fun _ => 0) 0 43⟩, by decide, by decide, rfl, rfl⟩

/-- Witness of C2 on `"3++4"`. -/
theorem C2_failPos_is_offset_witness :
    ToRPN fresh (bytes "3++4") =
        .done (([], 2, some (.operAfter 43)), ⟨0, Function.update (fun _ => 0) 0 43⟩) ∧
    ∃ pre r size, RejectsAt fresh (bytes "3++4") pre r size 2 (.operAfter 43)
        ⟨0, Function.update (fun _ => 0) 0 43⟩ ∧ (2 : Int) = pre.length :=
  ⟨rfl, (C2_failPos_is_offset fresh (bytes "3++4") [] 2 (.operAfter 43)
    ⟨0, Function.update (fun _ => 0) 0 43⟩ rfl (by decide)).1⟩

/-- C3 (as stated, refuted): on `"3++4"` the scan accepts `"3+"` and rejects the
second `+`, a rune of size 1 at offset 2; the count of input units consumed up
to and including that token is 3, and `ToRPN` returns `failPos = 2`. -/
theorem C3_counterexample :
    ToRPN fresh (bytes "3++4") =
        .done (([], 2, some (.operAfter 43)), ⟨0, Function.update (fun _ => 0) 0 43⟩) ∧
    RejectsAt fresh (bytes "3++4") (bytes "3+") 43 1 2 (.operAfter 43)
        ⟨0, Function.update (fun _ => 0) 0 43⟩ ∧
    (2 : Int) ≠ ((bytes "3+").length + 1 : Nat) :=
  ⟨rfl, ⟨bytes "+4", bytes "4", ⟨0, 43, 0, 2, bytes "3 "⟩,
      ⟨0, Function.update (fun _ => 0) 0 43⟩, by decide, by decide, rfl, rfl⟩, by decide⟩

/-- C3 (amended): when `ToRPN` returns a non-nil error, `failPos` is the count
of input units consumed before the failing token, the token itself not
included: the offset of the rejected character, which lies inside the
expression; and the length of the expression when the error is
"Missing close parenthesis", where no token fails. -/
theorem C3_failPos_excludes_token (g : Globals) (expression : List Nat) (text : List Nat)
    (pos : Int) (err : ParseErr) (g1 : Globals)
    (h : ToRPN g expression = .done ((text, pos, some err), g1)) :
    (err = .missingClose ∧ pos = expression.length) ∨
    (err ≠ .missingClose ∧ ∃ pre r size, RejectsAt g expression pre r size pos err g1 ∧
      pos = pre.length ∧ pos < ((pre.length + size : Nat) : Int) ∧
      pre.length < expression.length) := by
  rcases ToRPN_fail_scan g expression text pos err g1 h with hs | ⟨hm, c1, hs, hp, _⟩
  · obtain ⟨pre, tl, r, size, rest, c1, g0, k1, k2, k3, k4, k5⟩ :=
      scan_fail_split _ expression Conv.init g pos err g1 hs
    right
    have hsz := ReadRune_size tl r size rest k2
    have hpos : pos = pre.length := by simpa [Conv.init] using k5
    refine ⟨?_, pre, r, size, ⟨tl, rest, c1, g0, k1, k2, k3, k4⟩, hpos, ?_, ?_⟩
    · intro he
      subst he
      unfold switchRune at k4
      split_ifs at k4 <;> (try split at k4) <;> (try split_ifs at k4) <;>
        (try split at k4) <;> simp at k4
    · rw [hpos]; push_cast; omega
    · rcases tl with _ | ⟨t, ts⟩
      · simp [ReadRune] at k2
      · rw [k1]; simp
  · left
    refine ⟨hm, ?_⟩
    have := scan_next_wrongAt _ expression Conv.init c1 g g1 hs
    rw [hp, this]
    simp [Conv.init]

/-- Witness of the amended C3 on `"3++4"`. -/
theorem C3_failPos_excludes_token_witness :
    ToRPN fresh (bytes "3++4") =
        .done (([], 2, some (.operAfter 43)), ⟨0, Function.update (fun _ => 0) 0 43⟩) ∧
    (((ParseErr.operAfter 43) = .missingClose ∧ (2 : Int) = (bytes "3++4").length) ∨
     ((ParseErr.operAfter 43) ≠ .missingClose ∧ ∃ pre r size,
        RejectsAt fresh (bytes "3++4") pre r size 2 (.operAfter 43)
          ⟨0, Function.update (fun _ => 0) 0 43⟩ ∧
        (2 : Int) = pre.length ∧ (2 : Int) < ((pre.length + size : Nat) : Int) ∧
        pre.length < (bytes "3++4").length)) :=
  ⟨rfl, C3_failPos_excludes_token fresh (bytes "3++4") [] 2 (.operAfter 43)
    ⟨0, Function.update (fun _ => 0) 0 43⟩ rfl⟩

/-- C4: `Calculate` is the composition of `ToRPN` and `calculateRPN`.  When
`ToRPN` fails with `(failPos, err)`, `Calculate` returns `(0, failPos, err)`.
When `ToRPN` succeeds with the text `s`, `calculateRPN(s)` returns and
`Calculate` returns its value with `failPos = -1` and a nil error; that value is
0 whenever `calculateRPN` reports an error, which `Calculate` drops:
`Calculate("3+")` returns `(0, -1, nil)`. -/
theorem C4_Calculate_composition {F : Type} (A : Float64 F) (g : Globals)
    (expression : List Nat) :
    (∀ s pos err g1, ToRPN g expression = .done ((s, pos, some err), g1) →
      Calculate A g expression = .done ((A.zero, pos, some err), g1)) ∧
    (∀ s pos g1, ToRPN g expression = .done ((s, pos, none), g1) →
      pos = -1 ∧ ∃ v cerr, calculateRPN A s = .done (v, cerr) ∧
        Calculate A g expression = .done ((v, -1, none), g1) ∧
        (cerr ≠ none → v = A.zero)) ∧
    (ToRPN fresh (bytes "3+")).fst = .done (bytes "3 +", -1, none) ∧
    calculateRPN A (bytes "3 +") = .done (A.zero, some (.fewOperands 43)) ∧
    (Calculate A fresh (bytes "3+")).fst = .done (A.zero, -1, none) := by
  refine ⟨?_, ?_, by decide, rfl, rfl⟩
  · intro s pos err g1 h
    simp only [Calculate, h]
  · intro s pos g1 h
    have hp := ToRPN_ok_pos g expression s pos g1 h
    obtain ⟨v, cerr, hc, hz⟩ := calculateRPN_total A s
    refine ⟨hp, v, cerr, hc, ?_, hz⟩
    subst hp
    simp only [Calculate, h, hc]

/-- Witness of C4: the failing path on `"3++4"` and the successful path on `"3+"`. -/
theorem C4_Calculate_composition_witness :
    (ToRPN fresh (bytes "3++4") =
        .done (([], 2, some (.operAfter 43)), ⟨0, Function.update (fun _ => 0) 0 43⟩) ∧
      Calculate exactOps fresh (bytes "3++4") =
        .done ((some 0, 2, some (.operAfter 43)), ⟨0, Function.update (fun _ => 0) 0 43⟩)) ∧
    (ToRPN fresh (bytes "3+") =
        .done ((bytes "3 +", -1, none), ⟨-1, Function.update (fun _ => 0) 0 43⟩) ∧
      ((-1 : Int) = -1 ∧ ∃ v cerr, calculateRPN exactOps (bytes "3 +") = .done (v, cerr) ∧
        Calculate exactOps fresh (bytes "3+") =
          .done ((v, -1, none), ⟨-1, Function.update (fun _ => 0) 0 43⟩) ∧
        (cerr ≠ none → v = exactOps.zero))) :=
  ⟨⟨rfl, (C4_Calculate_composition exactOps fresh (bytes "3++4")).1 _ _ _ _ rfl⟩,
   ⟨rfl, (C4_Calculate_composition exactOps fresh (bytes "3+")).2.1 _ _ _ rfl⟩⟩

/-- C5: left association.  For numbers `a`, `b`, `c` (non-empty digit strings) and
operators `op1`, `op2` both from `+ -` or both from `* /`, scanning `op2` pops
`op1`: `ToRPN("a op1 b op2 c")` is `a`, separator, `b`, separator, `op1`, `c`,
`op2`, and `Calculate` returns `(a op1 b) op2 c`; `Calculate("8-3-2")` returns 3. -/
theorem C5_left_association {F : Type} (A : Float64 F) (stack : Nat → Nat)
    (a b c : List Nat) (op1 op2 : Nat)
    (ha : digitString a = true) (hb : digitString b = true) (hc : digitString c = true)
    (hops : ((op1 = 43 ∨ op1 = 45) ∧ (op2 = 43 ∨ op2 = 45)) ∨
      ((op1 = 42 ∨ op1 = 47) ∧ (op2 = 42 ∨ op2 = 47))) :
    operTest op2 op1 = true ∧
    (ToRPN ⟨-1, stack⟩ (a ++ [op1] ++ b ++ [op2] ++ c)).fst =
      .done (a ++ [32] ++ b ++ [32, op1] ++ c ++ [op2], -1, none) ∧
    (Calculate A ⟨-1, stack⟩ (a ++ [op1] ++ b ++ [op2] ++ c)).fst =
      .done (A.oper op2 (A.oper op1 (A.ParseFloat a) (A.ParseFloat b)) (A.ParseFloat c),
        -1, none) ∧
    (Calculate exactOps fresh (bytes "8-3-2")).fst = .done (some 3, -1, none) := by
  have h1 : is_oper op1 = true := by
    rcases hops with ⟨h | h, _⟩ | ⟨h | h, _⟩ <;> subst h <;> decide
  have h2 : is_oper op2 = true := by
    rcases hops with ⟨_, h | h⟩ | ⟨_, h | h⟩ <;> subst h <;> decide
  have ht : operTest op2 op1 = true := by
    rcases hops with ⟨h | h, k | k⟩ | ⟨h | h, k | k⟩ <;> subst h <;> subst k <;> decide
  have hv := ToRPN_Calculate_of_view A stack _ _ _ (ToRPNL_pop a b c op1 op2 ha hb hc h1 h2 ht)
    (calculateRPN_left A a b c op1 op2 ha hb hc h1 h2)
  exact ⟨ht, hv.1, hv.2, by decide⟩

/-- Witness of C5 on `"8-3-2"`. -/
theorem C5_left_association_witness :
    operTest 45 45 = true ∧
    (ToRPN fresh ([56] ++ [45] ++ [51] ++ [45] ++ [50])).fst =
      .done ([56] ++ [32] ++ [51] ++ [32, 45] ++ [50] ++ [45], -1, none) ∧
    (Calculate exactOps fresh ([56] ++ [45] ++ [51] ++ [45] ++ [50])).fst =
      .done (exactOps.oper 45 (exactOps.oper 45 (exactOps.ParseFloat [56])
        (exactOps.ParseFloat [51])) (exactOps.ParseFloat [50]), -1, none) ∧
    (Calculate exactOps fresh (bytes "8-3-2")).fst = .done (some 3, -1, none) :=
  C5_left_association exactOps (fun _ => 0) [56] [51] [50] 45 45 (by decide) (by decide)
    (by decide) (by decide)

/-- C6: right association.  For numbers `a`, `b`, `c` (non-empty digit strings)
and operators `op1`, `op2` from `% ^`, scanning `op2` pops nothing:
`ToRPN("a op1 b op2 c")` is `a`, separator, `b`, separator, `c`, `op2`, `op1`, and
`Calculate` returns `a op1 (b op2 c)`; `Calculate("2^3^2")` returns 512. -/
theorem C6_right_association {F : Type} (A : Float64 F) (stack : Nat → Nat)
    (a b c : List Nat) (op1 op2 : Nat)
    (ha : digitString a = true) (hb : digitString b = true) (hc : digitString c = true)
    (h1 : op1 = 37 ∨ op1 = 94) (h2 : op2 = 37 ∨ op2 = 94) :
    operTest op2 op1 = false ∧
    (ToRPN ⟨-1, stack⟩ (a ++ [op1] ++ b ++ [op2] ++ c)).fst =
      .done (a ++ [32] ++ b ++ [32] ++ c ++ [op2, op1], -1, none) ∧
    (Calculate A ⟨-1, stack⟩ (a ++ [op1] ++ b ++ [op2] ++ c)).fst =
      .done (A.oper op1 (A.ParseFloat a) (A.oper op2 (A.ParseFloat b) (A.ParseFloat c)),
        -1, none) ∧
    (Calculate exactOps fresh (bytes "2^3^2")).fst = .done (some 512, -1, none) := by
  have k1 : is_oper op1 = true := by
    rcases h1 with h | h <;> subst h <;> decide
  have k2 : is_oper op2 = true := by
    rcases h2 with h | h <;> subst h <;> decide
  have ht : operTest op2 op1 = false := by
    rcases h1 with h | h <;> rcases h2 with k | k <;> subst h <;> subst k <;> decide
  have hv := ToRPN_Calculate_of_view A stack _ _ _
    (ToRPNL_keep a b c op1 op2 ha hb hc k1 k2 ht)
    (calculateRPN_right A a b c op1 op2 ha hb hc k1 k2)
  exact ⟨ht, hv.1, hv.2, by decide⟩

/-- Witness of C6 on `"2^3^2"`. -/
theorem C6_right_association_witness :
    operTest 94 94 = false ∧
    (ToRPN fresh ([50] ++ [94] ++ [51] ++ [94] ++ [50])).fst =
      .done ([50] ++ [32] ++ [51] ++ [32] ++ [50] ++ [94, 94], -1, none) ∧
    (Calculate exactOps fresh ([50] ++ [94] ++ [51] ++ [94] ++ [50])).fst =
      .done (exactOps.oper 94 (exactOps.ParseFloat [50])
        (exactOps.oper 94 (exactOps.ParseFloat [51]) (exactOps.ParseFloat [50])), -1, none) ∧
    (Calculate exactOps fresh (bytes "2^3^2")).fst = .done (some 512, -1, none) :=
  C6_right_association exactOps (fun _ => 0) [50] [51] [50] 94 94 (by decide) (by decide)
    (by decide) (Or.inr rfl) (Or.inr rfl)

/-- C7: priority.  The priorities are `+ -` = 1, `* /` = 2, `% ^` = 3.  For
numbers `a`, `b`, `c` (non-empty digit strings) and operators with
`priority(op2) > priority(op1)`, scanning `op2` keeps `op1` on the stack:
`ToRPN("a op1 b op2 c")` is `a`, separator, `b`, separator, `c`, `op2`, `op1`, and
evaluating that text gives `a op1 (b op2 c)`; `ToRPN("3+4*2")` returns `"3 4 2*+"`,
which evaluates to 11. -/
theorem C7_priority {F : Type} (A : Float64 F) (stack : Nat → Nat)
    (a b c : List Nat) (op1 op2 : Nat)
    (ha : digitString a = true) (hb : digitString b = true) (hc : digitString c = true)
    (h1 : is_oper op1 = true) (h2 : is_oper op2 = true)
    (hp : priority op2 > priority op1) :
    (priority 43 = 1 ∧ priority 45 = 1 ∧ priority 42 = 2 ∧ priority 47 = 2 ∧
      priority 37 = 3 ∧ priority 94 = 3) ∧
    operTest op2 op1 = false ∧
    (ToRPN ⟨-1, stack⟩ (a ++ [op1] ++ b ++ [op2] ++ c)).fst =
      .done (a ++ [32] ++ b ++ [32] ++ c ++ [op2, op1], -1, none) ∧
    calculateRPN A (a ++ [32] ++ b ++ [32] ++ c ++ [op2, op1]) =
      .done (A.oper op1 (A.ParseFloat a) (A.oper op2 (A.ParseFloat b) (A.ParseFloat c)),
        none) ∧
    (ToRPN fresh (bytes "3+4*2")).fst = .done (bytes "3 4 2*+", -1, none) ∧
    calculateRPN exactOps (bytes "3 4 2*+") = .done (some 11, none) := by
  have ht : operTest op2 op1 = false := by
    unfold operTest
    have e1 : decide (priority op1 ≥ priority op2) = false := by
      simp only [decide_eq_false_iff_not]; omega
    have e2 : decide (priority op1 > priority op2) = false := by
      simp only [decide_eq_false_iff_not]; omega
    rw [e1, e2]
    simp
  have hv := ToRPN_Calculate_of_view A stack _ _ _
    (ToRPNL_keep a b c op1 op2 ha hb hc h1 h2 ht)
    (calculateRPN_right A a b c op1 op2 ha hb hc h1 h2)
  exact ⟨by decide, ht, hv.1, calculateRPN_right A a b c op1 op2 ha hb hc h1 h2,
    by decide, by decide⟩

/-- Witness of C7 on `"3+4*2"`. -/
theorem C7_priority_witness :
    (priority 43 = 1 ∧ priority 45 = 1 ∧ priority 42 = 2 ∧ priority 47 = 2 ∧
      priority 37 = 3 ∧ priority 94 = 3) ∧
    operTest 42 43 = false ∧
    (ToRPN fresh ([51] ++ [43] ++ [52] ++ [42] ++ [50])).fst =
      .done ([51] ++ [32] ++ [52] ++ [32] ++ [50] ++ [42, 43], -1, none) ∧
    calculateRPN exactOps ([51] ++ [32] ++ [52] ++ [32] ++ [50] ++ [42, 43]) =
      .done (exactOps.oper 43 (exactOps.ParseFloat [51])
        (exactOps.oper 42 (exactOps.ParseFloat [52]) (exactOps.ParseFloat [50])), none) ∧
    (ToRPN fresh (bytes "3+4*2")).fst = .done (bytes "3 4 2*+", -1, none) ∧
    calculateRPN exactOps (bytes "3 4 2*+") = .done (some 11, none) :=
  C7_priority exactOps (fun _ => 0) [51] [52] [50] 43 42 (by decide) (by decide)
    (by decide) (by decide) (by decide) (by decide)

/-- C8: parentheses override priority.  For numbers `a`, `b`, `c`, `d` (non-empty
digit strings) `ToRPN("(a+b)*(c+d)")` is `a`, separator, `b`, `+`, separator, `c`,
separator, `d`, `+`, `*`: each `+` is emitted at its closing parenthesis and the
`*` last; the text contains no parenthesis; and `Calculate` returns
`(a+b)*(c+d)`.  `Calculate("(3+4)*(5+6)")` returns 77 with `failPos = -1` and no
error. -/
theorem C8_parentheses {F : Type} (A : Float64 F) (stack : Nat → Nat)
    (a b c d : List Nat) (ha : digitString a = true) (hb : digitString b = true)
    (hc : digitString c = true) (hd : digitString d = true) :
    (ToRPN ⟨-1, stack⟩
        ([40] ++ a ++ [43] ++ b ++ [41, 42, 40] ++ c ++ [43] ++ d ++ [41])).fst =
      .done (a ++ [32] ++ b ++ [43, 32] ++ c ++ [32] ++ d ++ [43, 42], -1, none) ∧
    40 ∉ a ++ [32] ++ b ++ [43, 32] ++ c ++ [32] ++ d ++ [43, 42] ∧
    41 ∉ a ++ [32] ++ b ++ [43, 32] ++ c ++ [32] ++ d ++ [43, 42] ∧
    (Calculate A ⟨-1, stack⟩
        ([40] ++ a ++ [43] ++ b ++ [41, 42, 40] ++ c ++ [43] ++ d ++ [41])).fst =
      .done (A.mul (A.add (A.ParseFloat a) (A.ParseFloat b))
        (A.add (A.ParseFloat c) (A.ParseFloat d)), -1, none) ∧
    (Calculate exactOps fresh (bytes "(3+4)*(5+6)")).fst = .done (some 77, -1, none) := by
  have hv := ToRPN_Calculate_of_view A stack _ _ _ (ToRPNL_paren_product a b c d ha hb hc hd)
    (calculateRPN_paren_product A a b c d ha hb hc hd)
  obtain ⟨a0, a1⟩ := digitString_no_paren a ha
  obtain ⟨b0, b1⟩ := digitString_no_paren b hb
  obtain ⟨c0, c1⟩ := digitString_no_paren c hc
  obtain ⟨d0, d1⟩ := digitString_no_paren d hd
  refine ⟨hv.1, ?_, ?_, hv.2, by decide⟩
  · simp [a0, b0, c0, d0]
  · simp [a1, b1, c1, d1]

/-- Witness of C8 on `"(3+4)*(5+6)"`. -/
theorem C8_parentheses_witness :
    (ToRPN fresh ([40] ++ [51] ++ [43] ++ [52] ++ [41, 42, 40] ++ [53] ++ [43] ++ [54] ++
        [41])).fst =
      .done ([51] ++ [32] ++ [52] ++ [43, 32] ++ [53] ++ [32] ++ [54] ++ [43, 42], -1, none) ∧
    40 ∉ [51] ++ [32] ++ [52] ++ [43, 32] ++ [53] ++ [32] ++ [54] ++ [43, 42] ∧
    41 ∉ [51] ++ [32] ++ [52] ++ [43, 32] ++ [53] ++ [32] ++ [54] ++ [43, 42] ∧
    (Calculate exactOps fresh ([40] ++ [51] ++ [43] ++ [52] ++ [41, 42, 40] ++ [53] ++ [43] ++
        [54] ++ [41])).fst =
      .done (exactOps.mul (exactOps.add (exactOps.ParseFloat [51]) (exactOps.ParseFloat [52]))
        (exactOps.add (exactOps.ParseFloat [53]) (exactOps.ParseFloat [54])), -1, none) ∧
    (Calculate exactOps fresh (bytes "(3+4)*(5+6)")).fst = .done (some 77, -1, none) :=
  C8_parentheses exactOps (fun _ => 0) [51] [52] [53] [54] (by decide) (by decide)
    (by decide) (by decide)

/-- C9: unbalanced parentheses are always rejected.  Whenever some prefix of the
expression holds more `)` than `(`, or the whole expression more `(` than `)`,
`ToRPN` returns an error.  `Calculate("(3+4")` fails with
"Missing close parenthesis" and `Calculate("3+4)")` with
"Missing open parenthesis". -/
theorem C9_unbalanced_rejected (g : Globals) (hok : g.ok) (expression : List Nat)
    (h : (∃ k, (expression.take k).count 40 < (expression.take k).count 41) ∨
      expression.count 41 < expression.count 40) :
    (∃ pos err g1, ToRPN g expression = .done (([], pos, some err), g1)) ∧
    (∀ (F : Type) (A : Float64 F),
      (Calculate A fresh (bytes "(3+4")).fst = .done (A.zero, 4, some .missingClose) ∧
      (Calculate A fresh (bytes "3+4)")).fst = .done (A.zero, 3, some .missingOpen)) ∧
    ParseErr.missingClose.message = some "Missing close parenthesis" ∧
    ParseErr.missingOpen.message = some "Missing open parenthesis" := by
  refine ⟨?_, fun F A => ⟨rfl, rfl⟩, by decide, by decide⟩
  rcases ToRPN_total g hok expression with ⟨text, g1, hs, _⟩ | ⟨pos, err, g1, hs, _⟩
  · obtain ⟨b1, b2⟩ := ToRPN_ok_balanced g expression text (-1) g1 hs
    rcases h with ⟨k, hk⟩ | hk
    · have := b1 k
      omega
    · omega
  · exact ⟨pos, err, g1, hs⟩

/-- Witness of C9 on `"3+4)"`, whose whole text is a prefix with more `)` than `(`. -/
theorem C9_unbalanced_rejected_witness :
    fresh.ok ∧
    ((∃ k, ((bytes "3+4)").take k).count 40 < ((bytes "3+4)").take k).count 41) ∨
      (bytes "3+4)").count 41 < (bytes "3+4)").count 40) ∧
    ((∃ pos err g1, ToRPN fresh (bytes "3+4)") = .done (([], pos, some err), g1)) ∧
    (∀ (F : Type) (A : Float64 F),
      (Calculate A fresh (bytes "(3+4")).fst = .done (A.zero, 4, some .missingClose) ∧
      (Calculate A fresh (bytes "3+4)")).fst = .done (A.zero, 3, some .missingOpen)) ∧
    ParseErr.missingClose.message = some "Missing close parenthesis" ∧
    ParseErr.missingOpen.message = some "Missing open parenthesis") :=
  ⟨by unfold Globals.ok fresh OP_STACK_SIZE; decide, Or.inl ⟨4, by decide⟩,
    C9_unbalanced_rejected fresh (by unfold Globals.ok fresh OP_STACK_SIZE; decide)
      (bytes "3+4)") (Or.inl ⟨4, by decide⟩)⟩

/-- C10: the per-token grammar is enforced.  On every expression `ToRPN` converts
successfully, every character is a digit, `.`, `(`, `)` or one of `+ - * / % ^`;
every `(` is the first character or directly follows `(` or an operator; every
`)` and every operator directly follows `)` or a digit; no digit and no `.`
directly follows `)`; and no maximal run of digits and points holds more than one
`.`.  Conversely `ToRPN` returns an error on every expression that breaks one of
these rules. -/
theorem C10_grammar_enforced (g : Globals) (expression : List Nat) :
    (∀ text pos g1, ToRPN g expression = .done ((text, pos, none), g1) →
      Grammar expression) ∧
    (g.ok → ¬ Grammar expression →
      ∃ pos err g1, ToRPN g expression = .done (([], pos, some err), g1)) := by
  constructor
  · intro text pos g1 h
    exact ToRPN_ok_grammar g expression text pos g1 h
  · intro hok hng
    rcases ToRPN_total g hok expression with ⟨text, g1, hs, _⟩ | ⟨pos, err, g1, hs, _⟩
    · exact absurd (ToRPN_ok_grammar g expression text (-1) g1 hs) hng
    · exact ⟨pos, err, g1, hs⟩

/-- Witness of C10: `"3+4*2"` is converted and obeys the grammar; `"3++4"` breaks
the rule for operators and is rejected. -/
theorem C10_grammar_enforced_witness :
    (ToRPN fresh (bytes "3+4*2") = .done ((bytes "3 4 2*+", -1, none),
        ⟨-1, Function.update (Function.update (fun _ => 0) 0 43) 1 42⟩) ∧
      Grammar (bytes "3+4*2")) ∧
    (fresh.ok ∧ ¬ Grammar (bytes "3++4") ∧
      ∃ pos err g1, ToRPN fresh (bytes "3++4") = .done (([], pos, some err), g1)) :=
  have hng : ¬ Grammar (bytes "3++4") := fun hG =>
    absurd (hG.2.2.2.1 1 43 43 (by decide) (by decide) (Or.inr (by decide))) (by decide)
  have hok : fresh.ok := by unfold Globals.ok fresh OP_STACK_SIZE; decide
  ⟨⟨rfl, (C10_grammar_enforced fresh (bytes "3+4*2")).1 _ _ _ rfl⟩,
    ⟨hok, hng, (C10_grammar_enforced fresh (bytes "3++4")).2 hok hng⟩⟩

/-- C11 (as stated, refuted): on the empty expression `ToRPN` succeeds, with
`failPos = -1` and a nil error, and the RPN text it returns is empty. -/
theorem C11_counterexample :
    ToRPN fresh [] = .done ((([] : List Nat), -1, none), fresh) :=
  rfl

/-- C11 (amended): for every non-empty input on which `ToRPN` succeeds the
returned RPN text is non-empty; the empty input is converted, with
`failPos = -1`, to the empty text. -/
theorem C11_text_nonempty (g : Globals) (hok : g.ok) (expression text : List Nat)
    (pos : Int) (g1 : Globals)
    (h : ToRPN g expression = .done ((text, pos, none), g1)) (hne : expression ≠ []) :
    text ≠ [] ∧ (ToRPN fresh []).fst = .done ([], -1, none) := by
  refine ⟨?_, rfl⟩
  obtain ⟨c, l, hs, hc, ht⟩ := ToRPN_ok_scanL g hok expression text pos g1 h
  rcases scanL_text_nonempty expression (live g) c l hs hne with h1 | ⟨_, h2⟩
  · rw [ht]
    simp [h1]
  · exact absurd h2 hc

/-- Witness of the amended C11 on `"3+4*2"`. -/
theorem C11_text_nonempty_witness :
    fresh.ok ∧
    ToRPN fresh (bytes "3+4*2") = .done ((bytes "3 4 2*+", -1, none),
      ⟨-1, Function.update (Function.update (fun _ => 0) 0 43) 1 42⟩) ∧
    bytes "3+4*2" ≠ [] ∧
    (bytes "3 4 2*+" ≠ [] ∧ (ToRPN fresh []).fst = .done ([], -1, none)) :=
  have hok : fresh.ok := by unfold Globals.ok fresh OP_STACK_SIZE; decide
  ⟨hok, rfl, by decide,
    C11_text_nonempty fresh hok (bytes "3+4*2") (bytes "3 4 2*+") (-1) _ rfl (by decide)⟩

set_option maxRecDepth 100000 in
/-- C12 (as stated, refuted): `Calculate` applied to 33 numbers `1` joined by `+`
returns their sum 33 with `failPos = -1` and a nil error; no overflow is
reported. -/
theorem C12_counterexample :
    (Calculate exactOps fresh (joined 43 [49] (List.replicate 32 [49]))).fst =
      .done (some 33, -1, none) := by
  decide

set_option maxRecDepth 100000 in
/-- C12 (amended): `Calculate` applied to numbers joined by `+`, 33 of them or any
other count, does not overflow the operand stack: it returns their sum, added
from left to right, with `failPos = -1` and a nil error.  The overflow is
detected by `calculateRPN`, which returns "Complex expression" when a number is
read while 32 values are on the operand stack, as on the RPN text of 33 numbers
joined by `^`; `Calculate` drops that error and returns `(0, -1, nil)`. -/
theorem C12_operand_overflow {F : Type} (A : Float64 F) (stack : Nat → Nat) (a : List Nat)
    (rest : List (List Nat)) (ha : digitString a = true)
    (hr : ∀ n ∈ rest, digitString n = true) :
    (ToRPN ⟨-1, stack⟩ (joined 43 a rest)).fst = .done (plusChainText a rest, -1, none) ∧
    (Calculate A ⟨-1, stack⟩ (joined 43 a rest)).fst =
      .done (plusChainValue A a rest, -1, none) ∧
    (∀ (r : Nat) (before after : List Nat) (n : Int) (st : Nat → F),
      r = 46 ∨ is_digit r = true → n ≥ NUM_STACK_SIZE →
      evalRune A r before after n st = .done (.fail .complex)) ∧
    (ToRPN fresh (joined 94 [50] (List.replicate 32 [50]))).fst =
      .done (joined 32 [50] (List.replicate 32 [50]) ++ List.replicate 32 94, -1, none) ∧
    calculateRPN A (joined 32 [50] (List.replicate 32 [50]) ++ List.replicate 32 94) =
      .done (A.zero, some .complex) ∧
    (Calculate A fresh (joined 94 [50] (List.replicate 32 [50]))).fst =
      .done (A.zero, -1, none) := by
  have hv := ToRPN_Calculate_of_view A stack _ _ _ (ToRPNL_plus_chain a rest ha hr)
    (calculateRPN_plus_chain A a rest ha hr)
  exact ⟨hv.1, hv.2, fun r before after n st h1 h2 => evalRune_overflow A r before after n st h1 h2,
    by decide, rfl, rfl⟩

set_option maxRecDepth 100000 in
/-- Witness of the amended C12 on 33 numbers `1` joined by `+`. -/
theorem C12_operand_overflow_witness :
    (digitString [49] = true ∧ ∀ n ∈ List.replicate 32 [49], digitString n = true) ∧
    (ToRPN fresh (joined 43 [49] (List.replicate 32 [49]))).fst =
      .done (plusChainText [49] (List.replicate 32 [49]), -1, none) ∧
    (Calculate exactOps fresh (joined 43 [49] (List.replicate 32 [49]))).fst =
      .done (plusChainValue exactOps [49] (List.replicate 32 [49]), -1, none) ∧
    plusChainValue exactOps [49] (List.replicate 32 [49]) = some 33 :=
  have h := C12_operand_overflow exactOps (fun _ => 0) [49] (List.replicate 32 [49])
    (by decide) (by decide)
  ⟨⟨by decide, by decide⟩, h.1, h.2.1, by decide⟩

/-- C13 (the code at the failing input): after the failed call `ToRPN("1+a")` the
package-level stack holds `+`.  The next call `Calculate("2+3")` pops that `+`,
converts to `"2 +3+"` and returns `(0, -1, nil)`; the call `Calculate("2+3")` after
it returns `(5, -1, nil)`, which is also the result in a fresh program. -/
theorem C13_stale_stack_changes_result :
    ToRPN fresh (bytes "1+a") =
      .done (([], 2, some (.wrongSymbol 97)), ⟨0, Function.update (fun _ => 0) 0 43⟩) ∧
    live ⟨0, Function.update (fun _ => 0) 0 43⟩ = [43] ∧
    (ToRPN ⟨0, Function.update (fun _ => 0) 0 43⟩ (bytes "2+3")).fst =
      .done (bytes "2 +3+", -1, none) ∧
    Calculate exactOps ⟨0, Function.update (fun _ => 0) 0 43⟩ (bytes "2+3") =
      .done ((some 0, -1, none),
        ⟨-1, Function.update (Function.update (fun _ => 0) 0 43) 0 43⟩) ∧
    (Calculate exactOps ⟨-1, Function.update (Function.update (fun _ => 0) 0 43) 0 43⟩
      (bytes "2+3")).fst = .done (some 5, -1, none) ∧
    (Calculate exactOps fresh (bytes "2+3")).fst = .done (some 5, -1, none) :=
  ⟨rfl, by decide, by decide, rfl, by decide, by decide⟩

set_option maxRecDepth 100000 in
/-- C14: the operator stack is bounded and safely accessed.  Started with an empty
stack, `ToRPN` returns for every expression, so no `head()` and no `push()`
indexes the array out of range; after every prefix the scan accepts
`-1 ≤ stack_ptr < OP_STACK_SIZE` (depth between 0 and 256) and every open
parenthesis counted is on the stack.  A push after a passing capacity check
succeeds and a push on a full stack would panic; the loop of the closing
parenthesis ends with `(` on top of a non-empty stack, so the `pop()` after it
has an entry to remove; the operator loop only lowers `stack_ptr`, never below
`-1`.  Both pushing cases of the `switch` check the capacity first: for `(`, and
for an operator after its loop has popped, a full stack makes the `switch` fail
with "Complex expression" at the current position and a stack that is not full
receives the rune.  So an expression whose next rune needs a 257th entry is
rejected with "Complex expression" and `failPos` at that rune, whatever follows
it.  257 consecutive `(` fail at `failPos = 256`, 256 of them fit, and the
operator `*` after 255 `(` and `1+1` fails at `failPos = 258`. -/
theorem C14_stack_bounded (stack : Nat → Nat) (expression : List Nat) :
    (∃ r g1, ToRPN ⟨-1, stack⟩ expression = .done (r, g1) ∧ g1.ok) ∧
    (∀ pre rest c g, expression = pre ++ rest →
      scan (pre.length + 1) pre Conv.init ⟨-1, stack⟩ = .done (.next c g) →
      -1 ≤ g.stack_ptr ∧ g.stack_ptr + 1 ≤ OP_STACK_SIZE ∧ depth g ≤ 256 ∧
        c.openParenthesisCount ≤ ((live g).count 40 : Int)) ∧
    (∀ g op, g.ok →
      (stack_is_full g = false → ∃ g1, push op g = .done g1 ∧ g1.ok ∧
        g1.stack_ptr = g.stack_ptr + 1) ∧
      (stack_is_full g = true → push op g = .panic)) ∧
    (∀ c g out, Inv c g → c.openParenthesisCount ≠ 0 →
      ∃ g1 text, closeLoop (popFuel g) g out = .done (g1, text) ∧ head g1 = .done 40 ∧
        0 ≤ g1.stack_ptr ∧ g1.stack_ptr ≤ g.stack_ptr ∧ (pop g1).ok) ∧
    (∀ r g out, g.ok → ∃ g1 text, operLoop r (popFuel g) g out = .done (g1, text) ∧
      g1.ok ∧ g1.stack_ptr ≤ g.stack_ptr) ∧
    (ToRPN fresh (List.replicate 257 40)).fst = .done ([], 256, some .complex) ∧
    ParseErr.complex.message = some "Complex expression" ∧
    (∀ c g, g.ok → (c.prevRune = 0 ∨ c.prevRune = 40 ∨ is_oper c.prevRune = true) →
      (256 ≤ (live g).length → switchRune 40 c g = .done (.fail c.wrongAt .complex g)) ∧
      ((live g).length < 256 → ∃ g1, push 40 g = .done g1 ∧ live g1 = 40 :: live g ∧
        switchRune 40 c g = .done (.next
          ⟨c.pointCount, 40, c.openParenthesisCount + 1, c.wrongAt, c.rpnText⟩ g1))) ∧
    (∀ r c g, g.ok → is_oper r = true → (c.prevRune = 41 ∨ is_digit c.prevRune = true) →
      ∃ g1 text, operLoop r (popFuel g) g (c.rpnText ++ [32]) = .done (g1, text) ∧
        live g1 = (live g).dropWhile (operTest r) ∧
        (256 ≤ (live g1).length → switchRune r c g = .done (.fail c.wrongAt .complex g1)) ∧
        ((live g1).length < 256 → ∃ g2, push r g1 = .done g2 ∧ live g2 = r :: live g1 ∧
          switchRune r c g =
            .done (.next ⟨0, r, c.openParenthesisCount, c.wrongAt, text⟩ g2))) ∧
    (∀ pre r rest c g, scan (pre.length + 1) pre Conv.init ⟨-1, stack⟩ = .done (.next c g) →
      (r = 40 ∧ (c.prevRune = 0 ∨ c.prevRune = 40 ∨ is_oper c.prevRune = true) ∧
          256 ≤ (live g).length) ∨
        (is_oper r = true ∧ (c.prevRune = 41 ∨ is_digit c.prevRune = true) ∧
          256 ≤ ((live g).dropWhile (operTest r)).length) →
      (ToRPN ⟨-1, stack⟩ (pre ++ r :: rest)).fst =
        .done ([], (pre.length : Int), some .complex)) ∧
    (ToRPN fresh (List.replicate 256 40)).fst = .done ([], 256, some .missingClose) ∧
    (ToRPN fresh (List.replicate 255 40 ++ bytes "1+1*1")).fst =
      .done ([], 258, some .complex) := by
  have hok : Globals.ok ⟨-1, stack⟩ := by
    unfold Globals.ok OP_STACK_SIZE; simp
  have hopen : ∀ c g, g.ok →
      (c.prevRune = 0 ∨ c.prevRune = 40 ∨ is_oper c.prevRune = true) →
      (256 ≤ (live g).length → switchRune 40 c g = .done (.fail c.wrongAt .complex g)) ∧
      ((live g).length < 256 → ∃ g1, push 40 g = .done g1 ∧ live g1 = 40 :: live g ∧
        switchRune 40 c g = .done (.next
          ⟨c.pointCount, 40, c.openParenthesisCount + 1, c.wrongAt, c.rpnText⟩ g1)) := by
    intro c g hg hp
    have hfull := stack_is_full_iff g hg
    obtain ⟨k1, k2⟩ := switchRune_open_capacity c g hp
    constructor
    · intro hl
      exact k1 (by rw [hfull]; simpa using hl)
    · intro hl
      have hf : stack_is_full g = false := by rw [hfull]; simpa using hl
      obtain ⟨g1, e1, e2⟩ := k2 hg hf
      obtain ⟨g2, e3, _, _, e4⟩ := push_ok 40 g hg hf
      rw [e1] at e3
      simp only [Exec.done.injEq] at e3
      subst e3
      exact ⟨g1, e1, e4, e2⟩
  have hoper : ∀ r c g, g.ok → is_oper r = true →
      (c.prevRune = 41 ∨ is_digit c.prevRune = true) →
      ∃ g1 text, operLoop r (popFuel g) g (c.rpnText ++ [32]) = .done (g1, text) ∧
        live g1 = (live g).dropWhile (operTest r) ∧
        (256 ≤ (live g1).length → switchRune r c g = .done (.fail c.wrongAt .complex g1)) ∧
        ((live g1).length < 256 → ∃ g2, push r g1 = .done g2 ∧ live g2 = r :: live g1 ∧
          switchRune r c g =
            .done (.next ⟨0, r, c.openParenthesisCount, c.wrongAt, text⟩ g2)) := by
    intro r c g hg hr hp
    obtain ⟨g1, text, e1, k1, k2, k3⟩ := switchRune_oper_capacity r c g hg hr hp
    obtain ⟨g0, e0, _, _, _, k4⟩ := operLoop_spec r (popFuel g) g (c.rpnText ++ [32]) hg
      (depth_lt_popFuel g)
    rw [e1] at e0
    simp only [Exec.done.injEq, Prod.mk.injEq] at e0
    rw [← e0.1] at k4
    have hfull := stack_is_full_iff g1 k1
    have hr256 : r % 256 = r := by
      have := (is_oper_iff r).1 hr
      omega
    refine ⟨g1, text, e1, k4, ?_, ?_⟩
    · intro hl
      exact k2 (by rw [hfull]; simpa using hl)
    · intro hl
      have hf : stack_is_full g1 = false := by rw [hfull]; simpa using hl
      obtain ⟨g2, e2, e3⟩ := k3 hf
      obtain ⟨g3, e4, _, _, e5⟩ := push_ok r g1 k1 hf
      rw [e2] at e4
      simp only [Exec.done.injEq] at e4
      subst e4
      rw [hr256] at e5
      exact ⟨g2, e2, e5, e3⟩
  refine ⟨?_, ?_, ?_, ?_, ?_, by decide, by decide, hopen, hoper, ?_, by decide, by decide⟩
  · rcases ToRPN_total ⟨-1, stack⟩ hok expression with ⟨t, g1, hs, hp⟩ | ⟨p, e, g1, hs, hk, _⟩
    · refine ⟨_, g1, hs, ?_⟩
      unfold Globals.ok OP_STACK_SIZE
      omega
    · exact ⟨_, g1, hs, hk⟩
  · intro pre rest c g _ hs
    obtain ⟨h1, _, h3⟩ := scan_next_inv pre Conv.init c ⟨-1, stack⟩ g (Inv_init _ hok) hs
    have h2 := h1.2
    unfold OP_STACK_SIZE at h2 ⊢
    refine ⟨h1.1, by omega, ?_, h3⟩
    unfold depth
    omega
  · intro g op hg
    constructor
    · intro hf
      obtain ⟨g1, e1, k1, k2, _⟩ := push_ok op g hg hf
      exact ⟨g1, e1, k1, k2⟩
    · exact push_full op g
  · intro c g out hi ho
    exact closeLoop_finds_paren c g out hi ho
  · intro r g out hg
    obtain ⟨g1, e1, k1, _, k3, _⟩ := operLoop_spec r (popFuel g) g out hg (depth_lt_popFuel g)
    exact ⟨g1, _, e1, k1, k3⟩
  · intro pre r rest c g hs hcase
    have hw : c.wrongAt = (pre.length : Int) := by
      have := scan_next_wrongAt _ pre Conv.init c _ g hs
      simpa [Conv.init] using this
    have hg : g.ok := (scan_next_inv pre Conv.init c ⟨-1, stack⟩ g (Inv_init _ hok) hs).1
    have hfail : r < 0x80 ∧ ∃ g2, switchRune r c g = .done (.fail c.wrongAt .complex g2) := by
      rcases hcase with ⟨rfl, hp, hl⟩ | ⟨hr, hp, hl⟩
      · exact ⟨by decide, g, (hopen c g hg hp).1 hl⟩
      · obtain ⟨g1, _, _, k1, k2, _⟩ := hoper r c g hg hr hp
        rw [← k1] at hl
        exact ⟨(is_oper_facts r hr).1, g1, k2 hl⟩
    obtain ⟨hr, g2, hsw⟩ := hfail
    have hsc := scan_append_fail pre ((pre ++ r :: rest).length + 1) r rest Conv.init
      ⟨-1, stack⟩ c g c.wrongAt .complex g2 hs hr hsw
      (by simp only [List.length_append, List.length_cons]; omega)
    unfold ToRPN
    rw [hsc, hw]
    rfl

/-- Witness of C14 on `"(3+4"`: after the accepted prefix `"(3+"` the stack holds
two entries. -/
theorem C14_stack_bounded_witness :
    (bytes "(3+4" = bytes "(3+" ++ bytes "4" ∧
      scan ((bytes "(3+").length + 1) (bytes "(3+") Conv.init ⟨-1, fun _ => 0⟩ =
        .done (.next ⟨0, 43, 1, 3, bytes "3 "⟩
          ⟨1, Function.update (Function.update (fun _ => 0) 0 40) 1 43⟩)) ∧
    (-1 ≤ (1 : Int) ∧ (1 : Int) + 1 ≤ OP_STACK_SIZE ∧
      depth ⟨1, Function.update (Function.update (fun _ => 0) 0 40) 1 43⟩ ≤ 256 ∧
      (1 : Int) ≤ ((live ⟨1, Function.update (Function.update (fun _ => 0) 0 40) 1 43⟩).count
        40 : Int)) :=
  ⟨⟨by decide, rfl⟩,
    (C14_stack_bounded (fun _ => 0) (bytes "(3+4")).2.1 (bytes "(3+") (bytes "4") _ _
      (by decide) rfl⟩

/-- C15 (as stated, refuted): with `^` on the stack and `+` scanned, the rule of
the claim pops nothing (`^` is not left-associative and `+` is not
right-associative), while the operator loop pops and emits `^`; so
`ToRPN("2^3+4")` is `"2 3 ^4+"`. -/
theorem C15_counterexample :
    specPopTest 43 94 = false ∧
    List.takeWhile (specPopTest 43) (live ⟨0, Function.update (fun _ => 0) 0 94⟩) = [] ∧
    (operLoop 43 (popFuel ⟨0, Function.update (fun _ => 0) 0 94⟩)
      ⟨0, Function.update (fun _ => 0) 0 94⟩ []).map (fun p => (p.2, live p.1)) =
        .done ([94], []) ∧
    (ToRPN fresh (bytes "2^3+4")).fst = .done (bytes "2 3 ^4+", -1, none) := by
  decide

/-- C15 (amended): shunting-yard pop rule.  For every scanned rune `r` and every
stack content, the entries the operator loop pops and emits are exactly the
maximal run of stack tops `h` satisfying (`r` is left-associative and
`priority(h) ≥ priority(r)`) or (`r` is right-associative and
`priority(h) > priority(r)`): it is the scanned operator whose associativity
decides in both halves of the test.  The operators `+ - * /` are left-associative
and `% ^` right-associative.  The `switch` then pushes `r` on what is left, or
fails with "Complex expression" when that is full. -/
theorem C15_pop_rule (r : Nat) (g : Globals) (out : List Nat) (hok : g.ok) :
    (∃ g1 popped, operLoop r (popFuel g) g out = .done (g1, out ++ popped.flatMap runeString) ∧
      live g = popped ++ live g1 ∧ g1.stack = g.stack ∧
      (∀ h ∈ popped, operTest r h = true) ∧
      (∀ h, (live g1).head? = some h → operTest r h = false) ∧
      (∀ c : Conv, is_oper r = true → (c.prevRune = 41 ∨ is_digit c.prevRune = true) →
        (switchRune r c g).map Step.view =
          if 256 ≤ (live g1).length then .done (.fail c.wrongAt .complex (live g1))
          else .done (.next ⟨0, r, c.openParenthesisCount, c.wrongAt,
            c.rpnText ++ [32] ++ popped.flatMap runeString⟩ (r :: live g1)))) ∧
    (∀ op top, operTest op top = true ↔
      (left_assoc op = true ∧ priority top ≥ priority op) ∨
      (right_assoc op = true ∧ priority top > priority op)) ∧
    (∀ op, left_assoc op = true ↔ op = 43 ∨ op = 45 ∨ op = 42 ∨ op = 47) ∧
    (∀ op, right_assoc op = true ↔ op = 37 ∨ op = 94) := by
  refine ⟨?_, ?_, ?_, ?_⟩
  · obtain ⟨g1, e1, k1, k2, _, k4⟩ := operLoop_spec r (popFuel g) g out hok (depth_lt_popFuel g)
    refine ⟨g1, (live g).takeWhile (operTest r), e1, ?_, k2, ?_, ?_, ?_⟩
    · rw [k4, List.takeWhile_append_dropWhile]
    · intro h hh
      exact List.mem_takeWhile_imp hh
    · intro h hh
      rw [k4] at hh
      have := List.head?_dropWhile_not (operTest r) (live g)
      rw [hh] at this
      simpa using this
    · intro c hr hp
      have hop := (is_oper_iff r).1 hr
      have hq : ¬ (c.prevRune ≠ 41 ∧ ¬ is_digit c.prevRune = true) := by
        rintro ⟨a, b⟩
        rcases hp with h | h
        · exact a h
        · exact b h
      rw [(switchRune_view r c g hok).1, k4]
      unfold switchL
      rw [if_neg (by omega), if_neg (by omega), if_pos hop, if_neg hq]
  · intro op top
    simp [operTest]
  · intro op
    simp [left_assoc]
    omega
  · intro op
    simp [right_assoc]

/-- Witness of the amended C15: `+` scanned with `^` on the stack. -/
theorem C15_pop_rule_witness :
    Globals.ok ⟨0, Function.update (fun _ => 0) 0 94⟩ ∧
    ∃ g1 popped, operLoop 43 (popFuel ⟨0, Function.update (fun _ => 0) 0 94⟩)
        ⟨0, Function.update (fun _ => 0) 0 94⟩ [] =
          .done (g1, [] ++ popped.flatMap runeString) ∧
      live ⟨0, Function.update (fun _ => 0) 0 94⟩ = popped ++ live g1 ∧
      (∀ h ∈ popped, operTest 43 h = true) ∧
      (∀ h, (live g1).head? = some h → operTest 43 h = false) :=
  have hok : Globals.ok ⟨0, Function.update (fun _ => 0) 0 94⟩ := by
    unfold Globals.ok OP_STACK_SIZE; decide
  ⟨hok,
    match (C15_pop_rule 43 ⟨0, Function.update (fun _ => 0) 0 94⟩ [] hok).1 with
    | ⟨g1, popped, h1, h2, _, h4, h5, _⟩ => ⟨g1, popped, h1, h2, h4, h5⟩⟩

/-- C16: when `ToRPN` succeeds from an empty operator stack, deleting the
operator characters from the RPN text gives the expression with its parentheses
deleted and each operator replaced by one space; no parenthesis is in the text;
each operator of the expression is in the text exactly as often as in the
expression; the digits and points are those of the expression in the same
order; and the text holds one separator per operator scanned. -/
theorem C16_output_format (stack : Nat → Nat) (expression text : List Nat) (pos : Int)
    (g1 : Globals) (h : ToRPN ⟨-1, stack⟩ expression = .done ((text, pos, none), g1)) :
    withoutOpers text = skeleton expression ∧
    (∀ x ∈ text, x ≠ 40 ∧ x ≠ 41) ∧
    (∀ o, is_oper o = true → text.count o = expression.count o) ∧
    text.filter numByte = expression.filter numByte ∧
    text.count 32 = expression.countP is_oper := by
  obtain ⟨c, l, _, hT, hops, ht⟩ := ToRPN_ok_shape stack expression text pos g1 h
  obtain ⟨_, _, hw, hcnt, hpar⟩ := hT
  have hsk : withoutOpers text = skeleton expression := by
    rw [ht, withoutOpers_append, withoutOpers_opers l hops, List.append_nil, hw]
  refine ⟨hsk, ?_, ?_, ?_, ?_⟩
  · intro x hx
    rw [ht] at hx
    rcases List.mem_append.1 hx with hx | hx
    · exact hpar x hx
    · exact opers_no_paren l hops x hx
  · intro o ho
    rw [ht, List.count_append]
    exact hcnt o ho
  · rw [← withoutOpers_filter_num, hsk, skeleton_filter_num]
  · rw [← withoutOpers_count_sep, hsk]
    exact skeleton_count_sep expression (ToRPN_ok_grammar _ expression text pos g1 h).1

/-- C16 at "(1+2)*3^4": the text is "1 2+ 3 4^*", which without its operators
is "1 2 3 4", the expression without parentheses and with spaces for operators. -/
theorem C16_output_format_witness :
    ToRPN ⟨-1, fun _ => 0⟩ (bytes "(1+2)*3^4") =
      .done ((bytes "1 2+ 3 4^*", -1, none),
        ⟨-1, Function.update (Function.update (Function.update (Function.update
          (fun _ => 0) 0 40) 1 43) 0 42) 1 94⟩) ∧
    withoutOpers (bytes "1 2+ 3 4^*") = skeleton (bytes "(1+2)*3^4") ∧
    (∀ x ∈ bytes "1 2+ 3 4^*", x ≠ 40 ∧ x ≠ 41) ∧
    (∀ o, is_oper o = true → (bytes "1 2+ 3 4^*").count o = (bytes "(1+2)*3^4").count o) ∧
    (bytes "1 2+ 3 4^*").filter numByte = (bytes "(1+2)*3^4").filter numByte ∧
    (bytes "1 2+ 3 4^*").count 32 = (bytes "(1+2)*3^4").countP is_oper :=
  have h : ToRPN ⟨-1, fun _ => 0⟩ (bytes "(1+2)*3^4") =
      .done ((bytes "1 2+ 3 4^*", -1, none),
        ⟨-1, Function.update (Function.update (Function.update (Function.update
          (fun _ => 0) 0 40) 1 43) 0 42) 1 94⟩) := by
    rfl
  ⟨h, C16_output_format _ _ _ _ _ h⟩

/-- C17 (as stated, refuted): on the empty RPN text the scan ends with no value
on the operand stack, and `calculateRPN` returns the value 0 with a nil error,
not the error "I need more operations". -/
theorem C17_counterexample :
    (∃ st rd, evalAll exactOps [] 0 (fun _ => exactOps.zero) = .done (.next 0 st rd)) ∧
    calculateRPN exactOps [] = .done (some 0, none) :=
  ⟨⟨_, _, rfl⟩, rfl⟩

/-- C17 (amended): for every RPN text, `calculateRPN` returns a value with a nil
error exactly when the scan ends without error with one value on the operand
stack, which is the result, or with none, where the result is 0; it returns the
error "I need more operations" exactly when the scan ends without error with more
than one value on the stack. -/
theorem C17_final_check {F : Type} (A : Float64 F) (rpnText : List Nat) :
    (∀ v, calculateRPN A rpnText = .done (v, none) ↔
      ∃ n st rd, evalAll A rpnText 0 (fun _ => A.zero) = .done (.next n st rd) ∧
        ((n = 1 ∧ v = st 0) ∨ (n = 0 ∧ v = A.zero))) ∧
    (calculateRPN A rpnText = .done (A.zero, some .needMoreOperations) ↔
      ∃ n st rd, evalAll A rpnText 0 (fun _ => A.zero) = .done (.next n st rd) ∧ 1 < n) ∧
    calculateRPN A [] = .done (A.zero, none) ∧
    EvalErr.needMoreOperations.message = some "I need more operations" := by
  have hdef : evalAll A rpnText 0 (fun _ => A.zero) =
      evalLoop A (rpnText.length + 1) rpnText 0 (fun _ => A.zero) := rfl
  refine ⟨?_, ?_, rfl, by decide⟩
  · intro v
    unfold calculateRPN
    rw [hdef]
    cases he : evalLoop A (rpnText.length + 1) rpnText 0 (fun _ => A.zero) with
    | done s =>
      cases s with
      | fail e => simp
      | next n st rd =>
        obtain ⟨j0, _, jz⟩ := evalLoop_inv A _ rpnText 0 (fun _ => A.zero) n st rd (le_refl _)
          (by unfold NUM_STACK_SIZE; omega) (fun _ => rfl) he
        simp only
        by_cases hn : n > 1
        · rw [if_pos hn]
          simp only [Exec.done.injEq, Prod.mk.injEq, reduceCtorEq, and_false, false_iff,
            EvalStep.next.injEq, not_exists, not_and]
          rintro n2 st2 rd2 ⟨rfl, rfl, rfl⟩
          omega
        · rw [if_neg hn]
          constructor
          · intro h
            simp only [Exec.done.injEq, Prod.mk.injEq, and_true] at h
            refine ⟨n, st, rd, rfl, ?_⟩
            by_cases h1 : n = 1
            · exact Or.inl ⟨h1, h.symm⟩
            · have hz : n = 0 := by omega
              exact Or.inr ⟨hz, by rw [← h, jz hz]⟩
          · rintro ⟨n2, st2, rd2, heq, hv⟩
            simp only [Exec.done.injEq, EvalStep.next.injEq] at heq
            obtain ⟨rfl, rfl, rfl⟩ := heq
            rcases hv with ⟨_, hv⟩ | ⟨hz, hv⟩
            · rw [hv]
            · rw [hv, jz hz]
    | panic => simp
    | timeout => simp
  · unfold calculateRPN
    rw [hdef]
    cases he : evalLoop A (rpnText.length + 1) rpnText 0 (fun _ => A.zero) with
    | done s =>
      cases s with
      | fail e =>
        simp only [Exec.done.injEq, Prod.mk.injEq, Option.some.injEq, true_and, reduceCtorEq,
          false_and, exists_false, iff_false]
        intro hc
        rcases evalLoop_fail A _ rpnText 0 (fun _ => A.zero) e he with ⟨r, hr⟩ | hr
        · rw [hr] at hc; simp at hc
        · rw [hr] at hc; simp at hc
      | next n st rd =>
        simp only
        by_cases hn : n > 1
        · rw [if_pos hn]
          simp only [true_iff]
          exact ⟨n, st, rd, rfl, hn⟩
        · rw [if_neg hn]
          simp only [Exec.done.injEq, Prod.mk.injEq, reduceCtorEq, and_false, false_iff,
            EvalStep.next.injEq, not_exists, not_and]
          rintro n2 st2 rd2 ⟨rfl, rfl, rfl⟩
          omega
    | panic => simp
    | timeout => simp

/-- C18: evaluator step on an operator.  With `st_cnt` values on the operand stack
(`st_cnt ≤ NUM_STACK_SIZE`), the step fails with "Can't do 'op', few operands"
iff `st_cnt < 2`.  Otherwise the indexes `st_cnt - 2` and `st_cnt - 1` it uses lie
inside the array, the slot `st_cnt - 2` receives `lhs op rhs`, where `rhs` is the
top value (slot `st_cnt - 1`, pushed later) and `lhs` the value below it, every
other slot is left as it was, and `st_cnt` is lowered by one. -/
theorem C18_operator_step {F : Type} (A : Float64 F) (r : Nat) (before after : List Nat)
    (n : Int) (st : Nat → F) (hr : is_oper r = true) (h1 : n ≤ NUM_STACK_SIZE) :
    (evalRune A r before after n st = .done (.fail (.fewOperands r)) ↔ n < 2) ∧
    (2 ≤ n → 0 ≤ n - 2 ∧ n - 1 < NUM_STACK_SIZE ∧
      ∃ st1, evalRune A r before after n st = .done (.next (n - 1) st1 after) ∧
        st1 (n - 2).toNat = A.oper r (st (n - 2).toNat) (st (n - 1).toNat) ∧
        ∀ i, i ≠ (n - 2).toNat → st1 i = st i) ∧
    (A.oper 43 = A.add ∧ A.oper 45 = A.sub ∧ A.oper 42 = A.mul ∧ A.oper 47 = A.div ∧
      A.oper 94 = A.Pow ∧ A.oper 37 = A.Mod) ∧
    (EvalErr.fewOperands 43).message = some "Can't do '+', few operands" := by
  have hN : NUM_STACK_SIZE = 32 := rfl
  have hstep : 2 ≤ n → evalRune A r before after n st = .done (.next (n - 1)
      (Function.update st (n - 2).toNat (A.oper r (st (n - 2).toNat) (st (n - 1).toNat)))
      after) := by
    intro h2
    have hap := applyOper_spec A r (n - 1) st hr (by omega) (by omega)
    have hn2 : n - 1 - 1 = n - 2 := by omega
    rw [hn2] at hap
    have hn : ¬ n < 2 := by omega
    simp only [evalRune, hr, if_true, if_neg hn, hap]
  refine ⟨?_, ?_, ⟨rfl, rfl, rfl, rfl, rfl, rfl⟩, by decide⟩
  · constructor
    · intro h
      by_contra hc
      rw [hstep (by omega)] at h
      simp at h
    · intro h2
      simp only [evalRune, hr, if_true, if_pos h2]
  · intro h2
    refine ⟨by omega, by omega, _, hstep h2, by simp, ?_⟩
    intro i hi
    exact Function.update_noteq hi _ _

/-- Witness of C18: `-` applied with the two values 8 and 3 on the stack. -/
theorem C18_operator_step_witness :
    (is_oper 45 = true ∧ (2 : Int) ≤ NUM_STACK_SIZE) ∧
    (evalRune exactOps 45 [45] [] 2
        (Function.update (Function.update (fun _ => some 0) 0 (some 8)) 1 (some 3)) =
      .done (.fail (.fewOperands 45)) ↔ (2 : Int) < 2) ∧
    ((2 : Int) ≤ 2 → (0 : Int) ≤ 2 - 2 ∧ (2 : Int) - 1 < NUM_STACK_SIZE ∧
      ∃ st1, evalRune exactOps 45 [45] [] 2
          (Function.update (Function.update (fun _ => some 0) 0 (some 8)) 1 (some 3)) =
        .done (.next (2 - 1) st1 []) ∧
        st1 ((2 : Int) - 2).toNat = exactOps.oper 45
          ((Function.update (Function.update (fun _ => some 0) 0 (some 8)) 1 (some 3))
            ((2 : Int) - 2).toNat)
          ((Function.update (Function.update (fun _ => some 0) 0 (some 8)) 1 (some 3))
            ((2 : Int) - 1).toNat) ∧
        ∀ i, i ≠ ((2 : Int) - 2).toNat → st1 i =
          (Function.update (Function.update (fun _ => some 0) 0 (some 8)) 1 (some 3)) i) ∧
    exactOps.oper 45 (some 8) (some 3) = some 5 :=
  have h := C18_operator_step exactOps 45 [45] [] 2
    (Function.update (Function.update (fun _ => some 0) 0 (some 8)) 1 (some 3))
    (by decide) (by decide)
  ⟨⟨by decide, by decide⟩, h.1, h.2.1, by decide⟩

/-- C19: when `ToRPN` succeeds from an empty operator stack on an expression
that has a last character and that character is not an operator, the RPN text
has exactly one more number run than operators, and every operator of the text
has before it at least two more number runs than operators; so `calculateRPN` on
the text returns a nil error or the operand-stack overflow "Complex expression",
never "few operands" nor "I need more operations".  The accepted expression "3+",
which ends in an operator, converts to "3 +", on which `calculateRPN` fails with
"few operands" for `+`.  (On the empty expression, which has no last character,
the text is empty and `calculateRPN` returns zero with a nil error.) -/
theorem C19_arity_well_formed (stack : Nat → Nat) (expression text : List Nat) (pos : Int)
    (g1 : Globals) (h : ToRPN ⟨-1, stack⟩ expression = .done ((text, pos, none), g1))
    (b : Nat) (hlast : expression.getLast? = some b) (hb : is_oper b = false) :
    numRuns false text = text.countP is_oper + 1 ∧
    (∀ p o s, text = p ++ o :: s → is_oper o = true →
      p.countP is_oper + 2 ≤ numRuns false p) ∧
    (∀ (F : Type) (A : Float64 F), (∃ v, calculateRPN A text = .done (v, none)) ∨
      calculateRPN A text = .done (A.zero, some .complex)) ∧
    ToRPN fresh (bytes "3+") =
      .done ((bytes "3 +", -1, none), ⟨-1, Function.update (fun _ => 0) 0 43⟩) ∧
    (∀ (F : Type) (A : Float64 F),
      calculateRPN A (bytes "3 +") = .done (A.zero, some (.fewOperands 43))) ∧
    ToRPN fresh [] = .done (([], -1, none), fresh) ∧
    (∀ (F : Type) (A : Float64 F), calculateRPN A [] = .done (A.zero, none)) := by
  obtain ⟨r, ha⟩ := ToRPN_ok_arity stack expression text pos g1 h b hlast hb
  obtain ⟨c, l, _, hT, hops, ht⟩ := ToRPN_ok_shape stack expression text pos g1 h
  have hsk : withoutOpers text = skeleton expression := by
    rw [ht, withoutOpers_append, withoutOpers_opers l hops, List.append_nil, hT.2.2.1]
  have hasc := text_ascii expression text hsk (ToRPN_ok_grammar _ expression text pos g1 h).1
  refine ⟨?_, ?_, fun F A => calculateRPN_arity A text r hasc ha, rfl, fun F A => rfl, rfl,
    fun F A => rfl⟩
  · have := arity_count text false 0 r 1 ha
    omega
  · intro p o s hp ho
    rw [hp] at ha
    exact arity_operator p s o ho r 1 ha

/-- C19 at "3+4*2", whose last character is the digit 2: the text "3 4 2*+" has
three number runs and two operators. -/
theorem C19_arity_well_formed_witness :
    ToRPN ⟨-1, fun _ => 0⟩ (bytes "3+4*2") =
      .done ((bytes "3 4 2*+", -1, none),
        ⟨-1, Function.update (Function.update (fun _ => 0) 0 43) 1 42⟩) ∧
    (bytes "3+4*2").getLast? = some 50 ∧ is_oper 50 = false ∧
    (numRuns false (bytes "3 4 2*+") = (bytes "3 4 2*+").countP is_oper + 1 ∧
    (∀ p o s, bytes "3 4 2*+" = p ++ o :: s → is_oper o = true →
      p.countP is_oper + 2 ≤ numRuns false p) ∧
    (∀ (F : Type) (A : Float64 F), (∃ v, calculateRPN A (bytes "3 4 2*+") = .done (v, none)) ∨
      calculateRPN A (bytes "3 4 2*+") = .done (A.zero, some .complex)) ∧
    ToRPN fresh (bytes "3+") =
      .done ((bytes "3 +", -1, none), ⟨-1, Function.update (fun _ => 0) 0 43⟩) ∧
    (∀ (F : Type) (A : Float64 F),
      calculateRPN A (bytes "3 +") = .done (A.zero, some (.fewOperands 43))) ∧
    ToRPN fresh [] = .done (([], -1, none), fresh) ∧
    (∀ (F : Type) (A : Float64 F), calculateRPN A [] = .done (A.zero, none))) :=
  ⟨rfl, by decide, by decide,
    C19_arity_well_formed (fun _ => 0) (bytes "3+4*2") (bytes "3 4 2*+") (-1) _ rfl 50
      (by decide) (by decide)⟩

/-- C20: for every expression and every content of the operator stack at entry
(with `stack_ptr` in the range the code keeps it in), a call of `ToRPN` that
succeeds leaves `stack_ptr = -1`, so the results of a following `ToRPN` or
`Calculate` are those of a fresh program; the failed call `ToRPN("1+(")` returns
with `stack_ptr = 1` and the entries `+` and `(` on the stack. -/
theorem C20_success_empties_stack (g : Globals) (hok : g.ok) (expression text : List Nat)
    (pos : Int) (g1 : Globals) (h : ToRPN g expression = .done ((text, pos, none), g1)) :
    g1.stack_ptr = -1 ∧
    (∀ e2, (ToRPN g1 e2).fst = (ToRPN fresh e2).fst) ∧
    (∀ (F : Type) (A : Float64 F) e2, (Calculate A g1 e2).fst = (Calculate A fresh e2).fst) ∧
    ToRPN fresh (bytes "1+(") =
      .done (([], 3, some .missingClose),
        ⟨1, Function.update (Function.update (fun _ => 0) 0 43) 1 40⟩) ∧
    live ⟨1, Function.update (Function.update (fun _ => 0) 0 43) 1 40⟩ = [40, 43] := by
  have h1 := ToRPN_ok_empties g hok expression text pos g1 h
  exact ⟨h1, fun e2 => ToRPN_fst_of_empty g1 h1 e2,
    fun F A e2 => Calculate_fst_congr A g1 fresh e2 (ToRPN_fst_of_empty g1 h1 e2),
    rfl, by decide⟩

/-- C20 at the stack left by the failed call `ToRPN("1+a")`, which holds `+`:
the call `ToRPN("2+3")` succeeds from it with the text "2 +3+" and leaves the
stack empty. -/
theorem C20_success_empties_stack_witness :
    (⟨0, Function.update (fun _ => 0) 0 43⟩ : Globals).ok ∧
    ToRPN ⟨0, Function.update (fun _ => 0) 0 43⟩ (bytes "2+3") =
      .done ((bytes "2 +3+", -1, none),
        ⟨-1, Function.update (Function.update (fun _ => 0) 0 43) 0 43⟩) ∧
    ((⟨-1, Function.update (Function.update (fun _ => 0) 0 43) 0 43⟩ : Globals).stack_ptr = -1 ∧
    (∀ e2, (ToRPN ⟨-1, Function.update (Function.update (fun _ => 0) 0 43) 0 43⟩ e2).fst =
      (ToRPN fresh e2).fst) ∧
    (∀ (F : Type) (A : Float64 F) e2,
      (Calculate A ⟨-1, Function.update (Function.update (fun _ => 0) 0 43) 0 43⟩ e2).fst =
        (Calculate A fresh e2).fst) ∧
    ToRPN fresh (bytes "1+(") =
      .done (([], 3, some .missingClose),
        ⟨1, Function.update (Function.update (fun _ => 0) 0 43) 1 40⟩) ∧
    live ⟨1, Function.update (Function.update (fun _ => 0) 0 43) 1 40⟩ = [40, 43]) :=
  have hok : (⟨0, Function.update (fun _ => 0) 0 43⟩ : Globals).ok := by
    unfold Globals.ok OP_STACK_SIZE; decide
  ⟨hok, rfl, C20_success_empties_stack _ hok (bytes "2+3") (bytes "2 +3+") (-1) _ rfl⟩

end Rpn
